import Mathlib

/-!
# gom: dependency scanner, VCS root locator and lock filter (`gen.go`)

A shallow embedding of `gen.go`.  Go strings are Lean strings; the functions
of the Go standard library that `gen.go` calls on strings (`strings.Contains`,
`strings.HasPrefix`, `build.IsLocalImport`, `filepath.Clean`, `filepath.Join`,
`filepath.Dir`, Unix flavour) are embedded from the Go sources.  These functions
look only at the bytes '.' and '/', which are single ASCII characters, so working
on characters instead of bytes changes nothing.  What the program reads from its
environment (`build.Import`, `isDir`, `vendorSrc`, `matchEnv`, `matchOS`) is a
parameter of the embedded functions.  Loops and recursions that need not end
(`scanDirectory`, the `for` of `getVCSRoot`) carry a bound `fuel` and return
`none` when it is hit.

The file system is a state `FS` passed through `genGomfile`, `genGomfileLock` and
`sanitize`: the directories and the regular files, each under the path string the
program uses for it ("Gomfile" and "Gomfile.lock" in the working directory, the
vendor tree under the absolute vendor root).  What `genGomfileLock` takes from
outside `gen.go` (`parseGom`, `filepath.Abs`, `matchEnv`, `matchOS`, `vendorSrc`,
`internalRoots`, `vcs.Revision`) is the record `LockEnv`; the options map of a
parsed entry is taken to be non-nil.  A run that panics does not return, like one
that loops.
-/

namespace GenGo

/-! ## Go standard library: strings -/

/-- Go `strings.Contains(s, substr)`: `substr` occurs in `s` as a contiguous run. -/
def stringsContains (s substr : String) : Bool :=
  decide (substr.data <:+: s.data)

/-- Go `strings.HasPrefix(s, pre)`. -/
def stringsHasPrefix (s pre : String) : Bool :=
  pre.data.isPrefixOf s.data

/-- Go `build.IsLocalImport(path)`: `path` is ".", "..", or starts with "./" or "../". -/
def IsLocalImport (path : String) : Bool :=
  path == "." || path == ".." || stringsHasPrefix path "./" || stringsHasPrefix path "../"

/-! ## The import scanner (`gen.go` lines 37-83) -/

/-- `isStandardImport` of `gen.go`: `!strings.Contains(path, ".")`. -/
def isStandardImport (path : String) : Bool :=
  !stringsContains path "."

/-- `appendPkg` of `gen.go`: `pkgs` itself when some element equals `pkg`,
`append(pkgs, pkg)` otherwise. -/
def appendPkg (pkgs : List String) (pkg : String) : List String :=
  if pkgs.any (fun ele => ele == pkg) then pkgs else pkgs ++ [pkg]

/-- `appendPkgs` of `gen.go`: `appendPkg` folded over `more`, left to right. -/
def appendPkgs (pkgs more : List String) : List String :=
  more.foldl appendPkg pkgs

/-- The two fields of Go's `build.Package` that `scanDirectory` reads. -/
structure Package where
  Dir : String
  Imports : List String

/-- The environment of the scanner: `build.Import(path, srcDir, build.AllowBinary)`,
returning the package or an error (the error's message). -/
abbrev Importer := String → String → Except String Package

/-- What one call of `scanDirectory` returns: the pair `(ret, err)`, `err = none` for `nil`. -/
abbrev ScanResult := List String × Option String

/-- The `for _, imp := range pkg.Imports` loop of `scanDirectory`, run from the
accumulator `ret`; `scan` is the recursive call, `dir` is `pkg.Dir`.
`none` is a recursive call that does not return. -/
def scanLoop (scan : String → String → Option ScanResult) (dir : String) :
    List String → List String → Option ScanResult
  | [], ret => some (ret, none)
  | imp :: rest, ret =>
    if isStandardImport imp then
      -- Ignore standard packages
      scanLoop scan dir rest ret
    else
      -- `case !build.IsLocalImport(imp)`: add the external package, then fall through
      let ret1 := if !IsLocalImport imp then appendPkg ret imp else ret
      -- `default`: the recursive walk
      match scan imp dir with
      | none => none
      | some (_, some err) => some (ret1, some err)
      | some (pkgs, none) => scanLoop scan dir rest (appendPkgs ret1 pkgs)

/-- The value of `ret` in `scanDirectory` when the recursive call on `imp` is made:
`appendPkg(ret, imp)` after the `case !build.IsLocalImport(imp)` branch, `ret` itself
in the `default` branch. -/
def recordImport (ret : List String) (imp : String) : List String :=
  if !IsLocalImport imp then appendPkg ret imp else ret

/-- `scanDirectory` of `gen.go`, with the recursion depth bounded by `fuel`:
`none` when the bound is hit, `some (ret, err)` when the call returns. -/
def scanDirectory (bi : Importer) : Nat → String → String → Option ScanResult
  | 0, _, _ => none
  | fuel + 1, path, srcDir =>
    match bi path srcDir with
    | .error err => some ([], some err)
    | .ok pkg => scanLoop (scanDirectory bi fuel) pkg.Dir pkg.Imports []

/-- One recursive invocation of `scanDirectory`: its arguments `(path, srcDir)`. -/
abbrev Call := String × String

/-- The loop of `scanDirectory`, also listing, in order, every recursive
invocation made from it (direct or nested). -/
def scanLoopT (scan : String → String → List Call × Option ScanResult) (dir : String) :
    List String → List String → List Call × Option ScanResult
  | [], ret => ([], some (ret, none))
  | imp :: rest, ret =>
    if isStandardImport imp then
      scanLoopT scan dir rest ret
    else
      let ret1 := if !IsLocalImport imp then appendPkg ret imp else ret
      match scan imp dir with
      | (t, none) => ((imp, dir) :: t, none)
      | (t, some (_, some err)) => ((imp, dir) :: t, some (ret1, some err))
      | (t, some (pkgs, none)) =>
        let r := scanLoopT scan dir rest (appendPkgs ret1 pkgs)
        ((imp, dir) :: t ++ r.1, r.2)

/-- `scanDirectory` together with the list of the recursive invocations it makes
(down to depth `fuel`); the second component is `scanDirectory`. -/
def scanDirectoryT (bi : Importer) : Nat → String → String → List Call × Option ScanResult
  | 0, _, _ => ([], none)
  | fuel + 1, path, srcDir =>
    match bi path srcDir with
    | .error err => ([], some ([], some err))
    | .ok pkg => scanLoopT (scanDirectoryT bi fuel) pkg.Dir pkg.Imports []

/-! ## The import graph -/

/-- A package occurrence: an import path and the directory it is resolved from. -/
abbrev Node := String × String

/-- The import relation the scanner follows: `a` resolves to a package that
declares the non-standard import `b.1`, and `b.2` is that package's directory. -/
def Edge (bi : Importer) (a b : Node) : Prop :=
  ∃ pkg, bi a.1 a.2 = .ok pkg ∧ b.1 ∈ pkg.Imports ∧ isStandardImport b.1 = false ∧ b.2 = pkg.Dir

/-- Node `b` is reached from `a` by following non-standard imports. -/
def Reach (bi : Importer) (a b : Node) : Prop :=
  Relation.ReflTransGen (Edge bi) a b

/-- Package occurrence `a` resolves and declares the import string `imp`. -/
def Declares (bi : Importer) (a : Node) (imp : String) : Prop :=
  ∃ pkg, bi a.1 a.2 = .ok pkg ∧ imp ∈ pkg.Imports

/-- An import string is external: it contains a "." and is not a local import. -/
def isExternal (imp : String) : Bool :=
  !isStandardImport imp && !IsLocalImport imp

/-- The import graph scanned from `root` is finite: finitely many edges leave the
nodes reached from `root`. -/
def FiniteGraph (bi : Importer) (root : Node) : Prop :=
  Set.Finite {e : Node × Node | Reach bi root e.1 ∧ Edge bi e.1 e.2}

/-- The import graph scanned from `root` has no cycle: no node reached from
`root` imports itself through one or more steps. -/
def Acyclic (bi : Importer) (root : Node) : Prop :=
  ∀ a, Reach bi root a → ¬ Relation.TransGen (Edge bi) a a

/-- Every package reached from `a` resolves. -/
def AllResolve (bi : Importer) (a : Node) : Prop :=
  ∀ b, Reach bi a b → ∃ pkg, bi b.1 b.2 = .ok pkg

/-! ## Go standard library: path/filepath (Unix) -/

/-- The backtracking of `filepath.Clean` on a ".." element,
`for out.w > dotdot && !os.IsPathSeparator(out.index(out.w)) { out.w-- }`,
on the reversed buffer `out[0..w]` (its head is the byte at index `w`). -/
def unwind (dotdot : Nat) : List Char → List Char
  | [] => []
  | c :: rev => if rev.length > dotdot && c != '/' then unwind dotdot rev else rev

/-- The `out.w--` and the loop after it: drop the last path element of `out`. -/
def backtrack (dotdot : Nat) (out : List Char) : List Char :=
  (unwind dotdot out.reverse).reverse

/-- The main loop `for r < n` of `filepath.Clean`: `rest` is `path[r:]`, `out` the
buffer `out[0:w]`.  Every iteration consumes at least one byte of `rest`, so
`fuel = n` iterations are enough. -/
def cleanLoop (rooted : Bool) : Nat → List Char → List Char → Nat → List Char
  | 0, _, out, _ => out
  | fuel + 1, rest, out, dotdot =>
    match rest with
    | [] => out
    | c :: rest1 =>
      if c == '/' then
        -- empty path element
        cleanLoop rooted fuel rest1 out dotdot
      else if c == '.' && (rest1.isEmpty || rest1.head? == some '/') then
        -- . element
        cleanLoop rooted fuel rest1 out dotdot
      else if c == '.' && rest1.head? == some '.'
          && (rest1.tail.isEmpty || rest1.tail.head? == some '/') then
        -- .. element: remove to last separator
        if out.length > dotdot then
          cleanLoop rooted fuel rest1.tail (backtrack dotdot out) dotdot
        else if !rooted then
          let out1 := if out.length > 0 then out ++ ['/'] else out
          let out2 := out1 ++ ['.', '.']
          cleanLoop rooted fuel rest1.tail out2 out2.length
        else
          cleanLoop rooted fuel rest1.tail out dotdot
      else
        -- real path element: add slash if needed, copy element
        let out1 :=
          if (rooted && out.length != 1) || (!rooted && out.length != 0) then out ++ ['/']
          else out
        cleanLoop rooted fuel (rest.dropWhile (fun x => x != '/'))
          (out1 ++ rest.takeWhile (fun x => x != '/')) dotdot

/-- Go `filepath.Clean(path)` on Unix (no volume name, separator '/'). -/
def Clean (path : String) : String :=
  if path.data.isEmpty then "."
  else
    let rooted := path.data.head? == some '/'
    let out :=
      if rooted then cleanLoop rooted path.data.length path.data.tail ['/'] 1
      else cleanLoop rooted path.data.length path.data [] 0
    -- Turn empty string into "."
    if out.isEmpty then "." else String.mk out

/-- Go `filepath.Join(elem...)` on Unix: the elements from the first non-empty one
on, joined by '/', cleaned; "" when every element is empty. -/
def Join (elem : List String) : String :=
  match elem.dropWhile (fun e => e.data.isEmpty) with
  | [] => ""
  | es => Clean (String.intercalate "/" es)

/-- Go `filepath.Dir(path)` on Unix: `Clean` of `path` up to and including its
last separator. -/
def Dir (path : String) : String :=
  Clean (String.mk (path.data.reverse.dropWhile (fun x => x != '/')).reverse)

/-! ## The VCS root locator (`gen.go` lines 111-134) -/

/-- The three `*vcsCmd` values `git`, `hg`, `bzr` that `gen.go` refers to. -/
inductive VcsCmd
  | git
  | hg
  | bzr
  deriving DecidableEq, Repr

/-- The `dir` field of a `vcsCmd`: the name of its metadata directory. -/
def VcsCmd.dir : VcsCmd → String
  | .git => ".git"
  | .hg => ".hg"
  | .bzr => ".bzr"

/-- `getVCSRoot` of `gen.go`; `isDir` and `vendorSrc` are the program's functions
of these names, `fuel` bounds the iterations of the `for` loop (`none`: the bound
is hit).  The result is the returned pair, `none` in it for a nil `*vcsCmd`. -/
def getVCSRoot (isDir : String → Bool) (vendorSrc : String → String) :
    Nat → String → String → Option (String × Option VcsCmd)
  | 0, _, _ => none
  | fuel + 1, vendor, name =>
    let p := Join [vendorSrc vendor, name]
    let vcs : Option VcsCmd :=
      if isDir (Join [p, ".git"]) then some VcsCmd.git
      else if isDir (Join [p, ".hg"]) then some VcsCmd.hg
      else if isDir (Join [p, ".bzr"]) then some VcsCmd.bzr
      else none
    match vcs with
    | some v => some (p, some v)
    | none =>
      let name1 := Dir name
      if "." == name1 then some ("", none)
      else getVCSRoot isDir vendorSrc fuel vendor name1

/-- Some metadata directory (.git, .hg or .bzr) exists at path `p`. -/
def hasMeta (isDir : String → Bool) (p : String) : Bool :=
  isDir (Join [p, ".git"]) || isDir (Join [p, ".hg"]) || isDir (Join [p, ".bzr"])

/-- `vendorSrc` of the gom sources: the "src" directory under the vendor root. -/
def vendorSrcDir (vendor : String) : String :=
  Join [vendor, "src"]

/-- A file system whose directories are exactly the listed paths. -/
def dirsOf (dirs : List String) : String → Bool :=
  fun p => dirs.contains p

/-! ## The lock filter (`gen.go` lines 154-167) -/

/-- A Go `interface{}` stored in the options of a `Gom`: a string, or a value of
some other dynamic type (told apart by a tag). -/
inductive Value
  | str (s : String)
  | other (tag : Nat)
  deriving DecidableEq, Repr

/-- The `Gom` struct of the gom sources: `name` and the `options` map
(`map[string]interface{}`), as an association list read by `List.lookup`. -/
structure Gom where
  name : String
  options : List (String × Value)
  deriving DecidableEq, Repr

/-- The filter loop of `genGomfileLock`, run from the accumulator `goms`;
`matchEnv` and `matchOS` are the program's functions of these names. -/
def filterGoms (matchEnv matchOS : Value → Bool) : List Gom → List Gom → List Gom
  | [], goms => goms
  | gom :: rest, goms =>
    match gom.options.lookup "group" with
    | some group =>
      if !matchEnv group then
        filterGoms matchEnv matchOS rest goms   -- continue
      else
        match gom.options.lookup "goos" with
        | some goos =>
          if !matchOS goos then
            filterGoms matchEnv matchOS rest goms   -- continue
          else filterGoms matchEnv matchOS rest (goms ++ [gom])
        | none => filterGoms matchEnv matchOS rest (goms ++ [gom])
    | none =>
      match gom.options.lookup "goos" with
      | some goos =>
        if !matchOS goos then
          filterGoms matchEnv matchOS rest goms   -- continue
        else filterGoms matchEnv matchOS rest (goms ++ [gom])
      | none => filterGoms matchEnv matchOS rest (goms ++ [gom])

/-- The filter as the specification words it: no "group" key or `matchEnv` of
it holds, and no "goos" key or `matchOS` of it holds. -/
def passesFilter (matchEnv matchOS : Value → Bool) (gom : Gom) : Bool :=
  (match gom.options.lookup "group" with
    | none => true
    | some group => matchEnv group) &&
  (match gom.options.lookup "goos" with
    | none => true
    | some goos => matchOS goos)

/-- A context for the examples: the group must be "test", the OS "linux". -/
def isTest : Value → Bool := fun v => v == Value.str "test"

/-- The OS predicate of the examples. -/
def isLinux : Value → Bool := fun v => v == Value.str "linux"

/-- Four manifest entries: unconstrained, group test, group production, goos windows. -/
def sampleGoms : List Gom :=
  [ ⟨"h.x/a", []⟩,
    ⟨"h.x/b", [("group", Value.str "test")]⟩,
    ⟨"h.x/c", [("group", Value.str "production")]⟩,
    ⟨"h.x/d", [("group", Value.str "test"), ("goos", Value.str "windows")]⟩ ]

/-! ## Finite package tables -/

/-- One row of a package table: the import path, the directory it is looked up
from, and the package found there. -/
structure Entry where
  path : String
  srcDir : String
  pkg : Package

/-- The row of `tbl` answering `build.Import(path, srcDir)`, if any. -/
def lookupEntry (tbl : List Entry) (path srcDir : String) : Option Entry :=
  tbl.find? (fun e => e.path == path && e.srcDir == srcDir)

/-- A `build.Import` given by a finite table; anything not in the table cannot be found. -/
def importerOf (tbl : List Entry) : Importer := fun path srcDir =>
  match lookupEntry tbl path srcDir with
  | some e => .ok e.pkg
  | none => .error ("cannot find package " ++ path)

/-- The table is closed: every non-standard import of a row is itself a row,
looked up from that row's package directory. -/
def tableClosed (tbl : List Entry) : Bool :=
  tbl.all (fun e => e.pkg.Imports.all (fun i =>
    isStandardImport i || (lookupEntry tbl i e.pkg.Dir).isSome))

/-- The number `rank` decreases along every import of the table. -/
def tableRanked (tbl : List Entry) (rank : Node → Nat) : Bool :=
  tbl.all (fun e => e.pkg.Imports.all (fun i =>
    isStandardImport i || decide (rank (i, e.pkg.Dir) < rank (e.path, e.srcDir))))

/-- Every listed node resolves, and every non-standard import of a listed node is
a listed node of smaller rank. -/
def nodesRanked (bi : Importer) (nodes : List Node) (rank : Node → Nat) : Bool :=
  nodes.all (fun a =>
    match bi a.1 a.2 with
    | .ok pkg => pkg.Imports.all (fun i =>
        isStandardImport i ||
          (nodes.contains (i, pkg.Dir) && decide (rank (i, pkg.Dir) < rank a)))
    | .error _ => false)

/-- A `build.Import` in the manner of go/build with a GOPATH: a non-local path is
found whatever directory it is looked up from; "." is the package in "/w". -/
def gopathImporter : Importer := fun path srcDir =>
  if path == "." then
    (if srcDir == "/w" then .ok ⟨"/w", ["fmt", "h.x/a", "h.x/b"]⟩
     else .error ("no Go files in " ++ srcDir))
  else if path == "h.x/a" then .ok ⟨"/g/h.x/a", ["h.x/c"]⟩
  else if path == "h.x/b" then .ok ⟨"/g/h.x/b", ["h.x/c"]⟩
  else if path == "h.x/c" then .ok ⟨"/g/h.x/c", []⟩
  else .error ("cannot find package " ++ path)

/-- The package occurrences the scan of `gopathImporter` from (".", "/w") meets. -/
def gopathNodes : List Node :=
  [(".", "/w"), ("h.x/a", "/w"), ("h.x/b", "/w"), ("h.x/c", "/g/h.x/a"),
   ("h.x/c", "/g/h.x/b")]

/-- A diamond: the root imports "fmt", "h.x/a" and "h.x/b", and both "h.x/a"
and "h.x/b" import "h.x/c". -/
def diamondTable : List Entry :=
  [ ⟨".", "/w", ⟨"/w", ["fmt", "h.x/a", "h.x/b"]⟩⟩,
    ⟨"h.x/a", "/w", ⟨"/g/h.x/a", ["h.x/c"]⟩⟩,
    ⟨"h.x/b", "/w", ⟨"/g/h.x/b", ["h.x/c"]⟩⟩,
    ⟨"h.x/c", "/g/h.x/a", ⟨"/g/h.x/c", []⟩⟩,
    ⟨"h.x/c", "/g/h.x/b", ⟨"/g/h.x/c", []⟩⟩ ]

/-- A rank for `diamondTable`: the root above "h.x/a" and "h.x/b", above "h.x/c". -/
def diamondRank : Node → Nat := fun n =>
  if n.1 = "." then 2 else if n.1 = "h.x/c" then 0 else 1

/-- The graph of the example in the specification: the source tree imports
"pkgs/alpha" and "pkgs/alpha/sub"; "pkgs/alpha" imports "fmt" and "pkgs/beta". -/
def exampleTable : List Entry :=
  [ ⟨".", "/w", ⟨"/w", ["pkgs/alpha", "pkgs/alpha/sub"]⟩⟩,
    ⟨"pkgs/alpha", "/w", ⟨"/g/pkgs/alpha", ["fmt", "pkgs/beta"]⟩⟩,
    ⟨"pkgs/alpha/sub", "/w", ⟨"/g/pkgs/alpha/sub", []⟩⟩,
    ⟨"pkgs/beta", "/g/pkgs/alpha", ⟨"/g/pkgs/beta", []⟩⟩ ]

/-- The same graph with the three packages under a dotted host name. -/
def dottedTable : List Entry :=
  [ ⟨".", "/w", ⟨"/w", ["pkgs.io/alpha", "pkgs.io/alpha/sub"]⟩⟩,
    ⟨"pkgs.io/alpha", "/w", ⟨"/g/pkgs.io/alpha", ["fmt", "pkgs.io/beta"]⟩⟩,
    ⟨"pkgs.io/alpha/sub", "/w", ⟨"/g/pkgs.io/alpha/sub", []⟩⟩,
    ⟨"pkgs.io/beta", "/g/pkgs.io/alpha", ⟨"/g/pkgs.io/beta", []⟩⟩ ]

/-- A source tree that imports "fmt", "h.x/a", "h.x/gone" and "h.x/b"; "h.x/gone"
cannot be found. -/
def halfBrokenTable : List Entry :=
  [ ⟨".", "/w", ⟨"/w", ["fmt", "h.x/a", "h.x/gone", "h.x/b"]⟩⟩,
    ⟨"h.x/a", "/w", ⟨"/g/h.x/a", []⟩⟩,
    ⟨"h.x/b", "/w", ⟨"/g/h.x/b", []⟩⟩ ]

/-- A source tree whose only import, "h.x/gone", cannot be found. -/
def brokenTable : List Entry :=
  [ ⟨".", "/w", ⟨"/w", ["h.x/gone"]⟩⟩ ]

/-! ## The file system -/

/-- The part of the file system the program touches: its directories, and its
regular files with their contents.  A path is the string the program uses for it. -/
structure FS where
  dirs : List String
  files : List (String × String)
  deriving DecidableEq, Repr

/-- `isDir` of the gom sources on the file system `fs`: `p` is a directory. -/
def FS.isDir (fs : FS) (p : String) : Bool :=
  fs.dirs.contains p

/-- Go `os.Stat(name)` returns a nil error: `name` exists, as a directory or a file. -/
def osStat (fs : FS) (name : String) : Bool :=
  fs.dirs.contains name || fs.files.any (fun f => f.1 == name)

/-- Go `os.Create(name)`: the file is created, or truncated when it exists; an
error when `name` is a directory (the one cause of failure in this model). -/
def osCreate (fs : FS) (name : String) : Except String FS :=
  if fs.dirs.contains name then .error ("open " ++ name ++ ": is a directory")
  else .ok { fs with files := (name, "") :: fs.files.filter (fun f => f.1 != name) }

/-- Writing `s` at the end of the file `name` (`f.WriteString`, `fmt.Fprintf(f, ...)`). -/
def writeString (fs : FS) (name s : String) : FS :=
  { fs with files := fs.files.map (fun f => if f.1 == name then (f.1, f.2 ++ s) else f) }

/-- The content of the file `name`, if it exists. -/
def readFile (fs : FS) (name : String) : Option String :=
  fs.files.lookup name

/-- Path `p` is `root` itself or lies beneath it. -/
def under (root p : String) : Bool :=
  p == root ||
    (if root.data.getLast? == some '/' then root.data else root.data ++ ['/']).isPrefixOf p.data

/-- Go `os.RemoveAll(path)`: `path` and everything beneath it is removed; nothing
happens for the empty path or a path that does not exist. -/
def RemoveAll (fs : FS) (path : String) : FS :=
  if path.data.isEmpty then fs
  else
    { dirs := fs.dirs.filter (fun d => !under path d),
      files := fs.files.filter (fun f => !under path f.1) }

/-! ## The manifest writer (`gen.go` lines 85-109) -/

/-- Go's `a < b` on strings: lexicographic, byte by byte; on UTF-8 this is the
lexicographic order of the character sequences. -/
def stringLess : List Char → List Char → Bool
  | _, [] => false
  | [], _ :: _ => true
  | c :: cs, d :: ds =>
    if c < d then true else if d < c then false else stringLess cs ds

/-- Go `sort.Strings`: the list in ascending order (`a` before `b` unless `b < a`).
The order is total, so the result does not depend on the sorting algorithm. -/
def sortStrings (l : List String) : List String :=
  l.insertionSort (fun a b => stringLess b.data a.data = false)

/-- The line `fmt.Fprintf(f, "gom '%s'\n", pkg)` writes. -/
def gomfileLine (pkg : String) : String :=
  "gom '" ++ pkg ++ "'\n"

/-- `genGomfile` of `gen.go`: the file system at return and the returned error
(`none` for nil); `none` when the scan does not return within `fuel`.
`bi` is `build.Import`, `getwd` the result of `os.Getwd()`. -/
def genGomfile (bi : Importer) (getwd : Except String String) (fuel : Nat) (fs : FS) :
    Option (FS × Option String) :=
  if osStat fs "Gomfile" then some (fs, some "Gomfile already exists")
  else
    match osCreate fs "Gomfile" with
    | .error err => some (fs, some err)
    | .ok fs1 =>
      match getwd with
      | .error err => some (fs1, some err)
      | .ok dir =>
        match scanDirectory bi fuel "." dir with
        | none => none
        | some (_, some err) => some (fs1, some err)
        | some (all, none) =>
          some (writeString fs1 "Gomfile" (String.join ((sortStrings all).map gomfileLine)), none)

/-! ## The lock generator and the sanitizer (`gen.go` lines 136-199) -/

/-- The map assignment `options[key] = v`. -/
def setOption (options : List (String × Value)) (key : String) (v : Value) :
    List (String × Value) :=
  (key, v) :: options.filter (fun kv => kv.1 != key)

/-- One iteration of the revision loop of `genGomfileLock` (lines 169-177): the
entry afterwards; `none` when `getVCSRoot` does not return within `fuel`.
`revision vcs p` is `vcs.Revision(p)`. -/
def pinGom (isDir : String → Bool) (vendorSrc : String → String)
    (revision : VcsCmd → String → Except String String) (fuel : Nat) (vendor : String)
    (gom : Gom) : Option Gom :=
  match getVCSRoot isDir vendorSrc fuel vendor gom.name with
  | none => none
  | some (_, none) => some gom
  | some (p, some vcs) =>
    match revision vcs p with
    | .error _ => some gom
    | .ok rev =>
      if rev != "" then some { gom with options := setOption gom.options "commit" (Value.str rev) }
      else some gom

/-- The revision loop of `genGomfileLock`: the entries after it, in order. -/
def pinGoms (isDir : String → Bool) (vendorSrc : String → String)
    (revision : VcsCmd → String → Except String String) (fuel : Nat) (vendor : String) :
    List Gom → Option (List Gom)
  | [] => some []
  | gom :: rest =>
    match pinGom isDir vendorSrc revision fuel vendor gom with
    | none => none
    | some gom1 =>
      match pinGoms isDir vendorSrc revision fuel vendor rest with
      | none => none
      | some rest1 => some (gom1 :: rest1)

/-- The line the write loop of `genGomfileLock` (lines 183-189) prints for an
entry; `none` when the type assertion `rev.(string)` panics. -/
def lockLine (gom : Gom) : Option String :=
  match gom.options.lookup "commit" with
  | some (Value.str rev) => some ("gom '" ++ gom.name ++ "', :commit => '" ++ rev ++ "'\n")
  | some (Value.other _) => none
  | none => some ("gom '" ++ gom.name ++ "'\n")

/-- The write loop of `genGomfileLock`: everything it prints; `none` when it panics. -/
def lockLines : List Gom → Option String
  | [] => some ""
  | gom :: rest =>
    match lockLine gom with
    | none => none
    | some line =>
      match lockLines rest with
      | none => none
      | some more => some (line ++ more)

/-- `sanitize` of `gen.go`: the file system afterwards and, in order, the
arguments of its `os.RemoveAll` calls; `none` when a `getVCSRoot` does not
return within `fuel`. -/
def sanitize (vendorSrc : String → String) (fuel : Nat) (vendor : String) :
    List Gom → FS → Option (FS × List String)
  | [], fs => some (fs, [])
  | gom :: rest, fs =>
    match getVCSRoot fs.isDir vendorSrc fuel vendor gom.name with
    | none => none
    | some (_, none) => sanitize vendorSrc fuel vendor rest fs
    | some (p, some vcs) =>
      match sanitize vendorSrc fuel vendor rest (RemoveAll fs (Join [p, vcs.dir])) with
      | none => none
      | some (fs1, removed) => some (fs1, Join [p, vcs.dir] :: removed)

/-- What a run of `genGomfileLock` leaves: the file system at return, the
returned error (`none` for nil), what was written to "Gomfile.lock", and the
arguments of the `os.RemoveAll` calls of `sanitize`. -/
structure LockRun where
  fs : FS
  err : Option String
  written : String
  removed : List String
  deriving DecidableEq, Repr

/-- What the program takes from outside `gen.go` in `genGomfileLock`:
the result of `parseGom("Gomfile", false)`, the result of
`filepath.Abs(vendorFolder)`, `matchEnv`, `matchOS`, `vendorSrc`, the constant
`internalRoots`, and `vcs.Revision`. -/
structure LockEnv where
  parsed : Except String (List Gom)
  absVendor : Except String String
  matchEnv : Value → Bool
  matchOS : Value → Bool
  vendorSrc : String → String
  internalRoots : String
  revision : VcsCmd → String → Except String String

/-- `genGomfileLock` of `gen.go`; `none` when the run does not return: a
`getVCSRoot` loop exceeds `fuel`, or `rev.(string)` panics. -/
def genGomfileLock (env : LockEnv) (fuel : Nat) (fs : FS) : Option LockRun :=
  match env.parsed with
  | .error err => some ⟨fs, some err, "", []⟩
  | .ok allGoms =>
    match env.absVendor with
    | .error err => some ⟨fs, some err, "", []⟩
    | .ok vendor =>
      let goms := filterGoms env.matchEnv env.matchOS allGoms []
      match pinGoms fs.isDir env.vendorSrc env.revision fuel vendor goms with
      | none => none
      | some goms1 =>
        match osCreate fs "Gomfile.lock" with
        | .error err => some ⟨fs, some err, "", []⟩
        | .ok fs1 =>
          match lockLines goms1 with
          | none => none
          | some text =>
            let fs2 := writeString fs1 "Gomfile.lock" text
            -- remove internal roots after retrieving versions
            let fs3 := RemoveAll fs2 (Join [env.vendorSrc vendor, env.internalRoots])
            -- sanitize rest of the repos
            match sanitize env.vendorSrc fuel vendor goms1 fs3 with
            | none => none
            | some (fs4, removed) => some ⟨fs4, none, text, removed⟩

/-- The metadata directory `getVCSRoot` resolves for `name` on `isDir`, if any:
`Join(root, backend.dir)`. -/
def metaDirOf (isDir : String → Bool) (vendorSrc : String → String) (fuel : Nat)
    (vendor name : String) : Option String :=
  match getVCSRoot isDir vendorSrc fuel vendor name with
  | some (p, some vcs) => some (Join [p, vcs.dir])
  | _ => none

/-- The two shapes of a lock line: the name alone for an entry without commit
option, the name and the commit for an entry whose commit option is a string. -/
def IsLockLine (g : Gom) (line : String) : Prop :=
  (g.options.lookup "commit" = none ∧ line = "gom '" ++ g.name ++ "'\n") ∨
  (∃ rev, g.options.lookup "commit" = some (Value.str rev) ∧
    line = "gom '" ++ g.name ++ "', :commit => '" ++ rev ++ "'\n")

/-- No revision is obtained for entry `g` in the revision loop: `getVCSRoot` finds
no metadata directory, or `Revision` returns an error or the empty string. -/
def NoRevision (isDir : String → Bool) (vendorSrc : String → String)
    (revision : VcsCmd → String → Except String String) (fuel : Nat) (vendor : String)
    (g : Gom) : Prop :=
  (∃ p, getVCSRoot isDir vendorSrc fuel vendor g.name = some (p, none)) ∨
  (∃ p vcs, getVCSRoot isDir vendorSrc fuel vendor g.name = some (p, some vcs) ∧
    ((∃ e, revision vcs p = .error e) ∨ revision vcs p = .ok ""))

/-- The lock line of the manifest entry `g`: its own line shape when no revision
is obtained for it, the line with the revision when one is obtained. -/
def LockLineFor (isDir : String → Bool) (vendorSrc : String → String)
    (revision : VcsCmd → String → Except String String) (fuel : Nat) (vendor : String)
    (g : Gom) (line : String) : Prop :=
  (NoRevision isDir vendorSrc revision fuel vendor g → IsLockLine g line) ∧
  (∀ p vcs rev, getVCSRoot isDir vendorSrc fuel vendor g.name = some (p, some vcs) →
    revision vcs p = .ok rev → rev ≠ "" →
    line = "gom '" ++ g.name ++ "', :commit => '" ++ rev ++ "'\n")

/-! ## Vendor trees and manifests of the examples -/

/-- A revision query for the examples: "abc123" at the root "/v/src/h.x/r", an
error anywhere else. -/
def sampleRevision : VcsCmd → String → Except String String := fun _ p =>
  if p == "/v/src/h.x/r" then .ok "abc123" else .error "no revision"

/-- The environment of the examples for the parsed manifest `goms`: vendor root
"/v", context (test, linux), internal roots under "_internal". -/
def sampleEnv (goms : List Gom) : LockEnv :=
  { parsed := .ok goms, absVendor := .ok "/v", matchEnv := isTest, matchOS := isLinux,
    vendorSrc := vendorSrcDir, internalRoots := "_internal", revision := sampleRevision }

/-- A vendor tree with one repository, "h.x/r" (git), holding the packages "a"
and "b", below a directory "h.x" that is itself a Mercurial checkout. -/
def sharedRootFS : FS :=
  { dirs := ["/v", "/v/src", "/v/src/h.x", "/v/src/h.x/.hg", "/v/src/h.x/r",
             "/v/src/h.x/r/.git", "/v/src/h.x/r/a", "/v/src/h.x/r/b"],
    files := [("Gomfile", "gom 'h.x/r/a'\ngom 'h.x/r/b'\n"), ("/v/src/h.x/.hg/store", "s"),
              ("/v/src/h.x/r/.git/HEAD", "ref"), ("/v/src/h.x/r/a/a.go", "package a"),
              ("/v/src/h.x/r/b/b.go", "package b")] }

/-- The manifest of `sharedRootFS`: two packages of the one repository. -/
def sharedRootGoms : List Gom :=
  [⟨"h.x/r/a", []⟩, ⟨"h.x/r/b", []⟩]

/-- A vendor tree with the repository "h.x/r" (git) and, inside it, a second
repository "h.x/r/sub" (git). -/
def nestedFS : FS :=
  { dirs := ["/v", "/v/src", "/v/src/h.x", "/v/src/h.x/r", "/v/src/h.x/r/.git",
             "/v/src/h.x/r/sub", "/v/src/h.x/r/sub/.git"],
    files := [("/v/src/h.x/r/.git/HEAD", "ref"), ("/v/src/h.x/r/r.go", "package r"),
              ("/v/src/h.x/r/sub/.git/HEAD", "ref"), ("/v/src/h.x/r/sub/s.go", "package s")] }

/-- The manifest of `nestedFS`. -/
def nestedGoms : List Gom :=
  [⟨"h.x/r", []⟩, ⟨"h.x/r/sub", []⟩]

/-- A vendor tree with the repository "h.x/r" (git) and an old lock file. -/
def lockedFS : FS :=
  { dirs := ["/v", "/v/src", "/v/src/h.x", "/v/src/h.x/r", "/v/src/h.x/r/.git"],
    files := [("Gomfile.lock", "gom 'old.x/dep', :commit => '000'\n"),
              ("/v/src/h.x/r/r.go", "package r")] }

/-- A manifest: an entry pinned to a commit in the manifest itself, and a plain one. -/
def pinnedGoms : List Gom :=
  [⟨"h.x/p", [("commit", Value.str "fedcba")]⟩, ⟨"h.x/q", []⟩]

/-- A manifest: a plain entry, then one whose commit option is not a string. -/
def illTypedGoms : List Gom :=
  [⟨"h.x/q", []⟩, ⟨"h.x/p", [("commit", Value.other 0)]⟩]

/-- A manifest of three entries, the second of group production. -/
def mixedGoms : List Gom :=
  [⟨"h.x/r", []⟩, ⟨"h.x/c", [("group", Value.str "production")]⟩, ⟨"h.x/q", []⟩]

/-- The run of `genGomfileLock` on `sharedRootFS`. -/
def sharedRootRun : LockRun :=
  { fs := { dirs := ["/v", "/v/src", "/v/src/h.x", "/v/src/h.x/r", "/v/src/h.x/r/a",
                     "/v/src/h.x/r/b"],
            files := [("Gomfile.lock",
                       "gom 'h.x/r/a', :commit => 'abc123'\ngom 'h.x/r/b', :commit => 'abc123'\n"),
                      ("Gomfile", "gom 'h.x/r/a'\ngom 'h.x/r/b'\n"),
                      ("/v/src/h.x/r/a/a.go", "package a"),
                      ("/v/src/h.x/r/b/b.go", "package b")] },
    err := none,
    written := "gom 'h.x/r/a', :commit => 'abc123'\ngom 'h.x/r/b', :commit => 'abc123'\n",
    removed := ["/v/src/h.x/r/.git", "/v/src/h.x/.hg"] }

/-- The run of `genGomfileLock` on `nestedFS`. -/
def nestedRun : LockRun :=
  { fs := { dirs := ["/v", "/v/src", "/v/src/h.x", "/v/src/h.x/r", "/v/src/h.x/r/sub"],
            files := [("Gomfile.lock", "gom 'h.x/r', :commit => 'abc123'\ngom 'h.x/r/sub'\n"),
                      ("/v/src/h.x/r/r.go", "package r"),
                      ("/v/src/h.x/r/sub/s.go", "package s")] },
    err := none,
    written := "gom 'h.x/r', :commit => 'abc123'\ngom 'h.x/r/sub'\n",
    removed := ["/v/src/h.x/r/.git", "/v/src/h.x/r/sub/.git"] }

/-- A package "h.x/a", found from "/w", that declares the local import "./sub". -/
def localTable : List Entry :=
  [ ⟨".", "/w", ⟨"/w", ["h.x/a"]⟩⟩,
    ⟨"h.x/a", "/w", ⟨"/g/h.x/a", ["./sub"]⟩⟩,
    ⟨"./sub", "/g/h.x/a", ⟨"/g/h.x/a/sub", ["os"]⟩⟩ ]

/-! ## Lemmas on `appendPkg` and `appendPkgs` -/

theorem mem_appendPkg (pkgs : List String) (pkg x : String) :
    x ∈ appendPkg pkgs pkg ↔ x ∈ pkgs ∨ x = pkg := by
  unfold appendPkg
  by_cases h : pkgs.any (fun ele => ele == pkg) = true
  · rw [if_pos h]
    constructor
    · exact Or.inl
    · rintro (hx | hx)
      · exact hx
      · obtain ⟨y, hy, hyp⟩ := List.any_eq_true.mp h
        have : y = pkg := by simpa using hyp
        rw [hx, ← this]; exact hy
  · rw [if_neg h]
    simp

theorem nodup_appendPkg (pkgs : List String) (pkg : String) (h : pkgs.Nodup) :
    (appendPkg pkgs pkg).Nodup := by
  unfold appendPkg
  by_cases hc : pkgs.any (fun ele => ele == pkg) = true
  · rw [if_pos hc]; exact h
  · rw [if_neg hc]
    have hnot : pkg ∉ pkgs := by
      intro hm
      apply hc
      exact List.any_eq_true.mpr ⟨pkg, hm, by simp⟩
    rw [List.nodup_append]
    refine ⟨h, List.nodup_singleton _, ?_⟩
    intro a ha hb
    have : a = pkg := by simpa using hb
    exact hnot (this ▸ ha)

theorem mem_appendPkgs (more pkgs : List String) (x : String) :
    x ∈ appendPkgs pkgs more ↔ x ∈ pkgs ∨ x ∈ more := by
  unfold appendPkgs
  induction more generalizing pkgs with
  | nil => simp
  | cons m ms ih =>
    rw [List.foldl_cons, ih, mem_appendPkg]
    simp only [List.mem_cons]
    tauto

theorem nodup_appendPkgs (more pkgs : List String) (h : pkgs.Nodup) :
    (appendPkgs pkgs more).Nodup := by
  unfold appendPkgs
  induction more generalizing pkgs with
  | nil => simpa using h
  | cons m ms ih =>
    rw [List.foldl_cons]
    exact ih _ (nodup_appendPkg _ _ h)

/-! ## One step of the scanner loop -/

theorem scanLoop_nil (scan : String → String → Option ScanResult) (dir : String)
    (ret : List String) : scanLoop scan dir [] ret = some (ret, none) := rfl

theorem scanLoop_std (scan : String → String → Option ScanResult) (dir imp : String)
    (rest ret : List String) (h : isStandardImport imp = true) :
    scanLoop scan dir (imp :: rest) ret = scanLoop scan dir rest ret := by
  simp [scanLoop, h]

theorem scanLoop_stuck (scan : String → String → Option ScanResult) (dir imp : String)
    (rest ret : List String) (h : isStandardImport imp = false) (hs : scan imp dir = none) :
    scanLoop scan dir (imp :: rest) ret = none := by
  simp [scanLoop, h, hs]

theorem scanLoop_err (scan : String → String → Option ScanResult) (dir imp : String)
    (rest ret pkgs : List String) (err : String) (h : isStandardImport imp = false)
    (hs : scan imp dir = some (pkgs, some err)) :
    scanLoop scan dir (imp :: rest) ret = some (recordImport ret imp, some err) := by
  simp [scanLoop, h, hs, recordImport]

theorem scanLoop_ok (scan : String → String → Option ScanResult) (dir imp : String)
    (rest ret pkgs : List String) (h : isStandardImport imp = false)
    (hs : scan imp dir = some (pkgs, none)) :
    scanLoop scan dir (imp :: rest) ret
      = scanLoop scan dir rest (appendPkgs (recordImport ret imp) pkgs) := by
  simp [scanLoop, h, hs, recordImport]

theorem mem_recordImport (ret : List String) (imp x : String) :
    x ∈ recordImport ret imp ↔ x ∈ ret ∨ (x = imp ∧ IsLocalImport imp = false) := by
  unfold recordImport
  cases hl : IsLocalImport imp <;> simp [mem_appendPkg]

theorem nodup_recordImport (ret : List String) (imp : String) (h : ret.Nodup) :
    (recordImport ret imp).Nodup := by
  unfold recordImport
  split
  · exact nodup_appendPkg _ _ h
  · exact h

/-- Case analysis of one iteration of the loop on a non-standard import. -/
theorem scanLoop_cases (scan : String → String → Option ScanResult) (dir imp : String)
    (rest ret : List String) (h : isStandardImport imp = false) (res : ScanResult)
    (hr : scanLoop scan dir (imp :: rest) ret = some res) :
    (∃ pkgs err, scan imp dir = some (pkgs, some err) ∧ res = (recordImport ret imp, some err)) ∨
    (∃ pkgs, scan imp dir = some (pkgs, none) ∧
      scanLoop scan dir rest (appendPkgs (recordImport ret imp) pkgs) = some res) := by
  rcases hs : scan imp dir with _ | ⟨pkgs, _ | err⟩
  · rw [scanLoop_stuck scan dir imp rest ret h hs] at hr; cases hr
  · right
    rw [scanLoop_ok scan dir imp rest ret pkgs h hs] at hr
    exact ⟨pkgs, rfl, hr⟩
  · left
    rw [scanLoop_err scan dir imp rest ret pkgs err h hs] at hr
    exact ⟨pkgs, err, rfl, (Option.some.inj hr).symm⟩

/-! ## Invariants of the scanner loop -/

theorem scanLoop_nodup (scan : String → String → Option ScanResult) (dir : String)
    (imports : List String) :
    ∀ (ret0 : List String) (res : ScanResult), ret0.Nodup →
      scanLoop scan dir imports ret0 = some res → res.1.Nodup := by
  induction imports with
  | nil =>
    intro ret0 res h0 hr
    rw [scanLoop_nil] at hr
    cases hr; exact h0
  | cons imp rest ih =>
    intro ret0 res h0 hr
    cases hstd : isStandardImport imp
    · rcases scanLoop_cases scan dir imp rest ret0 hstd res hr with
        ⟨pkgs, err, _, hres⟩ | ⟨pkgs, _, hrest⟩
      · rw [hres]; exact nodup_recordImport _ _ h0
      · exact ih _ res (nodup_appendPkgs _ _ (nodup_recordImport _ _ h0)) hrest
    · rw [scanLoop_std scan dir imp rest ret0 hstd] at hr
      exact ih ret0 res h0 hr

theorem scanLoop_sound (scan : String → String → Option ScanResult) (dir : String)
    (P : String → Prop) (imports : List String) :
    ∀ (ret0 : List String) (res : ScanResult), (∀ x ∈ ret0, P x) →
      (∀ imp ∈ imports, isStandardImport imp = false → IsLocalImport imp = false → P imp) →
      (∀ imp ∈ imports, isStandardImport imp = false →
        ∀ pkgs, scan imp dir = some (pkgs, none) → ∀ x ∈ pkgs, P x) →
      scanLoop scan dir imports ret0 = some res → ∀ x ∈ res.1, P x := by
  induction imports with
  | nil =>
    intro ret0 res h0 _ _ hr
    rw [scanLoop_nil] at hr
    cases hr; exact h0
  | cons imp rest ih =>
    intro ret0 res h0 hdir hsub hr
    have hdir2 : ∀ i ∈ rest, isStandardImport i = false → IsLocalImport i = false → P i :=
      fun i hi => hdir i (List.mem_cons_of_mem _ hi)
    have hsub2 : ∀ i ∈ rest, isStandardImport i = false →
        ∀ pkgs, scan i dir = some (pkgs, none) → ∀ x ∈ pkgs, P x :=
      fun i hi => hsub i (List.mem_cons_of_mem _ hi)
    cases hstd : isStandardImport imp
    · have hrec : ∀ x ∈ recordImport ret0 imp, P x := by
        intro x hx
        rcases (mem_recordImport ret0 imp x).mp hx with hx | ⟨hx, hl⟩
        · exact h0 x hx
        · rw [hx]; exact hdir imp (List.mem_cons_self _ _) hstd hl
      rcases scanLoop_cases scan dir imp rest ret0 hstd res hr with
        ⟨pkgs, err, _, hres⟩ | ⟨pkgs, hs, hrest⟩
      · rw [hres]; exact hrec
      · refine ih _ res ?_ hdir2 hsub2 hrest
        intro x hx
        rcases (mem_appendPkgs pkgs _ x).mp hx with hx | hx
        · exact hrec x hx
        · exact hsub imp (List.mem_cons_self _ _) hstd pkgs hs x hx
    · rw [scanLoop_std scan dir imp rest ret0 hstd] at hr
      exact ih ret0 res h0 hdir2 hsub2 hr

theorem scanLoop_complete (scan : String → String → Option ScanResult) (dir : String)
    (imports : List String) :
    ∀ (ret0 ret : List String), scanLoop scan dir imports ret0 = some (ret, none) →
      (∀ x ∈ ret0, x ∈ ret) ∧
      ∀ imp ∈ imports, isStandardImport imp = false →
        (IsLocalImport imp = false → imp ∈ ret) ∧
        ∃ pkgs, scan imp dir = some (pkgs, none) ∧ ∀ x ∈ pkgs, x ∈ ret := by
  induction imports with
  | nil =>
    intro ret0 ret hr
    rw [scanLoop_nil] at hr
    cases hr
    exact ⟨fun _ h => h, fun _ h => absurd h (List.not_mem_nil _)⟩
  | cons imp rest ih =>
    intro ret0 ret hr
    cases hstd : isStandardImport imp
    · rcases scanLoop_cases scan dir imp rest ret0 hstd (ret, none) hr with
        ⟨pkgs, err, _, hres⟩ | ⟨pkgs, hs, hrest⟩
      · cases hres
      · obtain ⟨hsub, hall⟩ := ih _ ret hrest
        have hrec : ∀ x ∈ recordImport ret0 imp, x ∈ ret := fun x hx =>
          hsub x ((mem_appendPkgs pkgs _ x).mpr (Or.inl hx))
        refine ⟨fun x hx => hrec x ((mem_recordImport ret0 imp x).mpr (Or.inl hx)), ?_⟩
        intro i hi hstdi
        rcases List.mem_cons.mp hi with hi | hi
        · subst hi
          refine ⟨fun hl => hrec i ((mem_recordImport ret0 i i).mpr (Or.inr ⟨rfl, hl⟩)), ?_⟩
          exact ⟨pkgs, hs, fun x hx => hsub x ((mem_appendPkgs pkgs _ x).mpr (Or.inr hx))⟩
        · exact hall i hi hstdi
    · rw [scanLoop_std scan dir imp rest ret0 hstd] at hr
      obtain ⟨hsub, hall⟩ := ih ret0 ret hr
      refine ⟨hsub, ?_⟩
      intro i hi hstdi
      rcases List.mem_cons.mp hi with hi | hi
      · subst hi; rw [hstd] at hstdi; cases hstdi
      · exact hall i hi hstdi

theorem scanLoop_mono (scan scan2 : String → String → Option ScanResult) (dir : String)
    (hmono : ∀ p d r, scan p d = some r → scan2 p d = some r) (imports : List String) :
    ∀ (ret0 : List String) (res : ScanResult),
      scanLoop scan dir imports ret0 = some res → scanLoop scan2 dir imports ret0 = some res := by
  induction imports with
  | nil => intro ret0 res hr; simpa [scanLoop_nil] using hr
  | cons imp rest ih =>
    intro ret0 res hr
    cases hstd : isStandardImport imp
    · rcases scanLoop_cases scan dir imp rest ret0 hstd res hr with
        ⟨pkgs, err, hs, hres⟩ | ⟨pkgs, hs, hrest⟩
      · rw [scanLoop_err scan2 dir imp rest ret0 pkgs err hstd (hmono _ _ _ hs), hres]
      · rw [scanLoop_ok scan2 dir imp rest ret0 pkgs hstd (hmono _ _ _ hs)]
        exact ih _ res hrest
    · rw [scanLoop_std scan dir imp rest ret0 hstd] at hr
      rw [scanLoop_std scan2 dir imp rest ret0 hstd]
      exact ih ret0 res hr

theorem scanLoop_returns (scan : String → String → Option ScanResult) (dir : String)
    (imports : List String) :
    (∀ imp ∈ imports, isStandardImport imp = false → ∃ r, scan imp dir = some r) →
    ∀ ret0 : List String, ∃ res, scanLoop scan dir imports ret0 = some res := by
  induction imports with
  | nil => intro _ ret0; exact ⟨_, scanLoop_nil scan dir ret0⟩
  | cons imp rest ih =>
    intro h ret0
    have h2 : ∀ i ∈ rest, isStandardImport i = false → ∃ r, scan i dir = some r :=
      fun i hi => h i (List.mem_cons_of_mem _ hi)
    cases hstd : isStandardImport imp
    · obtain ⟨⟨pkgs, e⟩, hs⟩ := h imp (List.mem_cons_self _ _) hstd
      cases e with
      | none =>
        rw [scanLoop_ok scan dir imp rest ret0 pkgs hstd hs]
        exact ih h2 _
      | some err =>
        exact ⟨_, scanLoop_err scan dir imp rest ret0 pkgs err hstd hs⟩
    · rw [scanLoop_std scan dir imp rest ret0 hstd]
      exact ih h2 ret0

theorem scanLoop_noerr (scan : String → String → Option ScanResult) (dir : String)
    (imports : List String) :
    (∀ imp ∈ imports, isStandardImport imp = false →
      ∀ r, scan imp dir = some r → r.2 = none) →
    ∀ (ret0 : List String) (res : ScanResult),
      scanLoop scan dir imports ret0 = some res → res.2 = none := by
  induction imports with
  | nil => intro _ ret0 res hr; rw [scanLoop_nil] at hr; cases hr; rfl
  | cons imp rest ih =>
    intro h ret0 res hr
    have h2 : ∀ i ∈ rest, isStandardImport i = false →
        ∀ r, scan i dir = some r → r.2 = none :=
      fun i hi => h i (List.mem_cons_of_mem _ hi)
    cases hstd : isStandardImport imp
    · rcases scanLoop_cases scan dir imp rest ret0 hstd res hr with
        ⟨pkgs, err, hs, _⟩ | ⟨pkgs, _, hrest⟩
      · have := h imp (List.mem_cons_self _ _) hstd _ hs
        cases this
      · exact ih h2 _ res hrest
    · rw [scanLoop_std scan dir imp rest ret0 hstd] at hr
      exact ih h2 ret0 res hr

/-! ## Unfolding `scanDirectory` -/

theorem scanDirectory_error (bi : Importer) (fuel : Nat) (path srcDir err : String)
    (h : bi path srcDir = .error err) :
    scanDirectory bi (fuel + 1) path srcDir = some ([], some err) := by
  simp [scanDirectory, h]

theorem scanDirectory_ok (bi : Importer) (fuel : Nat) (path srcDir : String) (pkg : Package)
    (h : bi path srcDir = .ok pkg) :
    scanDirectory bi (fuel + 1) path srcDir
      = scanLoop (scanDirectory bi fuel) pkg.Dir pkg.Imports [] := by
  simp [scanDirectory, h]

/-! ## Properties of `scanDirectory` -/

theorem scanDirectory_succ (bi : Importer) (fuel : Nat) :
    ∀ (path srcDir : String) (res : ScanResult),
      scanDirectory bi fuel path srcDir = some res →
      scanDirectory bi (fuel + 1) path srcDir = some res := by
  induction fuel with
  | zero => intro path srcDir res h; simp [scanDirectory] at h
  | succ n ih =>
    intro path srcDir res h
    cases hb : bi path srcDir with
    | error err =>
      rw [scanDirectory_error bi n path srcDir err hb] at h
      rw [scanDirectory_error bi (n + 1) path srcDir err hb, ← h]
    | ok pkg =>
      rw [scanDirectory_ok bi n path srcDir pkg hb] at h
      rw [scanDirectory_ok bi (n + 1) path srcDir pkg hb]
      exact scanLoop_mono _ _ pkg.Dir ih pkg.Imports [] res h

theorem scanDirectory_mono (bi : Importer) (fuel fuel2 : Nat) (hle : fuel ≤ fuel2)
    (path srcDir : String) (res : ScanResult)
    (h : scanDirectory bi fuel path srcDir = some res) :
    scanDirectory bi fuel2 path srcDir = some res := by
  induction hle with
  | refl => exact h
  | step _ ih => exact scanDirectory_succ bi _ path srcDir res ih

theorem scanDirectory_nodup (bi : Importer) (fuel : Nat) (path srcDir : String)
    (res : ScanResult) (h : scanDirectory bi fuel path srcDir = some res) : res.1.Nodup := by
  cases fuel with
  | zero => simp [scanDirectory] at h
  | succ n =>
    cases hb : bi path srcDir with
    | error err =>
      rw [scanDirectory_error bi n path srcDir err hb] at h
      cases h; exact List.nodup_nil
    | ok pkg =>
      rw [scanDirectory_ok bi n path srcDir pkg hb] at h
      exact scanLoop_nodup _ pkg.Dir pkg.Imports [] res List.nodup_nil h

theorem edge_of_import (bi : Importer) (a : Node) (pkg : Package) (imp : String)
    (hb : bi a.1 a.2 = .ok pkg) (hi : imp ∈ pkg.Imports) (hstd : isStandardImport imp = false) :
    Edge bi a (imp, pkg.Dir) :=
  ⟨pkg, hb, hi, hstd, rfl⟩

theorem isExternal_iff (imp : String) :
    isExternal imp = true ↔ isStandardImport imp = false ∧ IsLocalImport imp = false := by
  unfold isExternal
  cases isStandardImport imp <;> cases IsLocalImport imp <;> simp

/-- Every element of the returned list (error or not) is an external import
declared by a package reached from the root. -/
theorem scanDirectory_sound (bi : Importer) (fuel : Nat) :
    ∀ (path srcDir : String) (res : ScanResult),
      scanDirectory bi fuel path srcDir = some res →
      ∀ x ∈ res.1, isExternal x = true ∧
        ∃ b, Reach bi (path, srcDir) b ∧ Declares bi b x := by
  induction fuel with
  | zero => intro path srcDir res h; simp [scanDirectory] at h
  | succ n ih =>
    intro path srcDir res h
    cases hb : bi path srcDir with
    | error err =>
      rw [scanDirectory_error bi n path srcDir err hb] at h
      cases h
      intro x hx; exact absurd hx (List.not_mem_nil _)
    | ok pkg =>
      rw [scanDirectory_ok bi n path srcDir pkg hb] at h
      refine scanLoop_sound (scanDirectory bi n) pkg.Dir
        (fun x => isExternal x = true ∧ ∃ b, Reach bi (path, srcDir) b ∧ Declares bi b x)
        pkg.Imports [] res (fun x hx => absurd hx (List.not_mem_nil _)) ?_ ?_ h
      · intro imp hi hstd hl
        exact ⟨(isExternal_iff imp).mpr ⟨hstd, hl⟩, (path, srcDir),
          Relation.ReflTransGen.refl, pkg, hb, hi⟩
      · intro imp hi hstd pkgs hs x hx
        obtain ⟨hext, b, hreach, hdecl⟩ := ih imp pkg.Dir (pkgs, none) hs x hx
        refine ⟨hext, b, ?_, hdecl⟩
        exact Relation.ReflTransGen.head
          (edge_of_import bi (path, srcDir) pkg imp hb hi hstd) hreach

/-- A scan that returns without error lists every external import declared by a
package reached from the root. -/
theorem scanDirectory_complete (bi : Importer) (fuel : Nat) :
    ∀ (path srcDir : String) (ret : List String),
      scanDirectory bi fuel path srcDir = some (ret, none) →
      ∀ (b : Node) (x : String), Reach bi (path, srcDir) b → Declares bi b x →
        isExternal x = true → x ∈ ret := by
  induction fuel with
  | zero => intro path srcDir ret h; simp [scanDirectory] at h
  | succ n ih =>
    intro path srcDir ret h b x hreach hdecl hext
    obtain ⟨hstdx, hlx⟩ := (isExternal_iff x).mp hext
    cases hb : bi path srcDir with
    | error err =>
      rw [scanDirectory_error bi n path srcDir err hb] at h
      cases h
    | ok pkg =>
      rw [scanDirectory_ok bi n path srcDir pkg hb] at h
      obtain ⟨_, hall⟩ := scanLoop_complete (scanDirectory bi n) pkg.Dir pkg.Imports [] ret h
      rcases Relation.ReflTransGen.cases_head hreach with heq | ⟨c, hedge, hrest⟩
      · subst heq
        obtain ⟨pkg2, hb2, hx⟩ := hdecl
        have hb3 : bi path srcDir = .ok pkg2 := hb2
        rw [hb] at hb3
        cases hb3
        exact (hall x hx hstdx).1 hlx
      · obtain ⟨pkg2, hb2, hc, hstdc, hdir⟩ := hedge
        have hb3 : bi path srcDir = .ok pkg2 := hb2
        rw [hb] at hb3
        cases hb3
        obtain ⟨_, pkgs, hs, hsub⟩ := hall c.1 hc hstdc
        have hc2 : c = (c.1, pkg.Dir) := Prod.ext rfl hdir
        rw [hc2] at hrest
        exact hsub x (ih c.1 pkg.Dir pkgs hs b x hrest hdecl hext)

/-- When every package reached from the root resolves, a scan that returns
returns no error. -/
theorem scanDirectory_noerr (bi : Importer) (fuel : Nat) :
    ∀ (path srcDir : String) (res : ScanResult), AllResolve bi (path, srcDir) →
      scanDirectory bi fuel path srcDir = some res → res.2 = none := by
  induction fuel with
  | zero => intro path srcDir res _ h; simp [scanDirectory] at h
  | succ n ih =>
    intro path srcDir res hall h
    cases hb : bi path srcDir with
    | error err =>
      obtain ⟨pkg, hp⟩ := hall (path, srcDir) Relation.ReflTransGen.refl
      have hp2 : bi path srcDir = .ok pkg := hp
      rw [hb] at hp2
      cases hp2
    | ok pkg =>
      rw [scanDirectory_ok bi n path srcDir pkg hb] at h
      refine scanLoop_noerr (scanDirectory bi n) pkg.Dir pkg.Imports ?_ [] res h
      intro imp hi hstd r hr
      refine ih imp pkg.Dir r ?_ hr
      intro b hreach
      exact hall b (Relation.ReflTransGen.head
        (edge_of_import bi (path, srcDir) pkg imp hb hi hstd) hreach)

/-! ## Termination on finite acyclic import graphs -/

/-- On a finite graph without cycles every node reached from the root is
accessible for the import relation: no infinite chain of imports starts there. -/
theorem acc_of_finite_acyclic (bi : Importer) (root : Node) (hfin : FiniteGraph bi root)
    (hac : Acyclic bi root) :
    ∀ a, Reach bi root a → Acc (fun b a : Node => Edge bi a b) a := by
  have hS : Set.Finite {a : Node | Reach bi root a ∧ ∃ b, Edge bi a b} := by
    refine Set.Finite.subset (Set.Finite.image (fun e : Node × Node => e.1) hfin) ?_
    rintro a ⟨hr, b, hab⟩
    exact ⟨(a, b), ⟨hr, hab⟩, rfl⟩
  haveI : Finite {a : Node | Reach bi root a ∧ ∃ b, Edge bi a b} := hS.to_subtype
  let R : {a : Node | Reach bi root a ∧ ∃ b, Edge bi a b} →
      {a : Node | Reach bi root a ∧ ∃ b, Edge bi a b} → Prop :=
    fun x y => Relation.TransGen (Edge bi) y.1 x.1
  haveI : IsTrans _ R := ⟨fun x y z hxy hyz => Relation.TransGen.trans hyz hxy⟩
  haveI : IsIrrefl _ R := ⟨fun x hx => hac x.1 x.2.1 hx⟩
  have hR : WellFounded R := Finite.wellFounded_of_trans_of_irrefl R
  have hleaf : ∀ b : Node, (¬ ∃ c, Edge bi b c) → Acc (fun b a : Node => Edge bi a b) b :=
    fun b hb => Acc.intro b (fun c hc => absurd ⟨c, hc⟩ hb)
  have hin : ∀ x : {a : Node | Reach bi root a ∧ ∃ b, Edge bi a b},
      Acc (fun b a : Node => Edge bi a b) x.1 := by
    intro x
    induction x using hR.induction with
    | _ x ih =>
      refine Acc.intro x.1 (fun b hb => ?_)
      by_cases hbS : ∃ c, Edge bi b c
      · exact ih ⟨b, Relation.ReflTransGen.tail x.2.1 hb, hbS⟩ (Relation.TransGen.single hb)
      · exact hleaf b hbS
  intro a ha
  by_cases haS : ∃ c, Edge bi a c
  · exact hin ⟨a, ha, haS⟩
  · exact hleaf a haS

/-- One fuel bound serves all the imports of a package. -/
theorem scanDirectory_uniform (bi : Importer) (dir : String) (imports : List String) :
    (∀ imp ∈ imports, isStandardImport imp = false →
      ∃ N r, scanDirectory bi N imp dir = some r) →
    ∃ N, ∀ imp ∈ imports, isStandardImport imp = false →
      ∃ r, scanDirectory bi N imp dir = some r := by
  induction imports with
  | nil => intro _; exact ⟨0, fun _ h => absurd h (List.not_mem_nil _)⟩
  | cons imp rest ih =>
    intro h
    obtain ⟨N1, h1⟩ := ih (fun i hi => h i (List.mem_cons_of_mem _ hi))
    cases hstd : isStandardImport imp
    · obtain ⟨N2, r2, h2⟩ := h imp (List.mem_cons_self _ _) hstd
      refine ⟨max N1 N2, ?_⟩
      intro i hi hstdi
      rcases List.mem_cons.mp hi with hi | hi
      · subst hi
        exact ⟨r2, scanDirectory_mono bi N2 _ (le_max_right _ _) _ _ r2 h2⟩
      · obtain ⟨r, hr⟩ := h1 i hi hstdi
        exact ⟨r, scanDirectory_mono bi N1 _ (le_max_left _ _) _ _ r hr⟩
    · refine ⟨N1, ?_⟩
      intro i hi hstdi
      rcases List.mem_cons.mp hi with hi | hi
      · subst hi; rw [hstd] at hstdi; cases hstdi
      · exact h1 i hi hstdi

/-- From a node without infinite chain of imports, `scanDirectory` returns. -/
theorem scanDirectory_returns (bi : Importer) (a : Node)
    (hacc : Acc (fun b a : Node => Edge bi a b) a) :
    ∃ N res, scanDirectory bi N a.1 a.2 = some res := by
  induction hacc with
  | intro a _ ih =>
    cases hb : bi a.1 a.2 with
    | error err => exact ⟨1, _, scanDirectory_error bi 0 a.1 a.2 err hb⟩
    | ok pkg =>
      obtain ⟨N, hN⟩ := scanDirectory_uniform bi pkg.Dir pkg.Imports (by
        intro imp hi hstd
        exact ih (imp, pkg.Dir) (edge_of_import bi a pkg imp hb hi hstd))
      obtain ⟨res, hres⟩ := scanLoop_returns (scanDirectory bi N) pkg.Dir pkg.Imports hN []
      exact ⟨N + 1, res, by rw [scanDirectory_ok bi N a.1 a.2 pkg hb]; exact hres⟩

/-! ## The invocation trace -/

theorem scanLoopT_snd (scanT : String → String → List Call × Option ScanResult) (dir : String)
    (imports : List String) :
    ∀ ret : List String, (scanLoopT scanT dir imports ret).2 =
      scanLoop (fun p d => (scanT p d).2) dir imports ret := by
  induction imports with
  | nil => intro ret; rfl
  | cons imp rest ih =>
    intro ret
    cases hstd : isStandardImport imp
    · rcases hs : scanT imp dir with ⟨t, _ | ⟨pkgs, _ | err⟩⟩
      · simp [scanLoopT, scanLoop, hstd, hs]
      · simp [scanLoopT, scanLoop, hstd, hs, ih]
      · simp [scanLoopT, scanLoop, hstd, hs]
    · simp [scanLoopT, scanLoop, hstd, ih]

theorem scanLoopT_calls (scanT : String → String → List Call × Option ScanResult) (dir : String)
    (hsub : ∀ p d, ∀ c ∈ (scanT p d).1, isStandardImport c.1 = false) (imports : List String) :
    ∀ ret : List String, ∀ c ∈ (scanLoopT scanT dir imports ret).1,
      isStandardImport c.1 = false := by
  induction imports with
  | nil => intro ret c hc; simp [scanLoopT] at hc
  | cons imp rest ih =>
    intro ret c hc
    cases hstd : isStandardImport imp
    · have hsub2 := hsub imp dir
      rcases hs : scanT imp dir with ⟨t, _ | ⟨pkgs, _ | err⟩⟩
      · rw [hs] at hsub2
        simp only [scanLoopT, hstd, hs] at hc
        rcases List.mem_cons.mp hc with hc | hc
        · rw [hc]; exact hstd
        · exact hsub2 c hc
      · rw [hs] at hsub2
        simp only [scanLoopT, hstd, hs] at hc
        rcases List.mem_cons.mp hc with hc | hc
        · rw [hc]; exact hstd
        · rcases List.mem_append.mp hc with hc | hc
          · exact hsub2 c hc
          · exact ih _ c hc
      · rw [hs] at hsub2
        simp only [scanLoopT, hstd, hs] at hc
        rcases List.mem_cons.mp hc with hc | hc
        · rw [hc]; exact hstd
        · exact hsub2 c hc
    · simp only [scanLoopT, hstd] at hc
      exact ih ret c hc

theorem scanDirectoryT_snd (bi : Importer) (fuel : Nat) :
    ∀ path srcDir : String,
      (scanDirectoryT bi fuel path srcDir).2 = scanDirectory bi fuel path srcDir := by
  induction fuel with
  | zero => intro path srcDir; rfl
  | succ n ih =>
    intro path srcDir
    cases hb : bi path srcDir with
    | error err => simp [scanDirectoryT, scanDirectory, hb]
    | ok pkg =>
      simp only [scanDirectoryT, scanDirectory, hb]
      rw [scanLoopT_snd]
      congr 1
      funext p d
      exact ih p d

theorem scanDirectoryT_calls (bi : Importer) (fuel : Nat) :
    ∀ path srcDir : String, ∀ c ∈ (scanDirectoryT bi fuel path srcDir).1,
      isStandardImport c.1 = false := by
  induction fuel with
  | zero => intro path srcDir c hc; simp [scanDirectoryT] at hc
  | succ n ih =>
    intro path srcDir c hc
    cases hb : bi path srcDir with
    | error err => simp [scanDirectoryT, hb] at hc
    | ok pkg =>
      simp only [scanDirectoryT, hb] at hc
      exact scanLoopT_calls _ pkg.Dir ih pkg.Imports [] c hc

/-! ## `strings.Contains` on a one-character pattern -/

theorem stringsContains_dot (s : String) :
    stringsContains s "." = true ↔ '.' ∈ s.data := by
  unfold stringsContains
  rw [decide_eq_true_iff]
  show ['.'] <:+: s.data ↔ '.' ∈ s.data
  constructor
  · rintro ⟨u, v, h⟩
    rw [← h]
    simp
  · intro h
    obtain ⟨u, v, h⟩ := List.append_of_mem h
    exact ⟨u, v, by rw [h]; simp⟩

theorem isStandardImport_false_iff (s : String) :
    isStandardImport s = false ↔ '.' ∈ s.data := by
  unfold isStandardImport
  rw [← stringsContains_dot]
  cases stringsContains s "." <;> simp

/-! ## Import graphs of finite tables -/

theorem lookupEntry_some (tbl : List Entry) (path srcDir : String) (e : Entry)
    (h : lookupEntry tbl path srcDir = some e) :
    e ∈ tbl ∧ e.path = path ∧ e.srcDir = srcDir := by
  unfold lookupEntry at h
  refine ⟨List.mem_of_find?_eq_some h, ?_⟩
  have := List.find?_some h
  simpa using this

theorem importerOf_ok (tbl : List Entry) (path srcDir : String) (pkg : Package)
    (h : importerOf tbl path srcDir = .ok pkg) :
    ∃ e ∈ tbl, e.path = path ∧ e.srcDir = srcDir ∧ e.pkg = pkg := by
  unfold importerOf at h
  cases hl : lookupEntry tbl path srcDir with
  | none => rw [hl] at h; cases h
  | some e =>
    rw [hl] at h
    obtain ⟨hm, hp, hd⟩ := lookupEntry_some tbl path srcDir e hl
    exact ⟨e, hm, hp, hd, by cases h; rfl⟩

theorem edge_importerOf (tbl : List Entry) (a b : Node) (h : Edge (importerOf tbl) a b) :
    ∃ e ∈ tbl, a = (e.path, e.srcDir) ∧ b.1 ∈ e.pkg.Imports ∧
      isStandardImport b.1 = false ∧ b.2 = e.pkg.Dir := by
  obtain ⟨pkg, hb, hi, hstd, hd⟩ := h
  obtain ⟨e, hm, hp, hs, hpkg⟩ := importerOf_ok tbl a.1 a.2 pkg hb
  subst hpkg
  exact ⟨e, hm, Prod.ext hp.symm hs.symm, hi, hstd, hd⟩

theorem finiteGraph_importerOf (tbl : List Entry) (root : Node) :
    FiniteGraph (importerOf tbl) root := by
  unfold FiniteGraph
  refine Set.Finite.subset (List.finite_toSet
    (tbl.flatMap (fun e => e.pkg.Imports.map
      (fun i => (((e.path, e.srcDir), (i, e.pkg.Dir)) : Node × Node))))) ?_
  rintro ⟨a, b⟩ ⟨_, hab⟩
  obtain ⟨e, hm, ha, hi, _, hd⟩ := edge_importerOf tbl a b hab
  simp only [Set.mem_setOf_eq, List.mem_flatMap, List.mem_map]
  exact ⟨e, hm, b.1, hi, by rw [ha]; exact Prod.ext rfl (Prod.ext rfl hd.symm)⟩

theorem acyclic_importerOf (tbl : List Entry) (rank : Node → Nat) (root : Node)
    (h : tableRanked tbl rank = true) : Acyclic (importerOf tbl) root := by
  have hstep : ∀ a b, Edge (importerOf tbl) a b → rank b < rank a := by
    intro a b hab
    obtain ⟨e, hm, ha, hi, hstd, hd⟩ := edge_importerOf tbl a b hab
    unfold tableRanked at h
    have h1 := List.all_eq_true.mp h e hm
    have h2 := List.all_eq_true.mp h1 b.1 hi
    rw [hstd, Bool.false_or, decide_eq_true_iff] at h2
    rw [ha]
    have hb : b = (b.1, e.pkg.Dir) := Prod.ext rfl hd
    rw [hb]; exact h2
  have htrans : ∀ a b, Relation.TransGen (Edge (importerOf tbl)) a b → rank b < rank a := by
    intro a b hab
    induction hab with
    | single h1 => exact hstep _ _ h1
    | tail _ h2 ih => exact lt_trans (hstep _ _ h2) ih
  intro a _ ha
  exact lt_irrefl _ (htrans a a ha)

theorem allResolve_importerOf (tbl : List Entry) (a : Node)
    (hroot : (lookupEntry tbl a.1 a.2).isSome = true) (hclosed : tableClosed tbl = true) :
    AllResolve (importerOf tbl) a := by
  have hres : ∀ b : Node, (lookupEntry tbl b.1 b.2).isSome = true →
      ∃ pkg, importerOf tbl b.1 b.2 = .ok pkg := by
    intro b hb
    obtain ⟨e, he⟩ := Option.isSome_iff_exists.mp hb
    exact ⟨e.pkg, by simp [importerOf, he]⟩
  intro b hreach
  apply hres
  induction hreach with
  | refl => exact hroot
  | @tail c d _ hedge ih =>
    obtain ⟨e, hm, hc, hi, hstd, hd⟩ := edge_importerOf tbl c d hedge
    unfold tableClosed at hclosed
    have h1 := List.all_eq_true.mp hclosed e hm
    have h2 := List.all_eq_true.mp h1 d.1 hi
    rw [hstd, Bool.false_or] at h2
    rw [hd]; exact h2

/-- A list of nodes that holds the root and passes `nodesRanked` bounds the graph
scanned from the root: it is finite, has no cycle, and all its packages resolve. -/
theorem graph_of_nodesRanked (bi : Importer) (nodes : List Node) (rank : Node → Nat)
    (root : Node) (hroot : root ∈ nodes) (h : nodesRanked bi nodes rank = true) :
    FiniteGraph bi root ∧ Acyclic bi root ∧ AllResolve bi root := by
  unfold nodesRanked at h
  have hstep : ∀ a ∈ nodes, ∀ b, Edge bi a b → b ∈ nodes ∧ rank b < rank a := by
    intro a ha b hab
    obtain ⟨pkg, hb, hi, hstd, hd⟩ := hab
    have h1 := List.all_eq_true.mp h a ha
    rw [hb] at h1
    have h2 := List.all_eq_true.mp h1 b.1 hi
    rw [hstd, Bool.false_or, Bool.and_eq_true, decide_eq_true_iff] at h2
    have hbe : b = (b.1, pkg.Dir) := Prod.ext rfl hd
    rw [hbe]
    exact ⟨by simpa using h2.1, h2.2⟩
  have hreach : ∀ b, Reach bi root b → b ∈ nodes := by
    intro b hb
    induction hb with
    | refl => exact hroot
    | tail _ hedge ih => exact (hstep _ ih _ hedge).1
  have htrans : ∀ a ∈ nodes, ∀ b, Relation.TransGen (Edge bi) a b →
      b ∈ nodes ∧ rank b < rank a := by
    intro a ha b hab
    induction hab with
    | single h1 => exact hstep a ha _ h1
    | tail _ h2 ih =>
      have := hstep _ ih.1 _ h2
      exact ⟨this.1, lt_trans this.2 ih.2⟩
  refine ⟨?_, ?_, ?_⟩
  · unfold FiniteGraph
    refine Set.Finite.subset (List.finite_toSet (nodes.product nodes)) ?_
    rintro ⟨a, b⟩ ⟨hra, hab⟩
    have ha := hreach a hra
    exact List.mem_product.mpr ⟨ha, (hstep a ha b hab).1⟩
  · intro a hra hcyc
    exact lt_irrefl _ (htrans a (hreach a hra) a hcyc).2
  · intro b hrb
    have h1 := List.all_eq_true.mp h b (hreach b hrb)
    cases hb : bi b.1 b.2 with
    | ok pkg => exact ⟨pkg, rfl⟩
    | error e => rw [hb] at h1; cases h1

/-! ## The scanner: claims -/

/-- C1: when the import graph scanned from the root is finite and acyclic and every
package reached from the root resolves, `scanDirectory` returns without error (for
every large enough recursion bound, always the same list), and the elements of the
list are exactly the external imports declared by the root or by a package reached
from it. -/
theorem scanDirectory_exact (bi : Importer) (path srcDir : String)
    (hfin : FiniteGraph bi (path, srcDir)) (hac : Acyclic bi (path, srcDir))
    (hres : AllResolve bi (path, srcDir)) :
    ∃ N ret, (∀ fuel, N ≤ fuel → scanDirectory bi fuel path srcDir = some (ret, none)) ∧
      ∀ imp, imp ∈ ret ↔
        (isExternal imp = true ∧ ∃ b, Reach bi (path, srcDir) b ∧ Declares bi b imp) := by
  obtain ⟨N, ⟨ret, err⟩, hN⟩ :=
    scanDirectory_returns bi (path, srcDir)
      (acc_of_finite_acyclic bi (path, srcDir) hfin hac (path, srcDir)
        Relation.ReflTransGen.refl)
  have herr : err = none := scanDirectory_noerr bi N path srcDir (ret, err) hres hN
  subst herr
  refine ⟨N, ret, fun fuel hle => scanDirectory_mono bi N fuel hle path srcDir _ hN, ?_⟩
  intro imp
  constructor
  · exact scanDirectory_sound bi N path srcDir (ret, none) hN imp
  · rintro ⟨hext, b, hreach, hdecl⟩
    exact scanDirectory_complete bi N path srcDir ret hN b imp hreach hdecl hext

/-- C1 at the diamond of an importer that finds a package from every directory:
the hypotheses hold there, and so does the conclusion. -/
theorem scanDirectory_exact_witness :
    FiniteGraph gopathImporter (".", "/w") ∧ Acyclic gopathImporter (".", "/w") ∧
    AllResolve gopathImporter (".", "/w") ∧
    ∃ N ret, (∀ fuel, N ≤ fuel →
        scanDirectory gopathImporter fuel "." "/w" = some (ret, none)) ∧
      ∀ imp, imp ∈ ret ↔ (isExternal imp = true ∧
        ∃ b, Reach gopathImporter (".", "/w") b ∧ Declares gopathImporter b imp) :=
  ⟨(graph_of_nodesRanked gopathImporter gopathNodes diamondRank (".", "/w")
      (by decide) (by decide)).1,
   (graph_of_nodesRanked gopathImporter gopathNodes diamondRank (".", "/w")
      (by decide) (by decide)).2.1,
   (graph_of_nodesRanked gopathImporter gopathNodes diamondRank (".", "/w")
      (by decide) (by decide)).2.2,
   scanDirectory_exact gopathImporter "." "/w"
     (graph_of_nodesRanked gopathImporter gopathNodes diamondRank (".", "/w")
        (by decide) (by decide)).1
     (graph_of_nodesRanked gopathImporter gopathNodes diamondRank (".", "/w")
        (by decide) (by decide)).2.1
     (graph_of_nodesRanked gopathImporter gopathNodes diamondRank (".", "/w")
        (by decide) (by decide)).2.2⟩

/-- C2: whatever the import graph, root and recursion bound, every element of the
list `scanDirectory` returns (with or without an error) contains a "." and so is
not a standard import, and no recursive invocation of `scanDirectory` is made on
a standard import. -/
theorem scanDirectory_no_standard (bi : Importer) (fuel : Nat) (path srcDir : String) :
    (∀ res, scanDirectory bi fuel path srcDir = some res →
      ∀ x ∈ res.1, '.' ∈ x.data ∧ isStandardImport x = false) ∧
    (scanDirectoryT bi fuel path srcDir).2 = scanDirectory bi fuel path srcDir ∧
    ∀ c ∈ (scanDirectoryT bi fuel path srcDir).1, isStandardImport c.1 = false := by
  refine ⟨?_, scanDirectoryT_snd bi fuel path srcDir, scanDirectoryT_calls bi fuel path srcDir⟩
  intro res h x hx
  have hext := (scanDirectory_sound bi fuel path srcDir res h x hx).1
  have hstd := ((isExternal_iff x).mp hext).1
  exact ⟨(isStandardImport_false_iff x).mp hstd, hstd⟩

/-- C2 at the diamond: "h.x/c" is returned, and is invoked on, and has a ".". -/
theorem scanDirectory_no_standard_witness :
    ('.' ∈ "h.x/c".data ∧ isStandardImport "h.x/c" = false) ∧
    isStandardImport "h.x/c" = false :=
  ⟨(scanDirectory_no_standard (importerOf diamondTable) 3 "." "/w").1
      (["h.x/a", "h.x/c", "h.x/b"], none) (by decide) "h.x/c" (by decide),
   (scanDirectory_no_standard (importerOf diamondTable) 3 "." "/w").2.2
      ("h.x/c", "/g/h.x/b") (by decide)⟩

/-- C3: the list `scanDirectory` returns has no two equal elements; and when the
scan returns without error, every external import declared by a reached package,
however many import chains lead to it, occurs in the list exactly once (so two
distinct reachable import strings are two separate elements). -/
theorem scanDirectory_dedup (bi : Importer) (fuel : Nat) (path srcDir : String)
    (res : ScanResult) (h : scanDirectory bi fuel path srcDir = some res) :
    res.1.Nodup ∧
    (res.2 = none → ∀ x, isExternal x = true →
      (∃ b, Reach bi (path, srcDir) b ∧ Declares bi b x) → res.1.count x = 1) := by
  have hnd := scanDirectory_nodup bi fuel path srcDir res h
  refine ⟨hnd, ?_⟩
  intro herr x hext hx
  obtain ⟨b, hreach, hdecl⟩ := hx
  obtain ⟨ret, err⟩ := res
  simp only at herr
  subst herr
  exact List.count_eq_one_of_mem hnd
    (scanDirectory_complete bi fuel path srcDir ret h b x hreach hdecl hext)

/-- C3 at the diamond: "h.x/c", imported by both "h.x/a" and "h.x/b", is listed once. -/
theorem scanDirectory_dedup_witness :
    scanDirectory (importerOf diamondTable) 3 "." "/w"
      = some (["h.x/a", "h.x/c", "h.x/b"], none) ∧
    (["h.x/a", "h.x/c", "h.x/b"] : List String).Nodup ∧
    (["h.x/a", "h.x/c", "h.x/b"] : List String).count "h.x/c" = 1 :=
  ⟨by decide,
   (scanDirectory_dedup (importerOf diamondTable) 3 "." "/w"
      (["h.x/a", "h.x/c", "h.x/b"], none) (by decide)).1,
   (scanDirectory_dedup (importerOf diamondTable) 3 "." "/w"
      (["h.x/a", "h.x/c", "h.x/b"], none) (by decide)).2 rfl "h.x/c" (by decide)
      ⟨("h.x/a", "/w"),
        Relation.ReflTransGen.single
          ⟨⟨"/w", ["fmt", "h.x/a", "h.x/b"]⟩, rfl, by decide, by decide, rfl⟩,
        ⟨"/g/h.x/a", ["h.x/c"]⟩, rfl, by decide⟩⟩

/-- C4, as stated, fails: on the graph of the specification's example the scan
returns the empty list, and no recursion bound makes it return a list with
"pkgs/alpha" in it. -/
theorem scanDirectory_example_refuted :
    scanDirectory (importerOf exampleTable) 3 "." "/w" = some ([], none) ∧
    ¬ ∃ fuel res, scanDirectory (importerOf exampleTable) fuel "." "/w" = some res ∧
        "pkgs/alpha" ∈ res.1 := by
  refine ⟨by decide, ?_⟩
  rintro ⟨fuel, res, h, hmem⟩
  have hext := (scanDirectory_sound _ fuel "." "/w" res h "pkgs/alpha" hmem).1
  revert hext
  decide

/-- C4, amended: when the source tree imports "pkgs/alpha" and "pkgs/alpha/sub",
`scanDirectory` returns the empty list (neither path has a "."); on the same graph
with the packages named "pkgs.io/alpha", "pkgs.io/alpha/sub" and "pkgs.io/beta" it
returns exactly these three, and not "fmt". -/
theorem scanDirectory_example (bi bi2 : Importer) (path srcDir d0 e0 e1 e2 e3 : String)
    (fuel : Nat)
    (h0 : bi path srcDir = .ok ⟨d0, ["pkgs/alpha", "pkgs/alpha/sub"]⟩)
    (k0 : bi2 path srcDir = .ok ⟨e0, ["pkgs.io/alpha", "pkgs.io/alpha/sub"]⟩)
    (k1 : bi2 "pkgs.io/alpha" e0 = .ok ⟨e1, ["fmt", "pkgs.io/beta"]⟩)
    (k2 : bi2 "pkgs.io/alpha/sub" e0 = .ok ⟨e2, []⟩)
    (k3 : bi2 "pkgs.io/beta" e1 = .ok ⟨e3, []⟩) :
    scanDirectory bi (fuel + 1) path srcDir = some ([], none) ∧
    scanDirectory bi2 (fuel + 3) path srcDir
      = some (["pkgs.io/alpha", "pkgs.io/beta", "pkgs.io/alpha/sub"], none) ∧
    "fmt" ∉ ["pkgs.io/alpha", "pkgs.io/beta", "pkgs.io/alpha/sub"] := by
  have s1 : isStandardImport "pkgs/alpha" = true := by decide
  have s2 : isStandardImport "pkgs/alpha/sub" = true := by decide
  have s3 : isStandardImport "fmt" = true := by decide
  have n1 : isStandardImport "pkgs.io/alpha" = false := by decide
  have n2 : isStandardImport "pkgs.io/alpha/sub" = false := by decide
  have n3 : isStandardImport "pkgs.io/beta" = false := by decide
  have hbeta : scanDirectory bi2 (fuel + 1) "pkgs.io/beta" e1 = some ([], none) := by
    rw [scanDirectory_ok bi2 fuel _ _ _ k3]; rfl
  have hsub : scanDirectory bi2 (fuel + 2) "pkgs.io/alpha/sub" e0 = some ([], none) := by
    rw [scanDirectory_ok bi2 (fuel + 1) _ _ _ k2]; rfl
  have halpha : scanDirectory bi2 (fuel + 2) "pkgs.io/alpha" e0
      = some (["pkgs.io/beta"], none) := by
    rw [scanDirectory_ok bi2 (fuel + 1) _ _ _ k1]
    show scanLoop _ e1 ["fmt", "pkgs.io/beta"] [] = _
    rw [scanLoop_std _ _ _ _ _ s3, scanLoop_ok _ _ _ _ _ _ n3 hbeta, scanLoop_nil]
    decide
  refine ⟨?_, ?_, by decide⟩
  · rw [scanDirectory_ok bi fuel _ _ _ h0]
    show scanLoop _ d0 ["pkgs/alpha", "pkgs/alpha/sub"] [] = _
    rw [scanLoop_std _ _ _ _ _ s1, scanLoop_std _ _ _ _ _ s2, scanLoop_nil]
  · rw [scanDirectory_ok bi2 (fuel + 2) _ _ _ k0]
    show scanLoop _ e0 ["pkgs.io/alpha", "pkgs.io/alpha/sub"] [] = _
    rw [scanLoop_ok _ _ _ _ _ _ n1 halpha, scanLoop_ok _ _ _ _ _ _ n2 hsub, scanLoop_nil]
    decide

/-- C4, amended, at the two example tables. -/
theorem scanDirectory_example_witness :
    scanDirectory (importerOf exampleTable) 1 "." "/w" = some ([], none) ∧
    scanDirectory (importerOf dottedTable) 3 "." "/w"
      = some (["pkgs.io/alpha", "pkgs.io/beta", "pkgs.io/alpha/sub"], none) ∧
    "fmt" ∉ ["pkgs.io/alpha", "pkgs.io/beta", "pkgs.io/alpha/sub"] :=
  scanDirectory_example (importerOf exampleTable) (importerOf dottedTable) "." "/w"
    "/w" "/w" "/g/pkgs.io/alpha" "/g/pkgs.io/alpha/sub" "/g/pkgs.io/beta" 0 rfl rfl rfl rfl rfl

/-- C5, as stated, fails: when the only import of the source tree cannot be
found, `scanDirectory` returns the error together with a non-empty list. -/
theorem scanDirectory_partial_output :
    scanDirectory (importerOf brokenTable) 2 "." "/w"
      = some (["h.x/gone"], some "cannot find package h.x/gone") ∧
    (["h.x/gone"] : List String) ≠ [] := by
  decide

/-- A loop that ends with an error stopped at one import: the imports before it
were worked through without error, giving an accumulator; the scan of that import
failed; what is returned is that accumulator, with the failing import appended when
it is not a local import. -/
theorem scanLoop_error_split (scan : String → String → Option ScanResult) (dir : String)
    (imports : List String) :
    ∀ (ret0 ret : List String) (err : String),
      scanLoop scan dir imports ret0 = some (ret, some err) →
      ∃ pre imp post acc pkgs, imports = pre ++ imp :: post ∧
        isStandardImport imp = false ∧
        scanLoop scan dir pre ret0 = some (acc, none) ∧
        scan imp dir = some (pkgs, some err) ∧
        ret = (if IsLocalImport imp then acc else appendPkg acc imp) := by
  induction imports with
  | nil =>
    intro ret0 ret err h
    rw [scanLoop_nil] at h
    simp at h
  | cons i rest ih =>
    intro ret0 ret err h
    cases hstd : isStandardImport i
    · rcases scanLoop_cases scan dir i rest ret0 hstd (ret, some err) h with
        ⟨pkgs, err2, hs, hres⟩ | ⟨pkgs, hs, hrest⟩
      · simp only [Prod.mk.injEq, Option.some.injEq] at hres
        obtain ⟨hret, herr⟩ := hres
        subst herr
        refine ⟨[], i, rest, ret0, pkgs, rfl, hstd, scanLoop_nil scan dir ret0, hs, ?_⟩
        rw [hret]
        unfold recordImport
        cases IsLocalImport i <;> rfl
      · obtain ⟨pre, imp, post, acc, pkgs2, hsplit, hstd2, hpre, hfail, hret⟩ :=
          ih _ ret err hrest
        refine ⟨i :: pre, imp, post, acc, pkgs2, by rw [hsplit]; rfl, hstd2, ?_, hfail, hret⟩
        rw [scanLoop_ok scan dir i pre ret0 pkgs hstd hs]
        exact hpre
    · rw [scanLoop_std scan dir i rest ret0 hstd] at h
      obtain ⟨pre, imp, post, acc, pkgs2, hsplit, hstd2, hpre, hfail, hret⟩ := ih ret0 ret err h
      refine ⟨i :: pre, imp, post, acc, pkgs2, by rw [hsplit]; rfl, hstd2, ?_, hfail, hret⟩
      rw [scanLoop_std scan dir i pre ret0 hstd]
      exact hpre

/-- C5, amended: when the root package itself cannot be resolved, `scanDirectory`
returns that error with the empty list.  When the root resolves and an error is
returned, the loop stopped at one import of the root package: the imports before
it were scanned without error, the scan of that import returned the error, and the
list returned with the error is the accumulator at that point: the list built from
the imports before, with the failing import appended (unless already in it) when it
is not a local import.  So the list is not empty when the failing import is
external. -/
theorem scanDirectory_error_output (bi : Importer) (fuel : Nat) (path srcDir : String) :
    (∀ err, bi path srcDir = .error err →
      scanDirectory bi (fuel + 1) path srcDir = some ([], some err)) ∧
    (∀ pkg ret err, bi path srcDir = .ok pkg →
      scanDirectory bi (fuel + 1) path srcDir = some (ret, some err) →
      ∃ pre imp post acc pkgs, pkg.Imports = pre ++ imp :: post ∧
        isStandardImport imp = false ∧
        scanLoop (scanDirectory bi fuel) pkg.Dir pre [] = some (acc, none) ∧
        scanDirectory bi fuel imp pkg.Dir = some (pkgs, some err) ∧
        ret = (if IsLocalImport imp then acc else appendPkg acc imp) ∧
        (IsLocalImport imp = false → imp ∈ ret)) := by
  refine ⟨fun err h => scanDirectory_error bi fuel path srcDir err h, ?_⟩
  intro pkg ret err hb h
  rw [scanDirectory_ok bi fuel path srcDir pkg hb] at h
  obtain ⟨pre, imp, post, acc, pkgs, hsplit, hstd, hpre, hfail, hret⟩ :=
    scanLoop_error_split (scanDirectory bi fuel) pkg.Dir pkg.Imports [] ret err h
  refine ⟨pre, imp, post, acc, pkgs, hsplit, hstd, hpre, hfail, hret, ?_⟩
  intro hl
  rw [hret, hl]
  simp only [Bool.false_eq_true, if_false]
  exact (mem_appendPkg acc imp imp).mpr (Or.inr rfl)

/-- C5, amended, at a root that cannot be found, and at the table where the
package "h.x/gone" cannot be found: the list returned with the error holds
"h.x/a", scanned before, and "h.x/gone" itself. -/
theorem scanDirectory_error_output_witness :
    scanDirectory (importerOf brokenTable) 1 "h.x/gone" "/w"
      = some ([], some "cannot find package h.x/gone") ∧
    scanDirectory (importerOf halfBrokenTable) 2 "." "/w"
      = some (["h.x/a", "h.x/gone"], some "cannot find package h.x/gone") ∧
    ∃ pre imp post acc pkgs, ["fmt", "h.x/a", "h.x/gone", "h.x/b"] = pre ++ imp :: post ∧
      isStandardImport imp = false ∧
      scanLoop (scanDirectory (importerOf halfBrokenTable) 1) "/w" pre [] = some (acc, none) ∧
      scanDirectory (importerOf halfBrokenTable) 1 imp "/w"
        = some (pkgs, some "cannot find package h.x/gone") ∧
      ["h.x/a", "h.x/gone"] = (if IsLocalImport imp then acc else appendPkg acc imp) ∧
      (IsLocalImport imp = false → imp ∈ ["h.x/a", "h.x/gone"]) :=
  ⟨(scanDirectory_error_output (importerOf brokenTable) 0 "h.x/gone" "/w").1 _ rfl,
   by decide,
   (scanDirectory_error_output (importerOf halfBrokenTable) 1 "." "/w").2
      ⟨"/w", ["fmt", "h.x/a", "h.x/gone", "h.x/b"]⟩ ["h.x/a", "h.x/gone"]
      "cannot find package h.x/gone" rfl (by decide)⟩

/-- C6: when the import graph scanned from a root path and search directory is
finite and has no cycle, `scanDirectory` terminates there: beyond some recursion
bound it returns, and always the same result. -/
theorem scanDirectory_terminates (bi : Importer) (path srcDir : String)
    (hfin : FiniteGraph bi (path, srcDir)) (hac : Acyclic bi (path, srcDir)) :
    ∃ N res, ∀ fuel, N ≤ fuel → scanDirectory bi fuel path srcDir = some res := by
  obtain ⟨N, res, hN⟩ :=
    scanDirectory_returns bi (path, srcDir)
      (acc_of_finite_acyclic bi (path, srcDir) hfin hac (path, srcDir)
        Relation.ReflTransGen.refl)
  exact ⟨N, res, fun fuel hle => scanDirectory_mono bi N fuel hle path srcDir res hN⟩

/-- C6 at an importer that finds a package from every directory, from the root of
its diamond; and at the broken table, where the scan ends with an error. -/
theorem scanDirectory_terminates_witness :
    FiniteGraph gopathImporter (".", "/w") ∧ Acyclic gopathImporter (".", "/w") ∧
    (∃ N res, ∀ fuel, N ≤ fuel → scanDirectory gopathImporter fuel "." "/w" = some res) ∧
    (∃ N res, ∀ fuel, N ≤ fuel →
      scanDirectory (importerOf brokenTable) fuel "." "/w" = some res) :=
  ⟨(graph_of_nodesRanked gopathImporter gopathNodes diamondRank (".", "/w")
      (by decide) (by decide)).1,
   (graph_of_nodesRanked gopathImporter gopathNodes diamondRank (".", "/w")
      (by decide) (by decide)).2.1,
   scanDirectory_terminates gopathImporter "." "/w"
     (graph_of_nodesRanked gopathImporter gopathNodes diamondRank (".", "/w")
        (by decide) (by decide)).1
     (graph_of_nodesRanked gopathImporter gopathNodes diamondRank (".", "/w")
        (by decide) (by decide)).2.1,
   scanDirectory_terminates (importerOf brokenTable) "." "/w"
     (finiteGraph_importerOf brokenTable (".", "/w"))
     (acyclic_importerOf brokenTable (fun n => if n.1 = "." then 1 else 0) (".", "/w")
        (by decide))⟩

/-! ## The VCS root locator: lemmas and claims -/

/-- One iteration of the loop of `getVCSRoot`. -/
theorem getVCSRoot_succ (isDir : String → Bool) (vendorSrc : String → String) (fuel : Nat)
    (vendor name : String) :
    getVCSRoot isDir vendorSrc (fuel + 1) vendor name =
      if isDir (Join [Join [vendorSrc vendor, name], ".git"]) then
        some (Join [vendorSrc vendor, name], some VcsCmd.git)
      else if isDir (Join [Join [vendorSrc vendor, name], ".hg"]) then
        some (Join [vendorSrc vendor, name], some VcsCmd.hg)
      else if isDir (Join [Join [vendorSrc vendor, name], ".bzr"]) then
        some (Join [vendorSrc vendor, name], some VcsCmd.bzr)
      else if "." = Dir name then some ("", none)
      else getVCSRoot isDir vendorSrc fuel vendor (Dir name) := by
  simp only [getVCSRoot]
  split_ifs <;> simp_all

/-- When the candidate has no metadata directory, the loop moves on. -/
theorem getVCSRoot_miss (isDir : String → Bool) (vendorSrc : String → String) (fuel : Nat)
    (vendor name : String) (h : hasMeta isDir (Join [vendorSrc vendor, name]) = false) :
    getVCSRoot isDir vendorSrc (fuel + 1) vendor name =
      if "." = Dir name then some ("", none)
      else getVCSRoot isDir vendorSrc fuel vendor (Dir name) := by
  simp only [hasMeta, Bool.or_eq_false_iff] at h
  rw [getVCSRoot_succ]
  simp [h.1.1, h.1.2, h.2]

/-- When the candidate has a metadata directory, the loop returns it at once. -/
theorem getVCSRoot_hit (isDir : String → Bool) (vendorSrc : String → String) (fuel : Nat)
    (vendor name : String) (h : hasMeta isDir (Join [vendorSrc vendor, name]) = true) :
    ∃ vcs, getVCSRoot isDir vendorSrc (fuel + 1) vendor name
      = some (Join [vendorSrc vendor, name], some vcs) := by
  simp only [hasMeta, Bool.or_eq_true] at h
  rw [getVCSRoot_succ]
  split_ifs with h1 h2 h3 h4
  · exact ⟨_, rfl⟩
  · exact ⟨_, rfl⟩
  · exact ⟨_, rfl⟩
  · exfalso; tauto
  · exfalso; tauto

/-- The backend `getVCSRoot` returns with a path is the first of git, hg, bzr (in
this order) whose metadata directory exists at that path. -/
theorem getVCSRoot_backend_iff (isDir : String → Bool) (vendorSrc : String → String) (fuel : Nat) :
    ∀ (vendor name p : String) (vcs : VcsCmd),
      getVCSRoot isDir vendorSrc fuel vendor name = some (p, some vcs) →
      (vcs = VcsCmd.git ↔ isDir (Join [p, ".git"]) = true) ∧
      (vcs = VcsCmd.hg ↔ isDir (Join [p, ".git"]) = false ∧ isDir (Join [p, ".hg"]) = true) ∧
      (vcs = VcsCmd.bzr ↔ isDir (Join [p, ".git"]) = false ∧ isDir (Join [p, ".hg"]) = false ∧
        isDir (Join [p, ".bzr"]) = true) := by
  induction fuel with
  | zero => intro vendor name p vcs h; simp [getVCSRoot] at h
  | succ n ih =>
    intro vendor name p vcs h
    rw [getVCSRoot_succ] at h
    split_ifs at h with h1 h2 h3 h4
    · simp only [Option.some.injEq, Prod.mk.injEq] at h
      obtain ⟨hp, hv⟩ := h
      subst hp; subst hv
      simp [h1]
    · simp only [Option.some.injEq, Prod.mk.injEq] at h
      obtain ⟨hp, hv⟩ := h
      subst hp; subst hv
      simp [h1, h2]
    · simp only [Option.some.injEq, Prod.mk.injEq] at h
      obtain ⟨hp, hv⟩ := h
      subst hp; subst hv
      simp [h1, h2, h3]
    · simp at h
    · exact ih vendor (Dir name) p vcs h

/-- The returned root is the first candidate of the walk with a metadata directory. -/
theorem getVCSRoot_walk (isDir : String → Bool) (vendorSrc : String → String) (fuel : Nat) :
    ∀ (vendor name p : String) (vcs : VcsCmd),
      getVCSRoot isDir vendorSrc fuel vendor name = some (p, some vcs) →
      ∃ k, p = Join [vendorSrc vendor, Dir^[k] name] ∧ hasMeta isDir p = true ∧
        ∀ j, j < k → hasMeta isDir (Join [vendorSrc vendor, Dir^[j] name]) = false ∧
          Dir^[j + 1] name ≠ "." := by
  induction fuel with
  | zero => intro vendor name p vcs h; simp [getVCSRoot] at h
  | succ n ih =>
    intro vendor name p vcs h
    cases hm : hasMeta isDir (Join [vendorSrc vendor, name])
    · rw [getVCSRoot_miss isDir vendorSrc n vendor name hm] at h
      split_ifs at h with hdot
      · simp at h
      · obtain ⟨k, hp, hmeta, hbefore⟩ := ih vendor (Dir name) p vcs h
        refine ⟨k + 1, by rw [Function.iterate_succ_apply]; exact hp, hmeta, ?_⟩
        intro j hj
        cases j with
        | zero => exact ⟨hm, fun hd => hdot (by simpa using hd.symm)⟩
        | succ i =>
          have := hbefore i (by omega)
          simpa [Function.iterate_succ_apply] using this
    · obtain ⟨v, hv⟩ := getVCSRoot_hit isDir vendorSrc n vendor name hm
      rw [hv] at h
      simp only [Option.some.injEq, Prod.mk.injEq] at h
      refine ⟨0, by simpa using h.1.symm, by rw [← h.1]; exact hm, ?_⟩
      intro j hj; omega

/-- A nil backend always comes with the empty path. -/
theorem getVCSRoot_none_path (isDir : String → Bool) (vendorSrc : String → String)
    (fuel : Nat) :
    ∀ (vendor name p : String),
      getVCSRoot isDir vendorSrc fuel vendor name = some (p, none) → p = "" := by
  induction fuel with
  | zero => intro vendor name p h; simp [getVCSRoot] at h
  | succ n ih =>
    intro vendor name p h
    rw [getVCSRoot_succ] at h
    split_ifs at h with h1 h2 h3 h4
    · simp at h
    · simp at h
    · simp at h
    · simp only [Option.some.injEq, Prod.mk.injEq] at h
      exact h.1.symm
    · exact ih vendor (Dir name) p h

/-- The walk passes over the candidates without metadata directory. -/
theorem getVCSRoot_skip (isDir : String → Bool) (vendorSrc : String → String)
    (vendor : String) (fuel : Nat) (k : Nat) :
    ∀ name : String,
      (∀ j, j < k → hasMeta isDir (Join [vendorSrc vendor, Dir^[j] name]) = false ∧
        Dir^[j + 1] name ≠ ".") →
      getVCSRoot isDir vendorSrc (fuel + k + 1) vendor name
        = getVCSRoot isDir vendorSrc (fuel + 1) vendor (Dir^[k] name) := by
  induction k with
  | zero => intro name _; rfl
  | succ k ih =>
    intro name hbefore
    have h0 := hbefore 0 (Nat.succ_pos k)
    have hm : hasMeta isDir (Join [vendorSrc vendor, name]) = false := h0.1
    have hd : ¬ ("." = Dir name) := fun hdot => h0.2 (by simpa using hdot.symm)
    have hfuel : fuel + (k + 1) + 1 = (fuel + k + 1) + 1 := by omega
    rw [hfuel, getVCSRoot_miss isDir vendorSrc (fuel + k + 1) vendor name hm, if_neg hd,
      ih (Dir name) (fun j hj => by
        have := hbefore (j + 1) (by omega)
        simpa [Function.iterate_succ_apply] using this),
      Function.iterate_succ_apply]

/-- C8: at every candidate path the walk of `getVCSRoot` examines (the candidates
before it have no metadata directory and the walk has not reached "."), the first
of git, hg, bzr whose metadata directory exists there is returned, with that path:
git if .git exists, whatever else exists; hg if .git is absent and .hg exists; bzr
if .git and .hg are absent and .bzr exists.  And whenever a backend is returned
with a path, it is git exactly when .git exists there, hg exactly when .git is
absent and .hg exists, bzr exactly when .git and .hg are absent and .bzr exists. -/
theorem getVCSRoot_backend (isDir : String → Bool) (vendorSrc : String → String)
    (vendor name : String) (k fuel : Nat)
    (hbefore : ∀ j, j < k →
      hasMeta isDir (Join [vendorSrc vendor, Dir^[j] name]) = false ∧ Dir^[j + 1] name ≠ ".") :
    (isDir (Join [Join [vendorSrc vendor, Dir^[k] name], ".git"]) = true →
      getVCSRoot isDir vendorSrc (fuel + k + 1) vendor name
        = some (Join [vendorSrc vendor, Dir^[k] name], some VcsCmd.git)) ∧
    (isDir (Join [Join [vendorSrc vendor, Dir^[k] name], ".git"]) = false →
      isDir (Join [Join [vendorSrc vendor, Dir^[k] name], ".hg"]) = true →
      getVCSRoot isDir vendorSrc (fuel + k + 1) vendor name
        = some (Join [vendorSrc vendor, Dir^[k] name], some VcsCmd.hg)) ∧
    (isDir (Join [Join [vendorSrc vendor, Dir^[k] name], ".git"]) = false →
      isDir (Join [Join [vendorSrc vendor, Dir^[k] name], ".hg"]) = false →
      isDir (Join [Join [vendorSrc vendor, Dir^[k] name], ".bzr"]) = true →
      getVCSRoot isDir vendorSrc (fuel + k + 1) vendor name
        = some (Join [vendorSrc vendor, Dir^[k] name], some VcsCmd.bzr)) ∧
    (∀ (n : Nat) (p : String) (vcs : VcsCmd),
      getVCSRoot isDir vendorSrc n vendor name = some (p, some vcs) →
      (vcs = VcsCmd.git ↔ isDir (Join [p, ".git"]) = true) ∧
      (vcs = VcsCmd.hg ↔ isDir (Join [p, ".git"]) = false ∧ isDir (Join [p, ".hg"]) = true) ∧
      (vcs = VcsCmd.bzr ↔ isDir (Join [p, ".git"]) = false ∧ isDir (Join [p, ".hg"]) = false ∧
        isDir (Join [p, ".bzr"]) = true)) := by
  have hskip := getVCSRoot_skip isDir vendorSrc vendor fuel k name hbefore
  refine ⟨?_, ?_, ?_, fun n p vcs h => getVCSRoot_backend_iff isDir vendorSrc n vendor name p vcs h⟩
  · intro h1
    rw [hskip, getVCSRoot_succ, if_pos h1]
  · intro h1 h2
    rw [hskip, getVCSRoot_succ, if_neg (by simp [h1]), if_pos h2]
  · intro h1 h2 h3
    rw [hskip, getVCSRoot_succ, if_neg (by simp [h1]), if_neg (by simp [h2]), if_pos h3]

/-- C8 on a tree where the second candidate of "h.x/r/sub" holds both .hg and
.bzr, and one where it holds all three: hg is returned, and git. -/
theorem getVCSRoot_backend_witness :
    getVCSRoot (dirsOf ["/v/src/h.x/r/.hg", "/v/src/h.x/r/.bzr"]) vendorSrcDir 2 "/v"
      "h.x/r/sub" = some (Join [vendorSrcDir "/v", Dir^[1] "h.x/r/sub"], some VcsCmd.hg) ∧
    getVCSRoot (dirsOf ["/v/src/h.x/r/.bzr", "/v/src/h.x/r/.hg", "/v/src/h.x/r/.git"])
      vendorSrcDir 2 "/v" "h.x/r/sub"
      = some (Join [vendorSrcDir "/v", Dir^[1] "h.x/r/sub"], some VcsCmd.git) ∧
    Join [vendorSrcDir "/v", Dir^[1] "h.x/r/sub"] = "/v/src/h.x/r" :=
  ⟨(getVCSRoot_backend (dirsOf ["/v/src/h.x/r/.hg", "/v/src/h.x/r/.bzr"]) vendorSrcDir
      "/v" "h.x/r/sub" 1 0 (by
        intro j hj
        have hj0 : j = 0 := by omega
        subst hj0
        decide)).2.1 (by decide) (by decide),
   (getVCSRoot_backend
      (dirsOf ["/v/src/h.x/r/.bzr", "/v/src/h.x/r/.hg", "/v/src/h.x/r/.git"]) vendorSrcDir
      "/v" "h.x/r/sub" 1 0 (by
        intro j hj
        have hj0 : j = 0 := by omega
        subst hj0
        decide)).1 (by decide),
   by decide⟩

/-- C7: when `getVCSRoot` returns a backend, the returned path is
`Join(vendorSrc(vendor), n)` for the first `n` among `name`, `Dir(name)`,
`Dir(Dir(name))`, ... (the walk stops when a truncation gives ".") at which a .git,
.hg or .bzr directory exists.  So "host/org/repo/subpkg" with metadata at
"host/org/repo" and none at the sub-path resolves to the root at "host/org/repo",
and a candidate holding any metadata directory is returned whatever the shallower
candidates hold. -/
theorem getVCSRoot_first (isDir : String → Bool) (vendorSrc : String → String)
    (vendor : String) :
    (∀ (fuel : Nat) (name p : String) (vcs : VcsCmd),
      getVCSRoot isDir vendorSrc fuel vendor name = some (p, some vcs) →
      ∃ k, p = Join [vendorSrc vendor, Dir^[k] name] ∧ hasMeta isDir p = true ∧
        ∀ j, j < k → hasMeta isDir (Join [vendorSrc vendor, Dir^[j] name]) = false ∧
          Dir^[j + 1] name ≠ ".") ∧
    (hasMeta isDir (Join [vendorSrc vendor, "host/org/repo/subpkg"]) = false →
      hasMeta isDir (Join [vendorSrc vendor, "host/org/repo"]) = true →
      ∀ fuel, ∃ vcs, getVCSRoot isDir vendorSrc (fuel + 2) vendor "host/org/repo/subpkg"
        = some (Join [vendorSrc vendor, "host/org/repo"], some vcs)) ∧
    (∀ name, hasMeta isDir (Join [vendorSrc vendor, name]) = true →
      ∀ fuel, ∃ vcs, getVCSRoot isDir vendorSrc (fuel + 1) vendor name
        = some (Join [vendorSrc vendor, name], some vcs)) := by
  refine ⟨fun fuel name p vcs h => getVCSRoot_walk isDir vendorSrc fuel vendor name p vcs h,
    ?_, fun name h fuel => getVCSRoot_hit isDir vendorSrc fuel vendor name h⟩
  intro hsub hroot fuel
  have hdir : Dir "host/org/repo/subpkg" = "host/org/repo" := by decide
  rw [getVCSRoot_miss isDir vendorSrc (fuel + 1) vendor _ hsub, hdir]
  rw [if_neg (by decide)]
  exact getVCSRoot_hit isDir vendorSrc fuel vendor _ hroot

/-- C7 on two vendor trees: metadata only at "host/org/repo"; and .bzr at the
sub-path below a .git at "host/org/repo". -/
theorem getVCSRoot_first_witness :
    (∃ k, "/v/src/host/org/repo" = Join [vendorSrcDir "/v", Dir^[k] "host/org/repo/subpkg"] ∧
      hasMeta (dirsOf ["/v/src/host/org/repo/.git"]) "/v/src/host/org/repo" = true ∧
      ∀ j, j < k →
        hasMeta (dirsOf ["/v/src/host/org/repo/.git"])
          (Join [vendorSrcDir "/v", Dir^[j] "host/org/repo/subpkg"]) = false ∧
        Dir^[j + 1] "host/org/repo/subpkg" ≠ ".") ∧
    (∀ fuel, ∃ vcs, getVCSRoot (dirsOf ["/v/src/host/org/repo/.git"]) vendorSrcDir
        (fuel + 2) "/v" "host/org/repo/subpkg"
      = some (Join [vendorSrcDir "/v", "host/org/repo"], some vcs)) ∧
    (∀ fuel, ∃ vcs, getVCSRoot
        (dirsOf ["/v/src/host/org/repo/.git", "/v/src/host/org/repo/subpkg/.bzr"])
        vendorSrcDir (fuel + 1) "/v" "host/org/repo/subpkg"
      = some (Join [vendorSrcDir "/v", "host/org/repo/subpkg"], some vcs)) :=
  ⟨(getVCSRoot_first (dirsOf ["/v/src/host/org/repo/.git"]) vendorSrcDir "/v").1 3
      "host/org/repo/subpkg" "/v/src/host/org/repo" VcsCmd.git (by decide),
   (getVCSRoot_first (dirsOf ["/v/src/host/org/repo/.git"]) vendorSrcDir "/v").2.1
      (by decide) (by decide),
   (getVCSRoot_first
      (dirsOf ["/v/src/host/org/repo/.git", "/v/src/host/org/repo/subpkg/.bzr"])
      vendorSrcDir "/v").2.2 "host/org/repo/subpkg" (by decide)⟩

/-- C9 fails on the code: for the absolute name "/a" and a vendor tree without any
metadata directory, the loop of `getVCSRoot` never ends, whatever the vendor root:
`Dir` truncates "/a" to "/" and "/" to itself, never to ".". -/
theorem getVCSRoot_absolute_loops (vendorSrc : String → String) (vendor : String)
    (fuel : Nat) :
    getVCSRoot (fun _ => false) vendorSrc fuel vendor "/a" = none ∧
    Dir "/a" = "/" ∧ Dir "/" = "/" := by
  have hroot : ∀ n, getVCSRoot (fun _ => false) vendorSrc n vendor "/" = none := by
    intro n
    induction n with
    | zero => rfl
    | succ m ih =>
      rw [getVCSRoot_miss _ vendorSrc m vendor "/" (by simp [hasMeta])]
      have hd : Dir "/" = "/" := by decide
      rw [hd, if_neg (by decide)]
      exact ih
  refine ⟨?_, by decide, by decide⟩
  cases fuel with
  | zero => rfl
  | succ m =>
    rw [getVCSRoot_miss _ vendorSrc m vendor "/a" (by simp [hasMeta])]
    have hd : Dir "/a" = "/" := by decide
    rw [hd, if_neg (by decide)]
    exact hroot m

/-! ## The lock filter: claim -/

theorem filterGoms_eq (matchEnv matchOS : Value → Bool) (allGoms : List Gom) :
    ∀ goms : List Gom, filterGoms matchEnv matchOS allGoms goms
      = goms ++ allGoms.filter (passesFilter matchEnv matchOS) := by
  induction allGoms with
  | nil => intro goms; simp [filterGoms]
  | cons gom rest ih =>
    intro goms
    unfold filterGoms
    cases hg : gom.options.lookup "group" with
    | none =>
      cases ho : gom.options.lookup "goos" with
      | none => simp [passesFilter, hg, ho, ih]
      | some goos => cases hm : matchOS goos <;> simp [passesFilter, hg, ho, hm, ih]
    | some group =>
      cases hm : matchEnv group
      · simp [passesFilter, hg, hm, ih]
      · cases ho : gom.options.lookup "goos" with
        | none => simp [passesFilter, hg, ho, hm, ih]
        | some goos => cases hm2 : matchOS goos <;> simp [passesFilter, hg, ho, hm, hm2, ih]

/-- C10: `genGomfileLock` keeps an entry of the manifest exactly when (it has no
"group" option or `matchEnv` holds of it) and (it has no "goos" option or
`matchOS` holds of it): the kept list is the manifest filtered by this condition,
in order; an entry with neither key is kept, one failing either predicate is not
in the kept list. -/
theorem filterGoms_keeps (matchEnv matchOS : Value → Bool) (allGoms : List Gom) :
    filterGoms matchEnv matchOS allGoms [] = allGoms.filter (passesFilter matchEnv matchOS) ∧
    (∀ gom, gom ∈ filterGoms matchEnv matchOS allGoms [] ↔
      gom ∈ allGoms ∧
      (gom.options.lookup "group" = none ∨
        ∃ group, gom.options.lookup "group" = some group ∧ matchEnv group = true) ∧
      (gom.options.lookup "goos" = none ∨
        ∃ goos, gom.options.lookup "goos" = some goos ∧ matchOS goos = true)) ∧
    (∀ gom ∈ allGoms, gom.options.lookup "group" = none → gom.options.lookup "goos" = none →
      gom ∈ filterGoms matchEnv matchOS allGoms []) := by
  have heq : filterGoms matchEnv matchOS allGoms []
      = allGoms.filter (passesFilter matchEnv matchOS) := by
    rw [filterGoms_eq]; rfl
  have hiff : ∀ gom, passesFilter matchEnv matchOS gom = true ↔
      (gom.options.lookup "group" = none ∨
        ∃ group, gom.options.lookup "group" = some group ∧ matchEnv group = true) ∧
      (gom.options.lookup "goos" = none ∨
        ∃ goos, gom.options.lookup "goos" = some goos ∧ matchOS goos = true) := by
    intro gom
    unfold passesFilter
    cases gom.options.lookup "group" <;> cases gom.options.lookup "goos" <;> simp
  refine ⟨heq, ?_, ?_⟩
  · intro gom
    rw [heq, List.mem_filter, hiff]
  · intro gom hmem hg ho
    rw [heq, List.mem_filter, hiff]
    exact ⟨hmem, Or.inl hg, Or.inl ho⟩

/-- C10 on four entries in the context (test, linux): the unconstrained entry and
the one of group test are kept, in order; the others are dropped. -/
theorem filterGoms_keeps_witness :
    filterGoms isTest isLinux sampleGoms []
      = [⟨"h.x/a", []⟩, ⟨"h.x/b", [("group", Value.str "test")]⟩] ∧
    (⟨"h.x/a", []⟩ : Gom) ∈ filterGoms isTest isLinux sampleGoms [] :=
  ⟨by decide,
   (filterGoms_keeps isTest isLinux sampleGoms).2.2 ⟨"h.x/a", []⟩ (by decide) rfl rfl⟩

/-! ## The scanner: classification, local imports, repeated scans -/

/-- C18: `isStandardImport(path)` is true exactly when `path` has no "." character
anywhere: "fmt", "net/http", "" and "pkgs/alpha" are standard, "github.com/x/y",
"./sub" and "a/b.c" are not. -/
theorem isStandardImport_iff_no_dot :
    (∀ path : String, isStandardImport path = true ↔ '.' ∉ path.data) ∧
    isStandardImport "fmt" = true ∧ isStandardImport "net/http" = true ∧
    isStandardImport "" = true ∧ isStandardImport "pkgs/alpha" = true ∧
    isStandardImport "github.com/x/y" = false ∧ isStandardImport "./sub" = false ∧
    isStandardImport "a/b.c" = false := by
  refine ⟨?_, by decide, by decide, by decide, by decide, by decide, by decide, by decide⟩
  intro path
  rw [← isStandardImport_false_iff]
  cases isStandardImport path <;> simp

/-- A local import has a "." in it, so it is not a standard import. -/
theorem isStandardImport_of_local (imp : String) (h : IsLocalImport imp = true) :
    isStandardImport imp = false := by
  rw [isStandardImport_false_iff]
  have hpre : ∀ pre : String, '.' ∈ pre.data → stringsHasPrefix imp pre = true →
      '.' ∈ imp.data := by
    intro pre hdot hp
    unfold stringsHasPrefix at hp
    obtain ⟨t, ht⟩ := List.isPrefixOf_iff_prefix.mp hp
    rw [← ht]
    exact List.mem_append_left _ hdot
  unfold IsLocalImport at h
  simp only [Bool.or_eq_true, beq_iff_eq] at h
  rcases h with ((h | h) | h) | h
  · rw [h]; decide
  · rw [h]; decide
  · exact hpre "./" (by decide) h
  · exact hpre "../" (by decide) h

theorem scanLoopT_std (scanT : String → String → List Call × Option ScanResult)
    (dir imp : String) (rest ret : List String) (h : isStandardImport imp = true) :
    scanLoopT scanT dir (imp :: rest) ret = scanLoopT scanT dir rest ret := by
  simp [scanLoopT, h]

theorem scanLoopT_stuck (scanT : String → String → List Call × Option ScanResult)
    (dir imp : String) (rest ret : List String) (t : List Call)
    (h : isStandardImport imp = false) (hs : scanT imp dir = (t, none)) :
    scanLoopT scanT dir (imp :: rest) ret = ((imp, dir) :: t, none) := by
  simp [scanLoopT, h, hs]

theorem scanLoopT_err (scanT : String → String → List Call × Option ScanResult)
    (dir imp : String) (rest ret pkgs : List String) (t : List Call) (err : String)
    (h : isStandardImport imp = false) (hs : scanT imp dir = (t, some (pkgs, some err))) :
    scanLoopT scanT dir (imp :: rest) ret
      = ((imp, dir) :: t, some (recordImport ret imp, some err)) := by
  simp [scanLoopT, h, hs, recordImport]

theorem scanLoopT_ok (scanT : String → String → List Call × Option ScanResult)
    (dir imp : String) (rest ret pkgs : List String) (t : List Call)
    (h : isStandardImport imp = false) (hs : scanT imp dir = (t, some (pkgs, none))) :
    scanLoopT scanT dir (imp :: rest) ret
      = ((imp, dir) :: t ++
          (scanLoopT scanT dir rest (appendPkgs (recordImport ret imp) pkgs)).1,
         (scanLoopT scanT dir rest (appendPkgs (recordImport ret imp) pkgs)).2) := by
  simp [scanLoopT, h, hs, recordImport]

/-- In a loop that ends without error, every non-standard import is invoked, with
the package directory as search root, and is then scanned in full: the invocation
and the whole trace of that scan appear, contiguously, in the trace of the loop. -/
theorem scanLoopT_infix (scanT : String → String → List Call × Option ScanResult)
    (dir : String) (imports : List String) :
    ∀ (ret0 ret : List String),
      (scanLoopT scanT dir imports ret0).2 = some (ret, none) →
      ∀ imp ∈ imports, isStandardImport imp = false →
        ((imp, dir) :: (scanT imp dir).1) <:+: (scanLoopT scanT dir imports ret0).1 := by
  induction imports with
  | nil => intro ret0 ret _ imp hi; exact absurd hi (List.not_mem_nil _)
  | cons i rest ih =>
    intro ret0 ret h imp hi hstd
    cases hstdi : isStandardImport i
    · rcases hs : scanT i dir with ⟨t, _ | ⟨pkgs, _ | err⟩⟩
      · rw [scanLoopT_stuck scanT dir i rest ret0 t hstdi hs] at h
        cases h
      · rw [scanLoopT_ok scanT dir i rest ret0 pkgs t hstdi hs] at h ⊢
        rcases List.mem_cons.mp hi with hi | hi
        · subst hi
          rw [hs]
          exact ⟨[], (scanLoopT scanT dir rest
            (appendPkgs (recordImport ret0 imp) pkgs)).1, by simp⟩
        · obtain ⟨u, v, huv⟩ := ih _ ret h imp hi hstd
          refine ⟨(i, dir) :: t ++ u, v, ?_⟩
          show ((i, dir) :: t ++ u) ++ ((imp, dir) :: (scanT imp dir).1) ++ v = _
          rw [← huv]
          simp
      · rw [scanLoopT_err scanT dir i rest ret0 pkgs t err hstdi hs] at h
        cases h
    · rw [scanLoopT_std scanT dir i rest ret0 hstdi] at h ⊢
      rcases List.mem_cons.mp hi with hi | hi
      · subst hi; rw [hstdi] at hstd; cases hstd
      · exact ih ret0 ret h imp hi hstd

/-- The same for a whole call of `scanDirectory` that returns without error. -/
theorem scanDirectoryT_infix (bi : Importer) (fuel : Nat) (path srcDir : String)
    (pkg : Package) (ret : List String) (hb : bi path srcDir = .ok pkg)
    (h : scanDirectory bi (fuel + 1) path srcDir = some (ret, none))
    (imp : String) (hi : imp ∈ pkg.Imports) (hstd : isStandardImport imp = false) :
    ((imp, pkg.Dir) :: (scanDirectoryT bi fuel imp pkg.Dir).1)
      <:+: (scanDirectoryT bi (fuel + 1) path srcDir).1 := by
  have h2 : (scanDirectoryT bi (fuel + 1) path srcDir).2 = some (ret, none) := by
    rw [scanDirectoryT_snd]; exact h
  simp only [scanDirectoryT, hb] at h2 ⊢
  exact scanLoopT_infix (scanDirectoryT bi fuel) pkg.Dir pkg.Imports [] ret h2 imp hi hstd

/-- Every invocation in the trace is on a package reached from the root. -/
theorem scanDirectoryT_reach (bi : Importer) (fuel : Nat) :
    ∀ (path srcDir : String), ∀ c ∈ (scanDirectoryT bi fuel path srcDir).1,
      Relation.TransGen (Edge bi) (path, srcDir) c := by
  induction fuel with
  | zero => intro path srcDir c hc; simp [scanDirectoryT] at hc
  | succ n ih =>
    intro path srcDir c hc
    cases hb : bi path srcDir with
    | error err => simp [scanDirectoryT, hb] at hc
    | ok pkg =>
      simp only [scanDirectoryT, hb] at hc
      have hloop : ∀ (imports : List String), (∀ i ∈ imports, i ∈ pkg.Imports) →
          ∀ ret0 : List String, ∀ c ∈ (scanLoopT (scanDirectoryT bi n) pkg.Dir imports ret0).1,
            Relation.TransGen (Edge bi) (path, srcDir) c := by
        intro imports
        induction imports with
        | nil => intro _ ret0 c hc; simp [scanLoopT] at hc
        | cons i rest ihl =>
          intro hsub ret0 c hc
          have hsub2 : ∀ j ∈ rest, j ∈ pkg.Imports := fun j hj => hsub j (List.mem_cons_of_mem _ hj)
          cases hstdi : isStandardImport i
          · have hedge : Edge bi (path, srcDir) (i, pkg.Dir) :=
              edge_of_import bi (path, srcDir) pkg i hb (hsub i (List.mem_cons_self _ _)) hstdi
            have hsubtrace : ∀ c ∈ (scanDirectoryT bi n i pkg.Dir).1,
                Relation.TransGen (Edge bi) (path, srcDir) c := fun c hc =>
              Relation.TransGen.trans (Relation.TransGen.single hedge) (ih i pkg.Dir c hc)
            rcases hs : scanDirectoryT bi n i pkg.Dir with ⟨t, _ | ⟨pkgs, _ | err⟩⟩
            · rw [hs] at hsubtrace
              simp only [scanLoopT, hstdi, hs] at hc
              rcases List.mem_cons.mp hc with hc | hc
              · rw [hc]; exact Relation.TransGen.single hedge
              · exact hsubtrace c hc
            · rw [hs] at hsubtrace
              simp only [scanLoopT, hstdi, hs] at hc
              rcases List.mem_cons.mp hc with hc | hc
              · rw [hc]; exact Relation.TransGen.single hedge
              · rcases List.mem_append.mp hc with hc | hc
                · exact hsubtrace c hc
                · exact ihl hsub2 _ c hc
            · rw [hs] at hsubtrace
              simp only [scanLoopT, hstdi, hs] at hc
              rcases List.mem_cons.mp hc with hc | hc
              · rw [hc]; exact Relation.TransGen.single hedge
              · exact hsubtrace c hc
          · simp only [scanLoopT, hstdi] at hc
            exact ihl hsub2 ret0 c hc
      exact hloop pkg.Imports (fun _ h => h) [] c hc

/-- C19, as stated, fails: the package "h.x/a" is scanned with the search root
"/w" and its local import "./sub" is scanned with the search root "/g/h.x/a",
the directory of "h.x/a", not with "/w". -/
theorem scanDirectory_local_refuted :
    (scanDirectoryT (importerOf localTable) 2 "h.x/a" "/w").1 = [("./sub", "/g/h.x/a")] ∧
    ("./sub", "/w") ∉ (scanDirectoryT (importerOf localTable) 2 "h.x/a" "/w").1 ∧
    scanDirectory (importerOf localTable) 2 "h.x/a" "/w" = some ([], none) := by
  decide

/-- C19, amended: when a call of `scanDirectory` returns without error, every
local import `imp` of the package it scans is scanned recursively with that
package's directory `pkg.Dir` as search root, and `imp` is not in the result. -/
theorem scanDirectory_local (bi : Importer) (fuel : Nat) (path srcDir : String)
    (pkg : Package) (ret : List String) (imp : String)
    (hb : bi path srcDir = .ok pkg) (hi : imp ∈ pkg.Imports) (hl : IsLocalImport imp = true)
    (h : scanDirectory bi (fuel + 1) path srcDir = some (ret, none)) :
    (imp, pkg.Dir) ∈ (scanDirectoryT bi (fuel + 1) path srcDir).1 ∧ imp ∉ ret := by
  constructor
  · have hinf := scanDirectoryT_infix bi fuel path srcDir pkg ret hb h imp hi
      (isStandardImport_of_local imp hl)
    exact hinf.subset (List.mem_cons_self _ _)
  · intro hmem
    have hext := (scanDirectory_sound bi (fuel + 1) path srcDir (ret, none) h imp hmem).1
    rw [isExternal_iff] at hext
    rw [hext.2] at hl
    cases hl

/-- C19, amended, at the package "h.x/a" of the local table. -/
theorem scanDirectory_local_witness :
    ("./sub", "/g/h.x/a") ∈ (scanDirectoryT (importerOf localTable) 2 "h.x/a" "/w").1 ∧
    "./sub" ∉ ([] : List String) :=
  scanDirectory_local (importerOf localTable) 1 "h.x/a" "/w" ⟨"/g/h.x/a", ["./sub"]⟩ []
    "./sub" rfl (by decide) (by decide) (by decide)

/-- C20, as stated, fails: in the diamond the package "h.x/c" is resolved and
scanned twice, once below "h.x/a" and once below "h.x/b", both times the package in
"/g/h.x/c"; the scan makes five package resolutions for four packages. -/
theorem scanDirectory_rescans :
    (scanDirectoryT (importerOf diamondTable) 3 "." "/w").1
      = [("h.x/a", "/w"), ("h.x/c", "/g/h.x/a"), ("h.x/b", "/w"), ("h.x/c", "/g/h.x/b")] ∧
    ((scanDirectoryT (importerOf diamondTable) 3 "." "/w").1.filter
      (fun c => c.1 == "h.x/c")).length = 2 ∧
    (importerOf diamondTable "h.x/c" "/g/h.x/a").toOption.map (fun pkg => pkg.Dir)
      = some "/g/h.x/c" ∧
    (importerOf diamondTable "h.x/c" "/g/h.x/b").toOption.map (fun pkg => pkg.Dir)
      = some "/g/h.x/c" ∧
    scanDirectory (importerOf diamondTable) 3 "." "/w"
      = some (["h.x/a", "h.x/c", "h.x/b"], none) := by
  decide

/-- C20, amended: `scanDirectory` keeps no record of the packages it has scanned.
Every invocation is on a package reached from the root, and when a call returns
without error each non-standard import of its package is invoked and scanned in
full, whatever was scanned before (so a package is scanned once for every import
chain that reaches it); only the returned list is free of repetitions. -/
theorem scanDirectory_no_memo (bi : Importer) (fuel : Nat) (path srcDir : String) :
    (∀ c ∈ (scanDirectoryT bi fuel path srcDir).1,
      Relation.TransGen (Edge bi) (path, srcDir) c) ∧
    (∀ pkg ret imp, bi path srcDir = .ok pkg →
      scanDirectory bi (fuel + 1) path srcDir = some (ret, none) →
      imp ∈ pkg.Imports → isStandardImport imp = false →
      ((imp, pkg.Dir) :: (scanDirectoryT bi fuel imp pkg.Dir).1)
        <:+: (scanDirectoryT bi (fuel + 1) path srcDir).1) ∧
    (∀ res, scanDirectory bi fuel path srcDir = some res → res.1.Nodup) :=
  ⟨scanDirectoryT_reach bi fuel path srcDir,
   fun pkg ret imp hb h hi hstd => scanDirectoryT_infix bi fuel path srcDir pkg ret hb h imp hi hstd,
   fun res h => scanDirectory_nodup bi fuel path srcDir res h⟩

/-- C20, amended, at the diamond: "h.x/c" is invoked below "h.x/b" although it was
scanned below "h.x/a" before. -/
theorem scanDirectory_no_memo_witness :
    Relation.TransGen (Edge (importerOf diamondTable)) (".", "/w") ("h.x/c", "/g/h.x/b") ∧
    ([("h.x/c", "/g/h.x/b")] ++ (scanDirectoryT (importerOf diamondTable) 1 "h.x/c" "/g/h.x/b").1)
      <:+: (scanDirectoryT (importerOf diamondTable) 2 "h.x/b" "/w").1 ∧
    (["h.x/a", "h.x/c", "h.x/b"] : List String).Nodup :=
  ⟨(scanDirectory_no_memo (importerOf diamondTable) 3 "." "/w").1 _ (by decide),
   (scanDirectory_no_memo (importerOf diamondTable) 1 "h.x/b" "/w").2.1
     ⟨"/g/h.x/b", ["h.x/c"]⟩ ["h.x/c"] "h.x/c" rfl (by decide) (by decide) (by decide),
   (scanDirectory_no_memo (importerOf diamondTable) 3 "." "/w").2.2 _
     (show scanDirectory (importerOf diamondTable) 3 "." "/w"
        = some (["h.x/a", "h.x/c", "h.x/b"], none) by decide)⟩

/-! ## The manifest writer -/

/-- `stringLess` is the lexicographic order of character lists. -/
theorem stringLess_iff_lex (a : List Char) :
    ∀ b : List Char, stringLess a b = true ↔ List.Lex (fun c d : Char => c < d) a b := by
  induction a with
  | nil =>
    intro b
    cases b with
    | nil => simp [stringLess]
    | cons d ds => simp [stringLess, List.Lex.nil]
  | cons c cs ih =>
    intro b
    cases b with
    | nil => simp [stringLess]
    | cons d ds =>
      unfold stringLess
      by_cases h1 : c < d
      · simp only [h1, if_true, true_iff]
        exact List.Lex.rel h1
      · by_cases h2 : d < c
        · simp only [h1, h2, if_true, if_false, Bool.false_eq_true, false_iff]
          intro hlex
          cases hlex with
          | cons h => exact lt_irrefl _ h2
          | rel h => exact h1 h
        · have hcd : c = d := le_antisymm (not_lt.mp h2) (not_lt.mp h1)
          subst hcd
          simp only [h1, if_false]
          rw [ih ds]
          exact List.Lex.cons_iff.symm

/-- `stringLess` is the order `<` of Lean strings. -/
theorem stringLess_iff (a b : String) : stringLess a.data b.data = true ↔ a < b := by
  rw [stringLess_iff_lex, String.lt_iff_toList_lt]
  exact Iff.rfl

/-- The comparison `sortStrings` sorts by is `≤`. -/
theorem stringLe_iff (a b : String) : stringLess b.data a.data = false ↔ a ≤ b := by
  rw [← not_lt, ← stringLess_iff]
  cases stringLess b.data a.data <;> simp

theorem sortStrings_perm (l : List String) : (sortStrings l).Perm l :=
  List.perm_insertionSort _ l

theorem sortStrings_sorted (l : List String) : (sortStrings l).Sorted (fun a b => a ≤ b) := by
  haveI : IsTotal String (fun a b => stringLess b.data a.data = false) :=
    ⟨fun a b => by simp only [stringLe_iff]; exact le_total a b⟩
  haveI : IsTrans String (fun a b => stringLess b.data a.data = false) :=
    ⟨fun a b c => by simp only [stringLe_iff]; exact le_trans⟩
  have h := List.sorted_insertionSort (fun a b : String => stringLess b.data a.data = false) l
  exact List.Pairwise.imp (fun {a b} hab => (stringLe_iff a b).mp hab) h

/-- Two lists without repetition and with the same elements sort to the same list. -/
theorem sortStrings_congr (l1 l2 : List String) (h1 : l1.Nodup) (h2 : l2.Nodup)
    (h : ∀ x, x ∈ l1 ↔ x ∈ l2) : sortStrings l1 = sortStrings l2 := by
  have hp : l1.Perm l2 := (List.perm_ext_iff_of_nodup h1 h2).mpr h
  exact List.eq_of_perm_of_sorted
    (((sortStrings_perm l1).trans hp).trans (sortStrings_perm l2).symm)
    (sortStrings_sorted l1) (sortStrings_sorted l2)

/-- The file just created by `os.Create` holds what is then written to it. -/
theorem readFile_create_write (fs fs1 : FS) (name text : String)
    (h : osCreate fs name = .ok fs1) :
    readFile (writeString fs1 name text) name = some text := by
  unfold osCreate at h
  split_ifs at h
  cases h
  simp [readFile, writeString, List.lookup_cons]

/-- What a successful run of `genGomfile` went through. -/
theorem genGomfile_ok (bi : Importer) (getwd : Except String String) (fuel : Nat)
    (fs fs2 : FS) (h : genGomfile bi getwd fuel fs = some (fs2, none)) :
    ∃ fs1 dir all, osStat fs "Gomfile" = false ∧ osCreate fs "Gomfile" = .ok fs1 ∧
      getwd = .ok dir ∧ scanDirectory bi fuel "." dir = some (all, none) ∧
      fs2 = writeString fs1 "Gomfile" (String.join ((sortStrings all).map gomfileLine)) := by
  unfold genGomfile at h
  cases hst : osStat fs "Gomfile"
  · rw [hst] at h
    simp only [Bool.false_eq_true, if_false] at h
    cases hc : osCreate fs "Gomfile" with
    | error e => rw [hc] at h; simp at h
    | ok fs1 =>
      rw [hc] at h
      dsimp only at h
      cases hw : getwd with
      | error e => rw [hw] at h; simp at h
      | ok dir =>
        rw [hw] at h
        dsimp only at h
        rcases hs : scanDirectory bi fuel "." dir with _ | ⟨all, _ | e⟩
        · rw [hs] at h; simp at h
        · rw [hs] at h
          simp only [Option.some.injEq, Prod.mk.injEq, and_true] at h
          exact ⟨fs1, dir, all, rfl, rfl, rfl, hs, h.symm⟩
        · rw [hs] at h; simp at h
  · rw [hst] at h
    simp at h

/-- C14 fails on the code: with no Gomfile and a scan that fails, `genGomfile`
returns the error of the scan but leaves an empty Gomfile behind, created by
`os.Create` before the scan; a second run then stops at "Gomfile already exists". -/
theorem genGomfile_leaves_empty_file :
    osStat ⟨["/w"], []⟩ "Gomfile" = false ∧
    scanDirectory (importerOf brokenTable) 2 "." "/w"
      = some (["h.x/gone"], some "cannot find package h.x/gone") ∧
    genGomfile (importerOf brokenTable) (.ok "/w") 2 ⟨["/w"], []⟩
      = some (⟨["/w"], [("Gomfile", "")]⟩, some "cannot find package h.x/gone") ∧
    osStat ⟨["/w"], [("Gomfile", "")]⟩ "Gomfile" = true ∧
    genGomfile (importerOf brokenTable) (.ok "/w") 2 ⟨["/w"], [("Gomfile", "")]⟩
      = some (⟨["/w"], [("Gomfile", "")]⟩, some "Gomfile already exists") := by
  decide

/-- C15: when `genGomfile` succeeds, the Gomfile holds one line "gom '<pkg>'" per
element of the scan result, the import paths in strictly ascending order (so none
is repeated); the content depends on the set of scanned elements only: any scan
with the same elements gives the same bytes. -/
theorem genGomfile_sorted (bi : Importer) (getwd : Except String String) (fuel : Nat)
    (fs fs2 : FS) (h : genGomfile bi getwd fuel fs = some (fs2, none)) :
    ∃ dir all, getwd = .ok dir ∧ scanDirectory bi fuel "." dir = some (all, none) ∧
      readFile fs2 "Gomfile" = some (String.join ((sortStrings all).map gomfileLine)) ∧
      (sortStrings all).Perm all ∧
      (sortStrings all).Sorted (fun a b => a < b) ∧
      ∀ (bi2 : Importer) (fuel2 : Nat) (path2 dir2 : String) (all2 : List String),
        scanDirectory bi2 fuel2 path2 dir2 = some (all2, none) →
        (∀ x, x ∈ all2 ↔ x ∈ all) →
        String.join ((sortStrings all2).map gomfileLine)
          = String.join ((sortStrings all).map gomfileLine) := by
  obtain ⟨fs1, dir, all, _, hc, hw, hs, hfs⟩ := genGomfile_ok bi getwd fuel fs fs2 h
  have hnd : all.Nodup := scanDirectory_nodup bi fuel "." dir (all, none) hs
  refine ⟨dir, all, hw, hs, ?_, sortStrings_perm all, ?_, ?_⟩
  · rw [hfs]; exact readFile_create_write fs fs1 "Gomfile" _ hc
  · exact (sortStrings_sorted all).lt_of_le ((sortStrings_perm all).nodup_iff.mpr hnd)
  · intro bi2 fuel2 path2 dir2 all2 hs2 hset
    have hnd2 : all2.Nodup := scanDirectory_nodup bi2 fuel2 path2 dir2 (all2, none) hs2
    rw [sortStrings_congr all2 all hnd2 hnd hset]

/-- C15 at the diamond: the manifest lists "h.x/a", "h.x/b", "h.x/c" in this order. -/
theorem genGomfile_sorted_witness :
    genGomfile (importerOf diamondTable) (.ok "/w") 3 ⟨["/w"], []⟩
      = some (⟨["/w"], [("Gomfile", "gom 'h.x/a'\ngom 'h.x/b'\ngom 'h.x/c'\n")]⟩, none) ∧
    ∃ dir all, (Except.ok "/w" : Except String String) = .ok dir ∧
      scanDirectory (importerOf diamondTable) 3 "." dir = some (all, none) ∧
      readFile ⟨["/w"], [("Gomfile", "gom 'h.x/a'\ngom 'h.x/b'\ngom 'h.x/c'\n")]⟩ "Gomfile"
        = some (String.join ((sortStrings all).map gomfileLine)) ∧
      (sortStrings all).Perm all ∧
      (sortStrings all).Sorted (fun a b => a < b) ∧
      ∀ (bi2 : Importer) (fuel2 : Nat) (path2 dir2 : String) (all2 : List String),
        scanDirectory bi2 fuel2 path2 dir2 = some (all2, none) →
        (∀ x, x ∈ all2 ↔ x ∈ all) →
        String.join ((sortStrings all2).map gomfileLine)
          = String.join ((sortStrings all).map gomfileLine) :=
  ⟨by decide,
   genGomfile_sorted (importerOf diamondTable) (.ok "/w") 3 ⟨["/w"], []⟩
     ⟨["/w"], [("Gomfile", "gom 'h.x/a'\ngom 'h.x/b'\ngom 'h.x/c'\n")]⟩ (by decide)⟩

/-! ## The lock generator: what a run goes through -/

/-- What a run of `genGomfileLock` that returns a nil error went through. -/
theorem genGomfileLock_ok (env : LockEnv) (fuel : Nat) (fs : FS) (r : LockRun)
    (h : genGomfileLock env fuel fs = some r) (he : r.err = none) :
    ∃ allGoms vendor pinned fs1 text fs4 removed,
      env.parsed = .ok allGoms ∧ env.absVendor = .ok vendor ∧
      pinGoms fs.isDir env.vendorSrc env.revision fuel vendor
        (filterGoms env.matchEnv env.matchOS allGoms []) = some pinned ∧
      osCreate fs "Gomfile.lock" = .ok fs1 ∧ lockLines pinned = some text ∧
      sanitize env.vendorSrc fuel vendor pinned
        (RemoveAll (writeString fs1 "Gomfile.lock" text)
          (Join [env.vendorSrc vendor, env.internalRoots])) = some (fs4, removed) ∧
      r = ⟨fs4, none, text, removed⟩ := by
  unfold genGomfileLock at h
  cases hp : env.parsed with
  | error e => rw [hp] at h; simp at h; rw [← h] at he; simp at he
  | ok allGoms =>
    rw [hp] at h
    dsimp only at h
    cases hv : env.absVendor with
    | error e => rw [hv] at h; simp at h; rw [← h] at he; simp at he
    | ok vendor =>
      rw [hv] at h
      dsimp only at h
      cases hpin : pinGoms fs.isDir env.vendorSrc env.revision fuel vendor
          (filterGoms env.matchEnv env.matchOS allGoms []) with
      | none => rw [hpin] at h; simp at h
      | some pinned =>
        rw [hpin] at h
        dsimp only at h
        cases hc : osCreate fs "Gomfile.lock" with
        | error e => rw [hc] at h; simp at h; rw [← h] at he; simp at he
        | ok fs1 =>
          rw [hc] at h
          dsimp only at h
          cases hl : lockLines pinned with
          | none => rw [hl] at h; simp at h
          | some text =>
            rw [hl] at h
            dsimp only at h
            rcases hs : sanitize env.vendorSrc fuel vendor pinned
                (RemoveAll (writeString fs1 "Gomfile.lock" text)
                  (Join [env.vendorSrc vendor, env.internalRoots])) with _ | ⟨fs4, removed⟩
            · rw [hs] at h; simp at h
            · rw [hs] at h
              simp only [Option.some.injEq] at h
              exact ⟨allGoms, vendor, pinned, fs1, text, fs4, removed, rfl, rfl, hpin, rfl, hl,
                hs, h.symm⟩

/-- The filter loop from the empty accumulator is `List.filter`. -/
theorem filterGoms_nil (matchEnv matchOS : Value → Bool) (allGoms : List Gom) :
    filterGoms matchEnv matchOS allGoms [] = allGoms.filter (passesFilter matchEnv matchOS) := by
  rw [filterGoms_eq]; rfl

/-- The revision loop handles the entries one by one, each for itself. -/
theorem pinGoms_forall2 (isDir : String → Bool) (vendorSrc : String → String)
    (revision : VcsCmd → String → Except String String) (fuel : Nat) (vendor : String)
    (goms : List Gom) :
    ∀ pinned, pinGoms isDir vendorSrc revision fuel vendor goms = some pinned →
      List.Forall₂ (fun g g1 => pinGom isDir vendorSrc revision fuel vendor g = some g1)
        goms pinned := by
  induction goms with
  | nil => intro pinned h; simp [pinGoms] at h; subst h; exact List.Forall₂.nil
  | cons g rest ih =>
    intro pinned h
    unfold pinGoms at h
    cases hg : pinGom isDir vendorSrc revision fuel vendor g with
    | none => rw [hg] at h; simp at h
    | some g1 =>
      rw [hg] at h
      dsimp only at h
      cases hr : pinGoms isDir vendorSrc revision fuel vendor rest with
      | none => rw [hr] at h; simp at h
      | some rest1 =>
        rw [hr] at h
        simp only [Option.some.injEq] at h
        subst h
        exact List.Forall₂.cons hg (ih rest1 hr)

/-- What one iteration of the revision loop does to an entry. -/
theorem pinGom_cases (isDir : String → Bool) (vendorSrc : String → String)
    (revision : VcsCmd → String → Except String String) (fuel : Nat) (vendor : String)
    (g g1 : Gom) (h : pinGom isDir vendorSrc revision fuel vendor g = some g1) :
    (g1 = g ∧
      ((∃ p, getVCSRoot isDir vendorSrc fuel vendor g.name = some (p, none)) ∨
       (∃ p vcs, getVCSRoot isDir vendorSrc fuel vendor g.name = some (p, some vcs) ∧
          ((∃ e, revision vcs p = .error e) ∨ revision vcs p = .ok "")))) ∨
    (∃ p vcs rev, getVCSRoot isDir vendorSrc fuel vendor g.name = some (p, some vcs) ∧
      revision vcs p = .ok rev ∧ rev ≠ "" ∧
      g1 = { g with options := setOption g.options "commit" (Value.str rev) }) := by
  unfold pinGom at h
  rcases hr : getVCSRoot isDir vendorSrc fuel vendor g.name with _ | ⟨p, _ | vcs⟩
  · rw [hr] at h; simp at h
  · rw [hr] at h
    simp only [Option.some.injEq] at h
    exact Or.inl ⟨h.symm, Or.inl ⟨p, rfl⟩⟩
  · rw [hr] at h
    dsimp only at h
    cases hrev : revision vcs p with
    | error e =>
      rw [hrev] at h
      simp only [Option.some.injEq] at h
      exact Or.inl ⟨h.symm, Or.inr ⟨p, vcs, rfl, Or.inl ⟨e, hrev⟩⟩⟩
    | ok rev =>
      rw [hrev] at h
      dsimp only at h
      by_cases hne : rev = ""
      · subst hne
        simp only [bne_self_eq_false, Bool.false_eq_true, if_false, Option.some.injEq] at h
        exact Or.inl ⟨h.symm, Or.inr ⟨p, vcs, rfl, Or.inr hrev⟩⟩
      · have hb : (rev != "") = true := by simpa using hne
        rw [hb] at h
        simp only [if_true, Option.some.injEq] at h
        exact Or.inr ⟨p, vcs, rev, rfl, hrev, hne, h.symm⟩

theorem lookup_setOption (options : List (String × Value)) (key : String) (v : Value) :
    (setOption options key v).lookup key = some v := by
  simp [setOption, List.lookup_cons]

theorem pinGom_name (isDir : String → Bool) (vendorSrc : String → String)
    (revision : VcsCmd → String → Except String String) (fuel : Nat) (vendor : String)
    (g g1 : Gom) (h : pinGom isDir vendorSrc revision fuel vendor g = some g1) :
    g1.name = g.name := by
  rcases pinGom_cases isDir vendorSrc revision fuel vendor g g1 h with
    ⟨h1, _⟩ | ⟨_, _, _, _, _, _, h1⟩
  · rw [h1]
  · rw [h1]

/-- The commit option of an entry after the revision loop is a string when the
entry's own commit option, if any, was one. -/
theorem pinGom_commit_str (isDir : String → Bool) (vendorSrc : String → String)
    (revision : VcsCmd → String → Except String String) (fuel : Nat) (vendor : String)
    (g g1 : Gom) (h : pinGom isDir vendorSrc revision fuel vendor g = some g1)
    (hstr : ∀ v, g.options.lookup "commit" = some v → ∃ rev, v = Value.str rev) :
    ∀ v, g1.options.lookup "commit" = some v → ∃ rev, v = Value.str rev := by
  rcases pinGom_cases isDir vendorSrc revision fuel vendor g g1 h with
    ⟨h1, _⟩ | ⟨_, _, rev, _, _, _, h1⟩
  · rw [h1]; exact hstr
  · rw [h1]
    intro v hv
    have : (setOption g.options "commit" (Value.str rev)).lookup "commit" = some v := hv
    rw [lookup_setOption] at this
    exact ⟨rev, (Option.some.inj this).symm⟩

theorem pinGoms_names (isDir : String → Bool) (vendorSrc : String → String)
    (revision : VcsCmd → String → Except String String) (fuel : Nat) (vendor : String)
    (goms pinned : List Gom)
    (h : pinGoms isDir vendorSrc revision fuel vendor goms = some pinned) :
    pinned.map (fun g => g.name) = goms.map (fun g => g.name) := by
  have hf := pinGoms_forall2 isDir vendorSrc revision fuel vendor goms pinned h
  clear h
  induction hf with
  | nil => rfl
  | cons h1 _ ih =>
    simp only [List.map_cons]
    rw [pinGom_name isDir vendorSrc revision fuel vendor _ _ h1, ih]

theorem string_join_cons (l : String) (ls : List String) :
    String.join (l :: ls) = l ++ String.join ls := by
  have hfold : ∀ (xs : List String) (acc : String),
      List.foldl (fun r s => r ++ s) acc xs = acc ++ List.foldl (fun r s => r ++ s) "" xs := by
    intro xs
    induction xs with
    | nil => intro acc; simp
    | cons x xs ih =>
      intro acc
      simp only [List.foldl_cons]
      rw [ih (acc ++ x), ih ("" ++ x), String.empty_append, String.append_assoc]
  show List.foldl (fun r s => r ++ s) "" (l :: ls) = l ++ List.foldl (fun r s => r ++ s) "" ls
  rw [List.foldl_cons, hfold ls ("" ++ l), String.empty_append]

theorem lockLine_some (g : Gom) (line : String) (h : lockLine g = some line) :
    IsLockLine g line := by
  unfold lockLine at h
  unfold IsLockLine
  rcases hc : g.options.lookup "commit" with _ | ⟨rev | tag⟩
  · rw [hc] at h
    simp only [Option.some.injEq] at h
    exact Or.inl ⟨rfl, h.symm⟩
  · rw [hc] at h
    simp only [Option.some.injEq] at h
    exact Or.inr ⟨rev, rfl, h.symm⟩
  · rw [hc] at h; simp at h

/-- The write loop prints one line per entry, in order. -/
theorem lockLines_some (goms : List Gom) :
    ∀ text, lockLines goms = some text →
      ∃ lines, text = String.join lines ∧ List.Forall₂ IsLockLine goms lines := by
  induction goms with
  | nil =>
    intro text h
    simp only [lockLines, Option.some.injEq] at h
    exact ⟨[], by rw [← h]; rfl, List.Forall₂.nil⟩
  | cons g rest ih =>
    intro text h
    unfold lockLines at h
    cases hl : lockLine g with
    | none => rw [hl] at h; simp at h
    | some line =>
      rw [hl] at h
      dsimp only at h
      cases hr : lockLines rest with
      | none => rw [hr] at h; simp at h
      | some more =>
        rw [hr] at h
        simp only [Option.some.injEq] at h
        obtain ⟨lines, hjoin, hall⟩ := ih more hr
        refine ⟨line :: lines, ?_, List.Forall₂.cons (lockLine_some g line hl) hall⟩
        rw [string_join_cons, ← hjoin, h]

/-- The write loop does not panic when every commit option is a string. -/
theorem lockLines_isSome (goms : List Gom)
    (hstr : ∀ g ∈ goms, ∀ v, g.options.lookup "commit" = some v → ∃ rev, v = Value.str rev) :
    ∃ text, lockLines goms = some text := by
  induction goms with
  | nil => exact ⟨"", rfl⟩
  | cons g rest ih =>
    obtain ⟨more, hmore⟩ := ih (fun g1 hg1 => hstr g1 (List.mem_cons_of_mem _ hg1))
    have hg := hstr g (List.mem_cons_self _ _)
    unfold lockLines
    rw [hmore]
    rcases hc : g.options.lookup "commit" with _ | v
    · simp [lockLine, hc]
    · obtain ⟨rev, hrev⟩ := hg v hc
      subst hrev
      simp [lockLine, hc]

theorem forall2_chain {α β γ : Type} (A : α → β → Prop) (B : β → γ → Prop)
    (C : α → γ → Prop) (hABC : ∀ x y z, A x y → B y z → C x z) (xs : List α) (ys : List β) :
    List.Forall₂ A xs ys → ∀ zs : List γ, List.Forall₂ B ys zs → List.Forall₂ C xs zs := by
  intro hA
  induction hA with
  | nil => intro zs hB; cases hB; exact List.Forall₂.nil
  | cons h1 _ ih =>
    intro zs hB
    cases hB with
    | cons h2 hrest => exact List.Forall₂.cons (hABC _ _ _ h1 h2) (ih _ hrest)

theorem forall2_right_of_left {α β : Type} (A : α → β → Prop) (P : α → Prop) (Q : β → Prop)
    (hPQ : ∀ x y, A x y → P x → Q y) (xs : List α) (ys : List β)
    (hA : List.Forall₂ A xs ys) (hP : ∀ x ∈ xs, P x) : ∀ y ∈ ys, Q y := by
  induction hA with
  | nil => intro y hy; exact absurd hy (List.not_mem_nil _)
  | cons h1 _ ih =>
    intro y hy
    rcases List.mem_cons.mp hy with hy | hy
    · rw [hy]; exact hPQ _ _ h1 (hP _ (List.mem_cons_self _ _))
    · exact ih (fun x hx => hP x (List.mem_cons_of_mem _ hx)) y hy

/-- The line printed for an entry after its iteration of the revision loop. -/
theorem lockLineFor_of_pin (isDir : String → Bool) (vendorSrc : String → String)
    (revision : VcsCmd → String → Except String String) (fuel : Nat) (vendor : String)
    (g g1 : Gom) (line : String)
    (hpin : pinGom isDir vendorSrc revision fuel vendor g = some g1)
    (hline : IsLockLine g1 line) :
    LockLineFor isDir vendorSrc revision fuel vendor g line := by
  have hkey : ∀ p vcs rev, getVCSRoot isDir vendorSrc fuel vendor g.name = some (p, some vcs) →
      revision vcs p = .ok rev → rev ≠ "" →
      ¬ NoRevision isDir vendorSrc revision fuel vendor g := by
    intro p vcs rev hr hrev hne hno
    rcases hno with ⟨p2, h2⟩ | ⟨p2, vcs2, h2, h3⟩
    · rw [hr] at h2; simp at h2
    · rw [hr] at h2
      simp only [Option.some.injEq, Prod.mk.injEq] at h2
      obtain ⟨hp, hv⟩ := h2
      subst hp; subst hv
      rcases h3 with ⟨e, h3⟩ | h3
      · rw [hrev] at h3; cases h3
      · rw [hrev] at h3
        exact hne (by cases h3; rfl)
  rcases pinGom_cases isDir vendorSrc revision fuel vendor g g1 hpin with
    ⟨h1, hno⟩ | ⟨p, vcs, rev, hr, hrev, hne, h1⟩
  · subst h1
    refine ⟨fun _ => hline, ?_⟩
    intro p vcs rev hr hrev hne
    exact absurd hno (hkey p vcs rev hr hrev hne)
  · refine ⟨fun hno => absurd hno (hkey p vcs rev hr hrev hne), ?_⟩
    intro p2 vcs2 rev2 hr2 hrev2 _
    rw [hr] at hr2
    simp only [Option.some.injEq, Prod.mk.injEq] at hr2
    obtain ⟨hp, hv⟩ := hr2
    subst hp; subst hv
    rw [hrev] at hrev2
    have hrr : rev = rev2 := by cases hrev2; rfl
    subst hrr
    have hlook : g1.options.lookup "commit" = some (Value.str rev) := by
      rw [h1]; exact lookup_setOption g.options "commit" (Value.str rev)
    have hname : g1.name = g.name := by rw [h1]
    rcases hline with ⟨hnone, _⟩ | ⟨rev3, hsome, hl⟩
    · rw [hlook] at hnone; cases hnone
    · rw [hlook] at hsome
      have : rev = rev3 := by cases hsome; rfl
      subst this
      rw [hl, hname]

/-- On a tree without metadata directories the walk finds no backend. -/
theorem getVCSRoot_no_meta (isDir : String → Bool) (vendorSrc : String → String) (fuel : Nat)
    (vendor name p : String) (vcs : VcsCmd) (hno : ∀ q, isDir q = false) :
    getVCSRoot isDir vendorSrc fuel vendor name ≠ some (p, some vcs) := by
  intro h
  obtain ⟨_, _, hmeta, _⟩ := getVCSRoot_walk isDir vendorSrc fuel vendor name p vcs h
  simp [hasMeta, hno] at hmeta

/-- On a tree without metadata directories the revision loop changes nothing. -/
theorem pinGoms_no_meta (isDir : String → Bool) (vendorSrc : String → String)
    (revision : VcsCmd → String → Except String String) (fuel : Nat) (vendor : String)
    (hno : ∀ q, isDir q = false) (goms pinned : List Gom)
    (h : pinGoms isDir vendorSrc revision fuel vendor goms = some pinned) : pinned = goms := by
  have hf := pinGoms_forall2 isDir vendorSrc revision fuel vendor goms pinned h
  clear h
  induction hf with
  | nil => rfl
  | cons h1 _ ih =>
    rcases pinGom_cases isDir vendorSrc revision fuel vendor _ _ h1 with
      ⟨h2, _⟩ | ⟨p, vcs, _, hr, _⟩
    · rw [h2, ih]
    · exact absurd hr (getVCSRoot_no_meta isDir vendorSrc fuel vendor _ p vcs hno)

/-! ## The lock generator: claims on what is written -/

/-- C11, as stated, fails: for a manifest whose second entry has a commit option
that is not a string, and a vendor tree without repositories, the write loop
prints the line of the first entry and then panics at `rev.(string)`; no run of
`genGomfileLock` returns, so the lock file never holds a line for that entry. -/
theorem genGomfileLock_panics :
    (¬ ∃ fuel r, genGomfileLock (sampleEnv illTypedGoms) fuel ⟨[], []⟩ = some r) ∧
    pinGoms (FS.isDir ⟨[], []⟩) vendorSrcDir sampleRevision 2 "/v" illTypedGoms
      = some illTypedGoms ∧
    lockLine ⟨"h.x/q", []⟩ = some "gom 'h.x/q'\n" ∧
    lockLine ⟨"h.x/p", [("commit", Value.other 0)]⟩ = none := by
  refine ⟨?_, by decide, by decide, by decide⟩
  rintro ⟨fuel, r, h⟩
  have hf : filterGoms isTest isLinux illTypedGoms [] = illTypedGoms := by decide
  simp only [genGomfileLock, sampleEnv, hf] at h
  cases hpin : pinGoms (FS.isDir ⟨[], []⟩) vendorSrcDir sampleRevision fuel "/v" illTypedGoms with
  | none => rw [hpin] at h; simp at h
  | some pinned =>
    have hp : pinned = illTypedGoms :=
      pinGoms_no_meta _ vendorSrcDir sampleRevision fuel "/v" (fun q => by simp [FS.isDir])
        illTypedGoms pinned hpin
    subst hp
    rw [hpin] at h
    have hl : lockLines illTypedGoms = none := by decide
    have hc : osCreate ⟨[], []⟩ "Gomfile.lock" = .ok ⟨[], [("Gomfile.lock", "")]⟩ := rfl
    simp [hl, hc] at h

/-- C11, amended: whenever a run of `genGomfileLock` returns with a nil error, what
it has written to "Gomfile.lock" is, for the entries of the parsed manifest that
pass the filter and in manifest order, one line each: "gom '<name>'" when the entry,
after the revision loop, has no commit option, "gom '<name>', :commit => '<rev>'"
when it has one.  The names and their order, and the number of lines, are those of
the filtered manifest, whatever the root lookups and revision queries give.  A run
returns with a nil error when the manifest is parsed, the vendor root is found,
every commit option present is a string, the walks of `getVCSRoot` end, and
"Gomfile.lock" can be created. -/
theorem genGomfileLock_written (env : LockEnv) (fuel : Nat) (fs : FS) :
    (∀ r, genGomfileLock env fuel fs = some r → r.err = none →
      ∃ allGoms vendor pinned lines, env.parsed = .ok allGoms ∧ env.absVendor = .ok vendor ∧
        List.Forall₂
          (fun g g1 => pinGom fs.isDir env.vendorSrc env.revision fuel vendor g = some g1)
          (allGoms.filter (passesFilter env.matchEnv env.matchOS)) pinned ∧
        pinned.map (fun g => g.name)
          = (allGoms.filter (passesFilter env.matchEnv env.matchOS)).map (fun g => g.name) ∧
        List.Forall₂ IsLockLine pinned lines ∧
        lines.length = (allGoms.filter (passesFilter env.matchEnv env.matchOS)).length ∧
        r.written = String.join lines) ∧
    (∀ allGoms vendor pinned fs1, env.parsed = .ok allGoms → env.absVendor = .ok vendor →
      (∀ g ∈ allGoms, ∀ v, g.options.lookup "commit" = some v → ∃ rev, v = Value.str rev) →
      pinGoms fs.isDir env.vendorSrc env.revision fuel vendor
        (allGoms.filter (passesFilter env.matchEnv env.matchOS)) = some pinned →
      osCreate fs "Gomfile.lock" = .ok fs1 →
      (∀ text, lockLines pinned = some text →
        ∃ fs4 removed, sanitize env.vendorSrc fuel vendor pinned
          (RemoveAll (writeString fs1 "Gomfile.lock" text)
            (Join [env.vendorSrc vendor, env.internalRoots])) = some (fs4, removed)) →
      ∃ r, genGomfileLock env fuel fs = some r ∧ r.err = none) := by
  constructor
  · intro r hr he
    obtain ⟨allGoms, vendor, pinned, fs1, text, fs4, removed, hp, hv, hpin, _, hl, _, hreq⟩ :=
      genGomfileLock_ok env fuel fs r hr he
    rw [filterGoms_nil] at hpin
    have hf := pinGoms_forall2 fs.isDir env.vendorSrc env.revision fuel vendor _ pinned hpin
    have hnames := pinGoms_names fs.isDir env.vendorSrc env.revision fuel vendor _ pinned hpin
    obtain ⟨lines, hjoin, hall⟩ := lockLines_some pinned text hl
    refine ⟨allGoms, vendor, pinned, lines, hp, hv, hf, hnames, hall, ?_, by rw [hreq, hjoin]⟩
    rw [← hall.length_eq, hf.length_eq]
  · intro allGoms vendor pinned fs1 hp hv hstr hpin hc hsan
    have hf := pinGoms_forall2 fs.isDir env.vendorSrc env.revision fuel vendor _ pinned hpin
    have hstr2 : ∀ g ∈ pinned, ∀ v, g.options.lookup "commit" = some v →
        ∃ rev, v = Value.str rev := by
      refine forall2_right_of_left _
        (fun g => ∀ v, g.options.lookup "commit" = some v → ∃ rev, v = Value.str rev)
        (fun g => ∀ v, g.options.lookup "commit" = some v → ∃ rev, v = Value.str rev)
        ?_ _ _ hf ?_
      · intro g g1 hpg hg
        exact pinGom_commit_str fs.isDir env.vendorSrc env.revision fuel vendor g g1 hpg hg
      · intro g hg
        exact hstr g (List.mem_filter.mp hg).1
    obtain ⟨text, htext⟩ := lockLines_isSome pinned hstr2
    obtain ⟨fs4, removed, hs⟩ := hsan text htext
    refine ⟨⟨fs4, none, text, removed⟩, ?_, rfl⟩
    unfold genGomfileLock
    rw [hp]
    dsimp only
    rw [hv]
    dsimp only
    rw [filterGoms_nil, hpin]
    dsimp only
    rw [hc]
    dsimp only
    rw [htext]
    dsimp only
    rw [hs]

/-- C11, amended, at the manifest `mixedGoms` in the context (test, linux) and the
vendor tree of `lockedFS`: the run returns, and has written the two lines. -/
theorem genGomfileLock_written_witness :
    (∃ allGoms vendor pinned lines, (sampleEnv mixedGoms).parsed = .ok allGoms ∧
        (sampleEnv mixedGoms).absVendor = .ok vendor ∧
        List.Forall₂
          (fun g g1 => pinGom lockedFS.isDir vendorSrcDir sampleRevision 3 vendor g = some g1)
          (allGoms.filter (passesFilter isTest isLinux)) pinned ∧
        pinned.map (fun g => g.name)
          = (allGoms.filter (passesFilter isTest isLinux)).map (fun g => g.name) ∧
        List.Forall₂ IsLockLine pinned lines ∧
        lines.length = (allGoms.filter (passesFilter isTest isLinux)).length ∧
        "gom 'h.x/r', :commit => 'abc123'\ngom 'h.x/q'\n" = String.join lines) ∧
    (∃ r, genGomfileLock (sampleEnv mixedGoms) 3 lockedFS = some r ∧ r.err = none) :=
  ⟨(genGomfileLock_written (sampleEnv mixedGoms) 3 lockedFS).1
      ⟨⟨["/v", "/v/src", "/v/src/h.x", "/v/src/h.x/r"],
        [("Gomfile.lock", "gom 'h.x/r', :commit => 'abc123'\ngom 'h.x/q'\n"),
         ("/v/src/h.x/r/r.go", "package r")]⟩,
       none, "gom 'h.x/r', :commit => 'abc123'\ngom 'h.x/q'\n", ["/v/src/h.x/r/.git"]⟩
      (by decide) rfl,
   (genGomfileLock_written (sampleEnv mixedGoms) 3 lockedFS).2 mixedGoms "/v"
      [⟨"h.x/r", [("commit", Value.str "abc123")]⟩, ⟨"h.x/q", []⟩]
      ⟨lockedFS.dirs, [("Gomfile.lock", ""), ("/v/src/h.x/r/r.go", "package r")]⟩
      rfl rfl
      (by
        intro g hg v hv
        simp only [mixedGoms, List.mem_cons, List.mem_singleton, List.not_mem_nil,
          or_false] at hg
        rcases hg with rfl | rfl | rfl <;> simp [List.lookup] at hv)
      (by decide) rfl
      (by
        intro text htext
        have ht : text = "gom 'h.x/r', :commit => 'abc123'\ngom 'h.x/q'\n" := by
          have h2 : lockLines [⟨"h.x/r", [("commit", Value.str "abc123")]⟩, ⟨"h.x/q", []⟩]
              = some "gom 'h.x/r', :commit => 'abc123'\ngom 'h.x/q'\n" := by decide
          rw [h2] at htext
          exact (Option.some.inj htext).symm
        subst ht
        exact ⟨⟨["/v", "/v/src", "/v/src/h.x", "/v/src/h.x/r"],
            [("Gomfile.lock", "gom 'h.x/r', :commit => 'abc123'\ngom 'h.x/q'\n"),
             ("/v/src/h.x/r/r.go", "package r")]⟩,
          ["/v/src/h.x/r/.git"], by decide⟩)⟩

/-- C12, as stated, fails: the entry "h.x/p" carries a commit option in the
manifest; no metadata directory is found for it, so no revision is obtained, and
yet its lock line has a commit clause, with the commit of the manifest. -/
theorem genGomfileLock_keeps_manifest_commit :
    getVCSRoot (FS.isDir ⟨[], []⟩) vendorSrcDir 3 "/v" "h.x/p" = some ("", none) ∧
    (genGomfileLock (sampleEnv pinnedGoms) 3 ⟨[], []⟩).map (fun r => r.written)
      = some "gom 'h.x/p', :commit => 'fedcba'\ngom 'h.x/q'\n" := by
  decide

/-- C12, amended: in a run of `genGomfileLock` that returns with a nil error, one
line is written for every entry that passes the filter, in order.  For an entry
for which no revision is obtained (no metadata directory found, or `Revision`
gives an error or the empty string) the line is that of the manifest entry as it
is: exactly "gom '<name>'" when the entry has no commit option of its own, and
with the entry's own commit otherwise.  For an entry for which a revision is
obtained the line carries that revision, whatever happened for the other entries. -/
theorem genGomfileLock_unpinned (env : LockEnv) (fuel : Nat) (fs : FS) (r : LockRun)
    (h : genGomfileLock env fuel fs = some r) (he : r.err = none) :
    ∃ allGoms vendor lines, env.parsed = .ok allGoms ∧ env.absVendor = .ok vendor ∧
      r.written = String.join lines ∧
      List.Forall₂ (LockLineFor fs.isDir env.vendorSrc env.revision fuel vendor)
        (allGoms.filter (passesFilter env.matchEnv env.matchOS)) lines ∧
      ∀ g line, (g, line) ∈ (allGoms.filter (passesFilter env.matchEnv env.matchOS)).zip lines →
        NoRevision fs.isDir env.vendorSrc env.revision fuel vendor g →
        g.options.lookup "commit" = none → line = "gom '" ++ g.name ++ "'\n" := by
  obtain ⟨allGoms, vendor, pinned, fs1, text, fs4, removed, hp, hv, hpin, _, hl, _, hreq⟩ :=
    genGomfileLock_ok env fuel fs r h he
  rw [filterGoms_nil] at hpin
  have hf := pinGoms_forall2 fs.isDir env.vendorSrc env.revision fuel vendor _ pinned hpin
  obtain ⟨lines, hjoin, hall⟩ := lockLines_some pinned text hl
  have hfor : List.Forall₂ (LockLineFor fs.isDir env.vendorSrc env.revision fuel vendor)
      (allGoms.filter (passesFilter env.matchEnv env.matchOS)) lines :=
    forall2_chain _ _ _
      (fun g g1 line hpg hline =>
        lockLineFor_of_pin fs.isDir env.vendorSrc env.revision fuel vendor g g1 line hpg hline)
      _ _ hf lines hall
  refine ⟨allGoms, vendor, lines, hp, hv, by rw [hreq, hjoin], hfor, ?_⟩
  intro g line hmem hno hnone
  have hg := List.forall₂_zip hfor hmem
  rcases hg.1 hno with ⟨_, hline⟩ | ⟨rev, hsome, _⟩
  · exact hline
  · rw [hnone] at hsome; cases hsome

/-- C12, amended, at the manifest `pinnedGoms` on a vendor tree without
repositories: "h.x/q" has no commit option and gets the line "gom 'h.x/q'". -/
theorem genGomfileLock_unpinned_witness :
    ∃ allGoms vendor lines, (sampleEnv pinnedGoms).parsed = .ok allGoms ∧
      (sampleEnv pinnedGoms).absVendor = .ok vendor ∧
      "gom 'h.x/p', :commit => 'fedcba'\ngom 'h.x/q'\n" = String.join lines ∧
      List.Forall₂ (LockLineFor (FS.isDir ⟨[], []⟩) vendorSrcDir sampleRevision 3 vendor)
        (allGoms.filter (passesFilter isTest isLinux)) lines ∧
      ∀ g line, (g, line) ∈ (allGoms.filter (passesFilter isTest isLinux)).zip lines →
        NoRevision (FS.isDir ⟨[], []⟩) vendorSrcDir sampleRevision 3 vendor g →
        g.options.lookup "commit" = none → line = "gom '" ++ g.name ++ "'\n" :=
  genGomfileLock_unpinned (sampleEnv pinnedGoms) 3 ⟨[], []⟩
    ⟨⟨[], [("Gomfile.lock", "gom 'h.x/p', :commit => 'fedcba'\ngom 'h.x/q'\n")]⟩, none,
      "gom 'h.x/p', :commit => 'fedcba'\ngom 'h.x/q'\n", []⟩
    (by decide) rfl

/-- C13 fails on the code: with a file "Gomfile.lock" in place, `genGomfileLock`
returns a nil error, the old content of the lock file is gone and the new lock
lines are in it, and the metadata directory of "h.x/r" is removed. -/
theorem genGomfileLock_overwrites :
    readFile lockedFS "Gomfile.lock" = some "gom 'old.x/dep', :commit => '000'\n" ∧
    genGomfileLock (sampleEnv [⟨"h.x/r", []⟩]) 3 lockedFS
      = some ⟨⟨["/v", "/v/src", "/v/src/h.x", "/v/src/h.x/r"],
              [("Gomfile.lock", "gom 'h.x/r', :commit => 'abc123'\n"),
               ("/v/src/h.x/r/r.go", "package r")]⟩,
            none, "gom 'h.x/r', :commit => 'abc123'\n", ["/v/src/h.x/r/.git"]⟩ := by
  decide

/-! ## The sanitizer: lemmas -/

theorem Clean_nonempty (path : String) : (Clean path).data.isEmpty = false := by
  unfold Clean
  by_cases h1 : path.data.isEmpty = true
  · rw [if_pos h1]; rfl
  · rw [if_neg h1]
    dsimp only
    split_ifs with h2 h3 h3
    · rfl
    · simpa using h3
    · rfl
    · simpa using h3

theorem Join_nonempty (p d : String) (hd : d.data.isEmpty = false) :
    (Join [p, d]).data.isEmpty = false := by
  unfold Join
  by_cases hp : p.data.isEmpty = true
  · have : List.dropWhile (fun e : String => e.data.isEmpty) [p, d] = [d] := by
      simp [List.dropWhile, hp, hd]
    rw [this]
    exact Clean_nonempty _
  · have : List.dropWhile (fun e : String => e.data.isEmpty) [p, d] = [p, d] := by
      simp [List.dropWhile, hp]
    rw [this]
    exact Clean_nonempty _

theorem VcsCmd.dir_nonempty (vcs : VcsCmd) : vcs.dir.data.isEmpty = false := by
  cases vcs <;> rfl

theorem isDir_iff_mem (fs : FS) (d : String) : fs.isDir d = true ↔ d ∈ fs.dirs := by
  simp [FS.isDir]

theorem under_self (q : String) : under q q = true := by
  simp [under]

theorem mem_removeAll_dirs (fs : FS) (q d : String) (hq : q.data.isEmpty = false) :
    d ∈ (RemoveAll fs q).dirs ↔ d ∈ fs.dirs ∧ under q d = false := by
  unfold RemoveAll
  rw [if_neg (by simp [hq])]
  simp [List.mem_filter]

theorem mem_removeAll_files (fs : FS) (q : String) (f : String × String)
    (hq : q.data.isEmpty = false) :
    f ∈ (RemoveAll fs q).files ↔ f ∈ fs.files ∧ under q f.1 = false := by
  unfold RemoveAll
  rw [if_neg (by simp [hq])]
  simp [List.mem_filter]

theorem removeAll_dirs_subset (fs : FS) (q d : String) (h : d ∈ (RemoveAll fs q).dirs) :
    d ∈ fs.dirs := by
  unfold RemoveAll at h
  split_ifs at h
  · exact h
  · exact (List.mem_filter.mp h).1

theorem removeAll_files_subset (fs : FS) (q : String) (f : String × String)
    (h : f ∈ (RemoveAll fs q).files) : f ∈ fs.files := by
  unfold RemoveAll at h
  split_ifs at h
  · exact h
  · exact (List.mem_filter.mp h).1

/-- What `os.RemoveAll(q)` takes away lies at or beneath `q`. -/
theorem removeAll_dirs_gone (fs : FS) (q d : String) (hd : d ∈ fs.dirs)
    (h : d ∉ (RemoveAll fs q).dirs) : under q d = true := by
  unfold RemoveAll at h
  split_ifs at h
  · exact absurd hd h
  · by_contra hu
    exact h (List.mem_filter.mpr ⟨hd, by simpa using hu⟩)

theorem removeAll_files_gone (fs : FS) (q : String) (f : String × String) (hf : f ∈ fs.files)
    (h : f ∉ (RemoveAll fs q).files) : under q f.1 = true := by
  unfold RemoveAll at h
  split_ifs at h
  · exact absurd hf h
  · by_contra hu
    exact h (List.mem_filter.mpr ⟨hf, by simpa using hu⟩)

/-- The backend `getVCSRoot` returns has its metadata directory at the returned path. -/
theorem getVCSRoot_isDir (isDir : String → Bool) (vendorSrc : String → String) (fuel : Nat) :
    ∀ (vendor name p : String) (vcs : VcsCmd),
      getVCSRoot isDir vendorSrc fuel vendor name = some (p, some vcs) →
      isDir (Join [p, vcs.dir]) = true := by
  induction fuel with
  | zero => intro vendor name p vcs h; simp [getVCSRoot] at h
  | succ n ih =>
    intro vendor name p vcs h
    rw [getVCSRoot_succ] at h
    split_ifs at h with h1 h2 h3 h4
    · simp only [Option.some.injEq, Prod.mk.injEq] at h
      obtain ⟨hp, hv⟩ := h
      subst hp; subst hv; exact h1
    · simp only [Option.some.injEq, Prod.mk.injEq] at h
      obtain ⟨hp, hv⟩ := h
      subst hp; subst hv; exact h2
    · simp only [Option.some.injEq, Prod.mk.injEq] at h
      obtain ⟨hp, hv⟩ := h
      subst hp; subst hv; exact h3
    · simp at h
    · exact ih vendor (Dir name) p vcs h

/-- On a tree with fewer directories, the walk still ends at the same root and
backend as long as that backend's metadata directory is still there. -/
theorem getVCSRoot_mono (isDir isDir2 : String → Bool) (vendorSrc : String → String)
    (hle : ∀ d, isDir2 d = true → isDir d = true) (fuel : Nat) :
    ∀ (vendor name p : String) (vcs : VcsCmd),
      getVCSRoot isDir vendorSrc fuel vendor name = some (p, some vcs) →
      isDir2 (Join [p, vcs.dir]) = true →
      getVCSRoot isDir2 vendorSrc fuel vendor name = some (p, some vcs) := by
  induction fuel with
  | zero => intro vendor name p vcs h; simp [getVCSRoot] at h
  | succ n ih =>
    intro vendor name p vcs h h2
    have hnot : ∀ d, isDir d = false → isDir2 d = false := by
      intro d hd
      cases hd2 : isDir2 d
      · rfl
      · rw [hle d hd2] at hd; cases hd
    rw [getVCSRoot_succ] at h ⊢
    split_ifs at h with h1 h3 h4 h5
    · simp only [Option.some.injEq, Prod.mk.injEq] at h
      obtain ⟨hp, hv⟩ := h
      subst hp; subst hv
      have h2g : isDir2 (Join [Join [vendorSrc vendor, name], ".git"]) = true := h2
      rw [if_pos h2g]
    · simp only [Option.some.injEq, Prod.mk.injEq] at h
      obtain ⟨hp, hv⟩ := h
      subst hp; subst hv
      have h2g : isDir2 (Join [Join [vendorSrc vendor, name], ".hg"]) = true := h2
      rw [if_neg (by rw [hnot _ (by simpa using h1)]; simp), if_pos h2g]
    · simp only [Option.some.injEq, Prod.mk.injEq] at h
      obtain ⟨hp, hv⟩ := h
      subst hp; subst hv
      have h2g : isDir2 (Join [Join [vendorSrc vendor, name], ".bzr"]) = true := h2
      rw [if_neg (by rw [hnot _ (by simpa using h1)]; simp),
        if_neg (by rw [hnot _ (by simpa using h3)]; simp), if_pos h2g]
    · simp at h
    · rw [if_neg (by rw [hnot _ (by simpa using h1)]; simp),
        if_neg (by rw [hnot _ (by simpa using h3)]; simp),
        if_neg (by rw [hnot _ (by simpa using h4)]; simp), if_neg h5]
      exact ih vendor (Dir name) p vcs h h2

theorem sanitize_nil (vendorSrc : String → String) (fuel : Nat) (vendor : String) (fs : FS) :
    sanitize vendorSrc fuel vendor [] fs = some (fs, []) := rfl

/-- One iteration of the loop of `sanitize`. -/
theorem sanitize_cons (vendorSrc : String → String) (fuel : Nat) (vendor : String)
    (g : Gom) (rest : List Gom) (fs fs2 : FS) (removed : List String)
    (h : sanitize vendorSrc fuel vendor (g :: rest) fs = some (fs2, removed)) :
    (∃ p, getVCSRoot fs.isDir vendorSrc fuel vendor g.name = some (p, none) ∧
      sanitize vendorSrc fuel vendor rest fs = some (fs2, removed)) ∨
    (∃ p vcs removed1, getVCSRoot fs.isDir vendorSrc fuel vendor g.name = some (p, some vcs) ∧
      sanitize vendorSrc fuel vendor rest (RemoveAll fs (Join [p, vcs.dir]))
        = some (fs2, removed1) ∧
      removed = Join [p, vcs.dir] :: removed1) := by
  unfold sanitize at h
  rcases hr : getVCSRoot fs.isDir vendorSrc fuel vendor g.name with _ | ⟨p, _ | vcs⟩
  · rw [hr] at h; simp at h
  · rw [hr] at h
    exact Or.inl ⟨p, rfl, h⟩
  · rw [hr] at h
    dsimp only at h
    rcases hs : sanitize vendorSrc fuel vendor rest (RemoveAll fs (Join [p, vcs.dir])) with
      _ | ⟨fs3, removed1⟩
    · rw [hs] at h; simp at h
    · rw [hs] at h
      simp only [Option.some.injEq, Prod.mk.injEq] at h
      obtain ⟨h1, h2⟩ := h
      subst h1
      exact Or.inr ⟨p, vcs, removed1, rfl, hs, h2.symm⟩

/-- `sanitize` only removes: what is in the tree afterwards was there before, and
what is gone lies at or beneath a removed directory. -/
theorem sanitize_frame (vendorSrc : String → String) (fuel : Nat) (vendor : String)
    (goms : List Gom) :
    ∀ (fs fs2 : FS) (removed : List String),
      sanitize vendorSrc fuel vendor goms fs = some (fs2, removed) →
      (∀ d ∈ fs2.dirs, d ∈ fs.dirs) ∧ (∀ f ∈ fs2.files, f ∈ fs.files) ∧
      (∀ d ∈ fs.dirs, d ∉ fs2.dirs → ∃ q ∈ removed, under q d = true) ∧
      (∀ f ∈ fs.files, f ∉ fs2.files → ∃ q ∈ removed, under q f.1 = true) := by
  induction goms with
  | nil =>
    intro fs fs2 removed h
    rw [sanitize_nil] at h
    simp only [Option.some.injEq, Prod.mk.injEq] at h
    obtain ⟨h1, _⟩ := h
    subst h1
    exact ⟨fun _ hd => hd, fun _ hf => hf, fun d hd hn => absurd hd hn,
      fun f hf hn => absurd hf hn⟩
  | cons g rest ih =>
    intro fs fs2 removed h
    rcases sanitize_cons vendorSrc fuel vendor g rest fs fs2 removed h with
      ⟨p, _, hrest⟩ | ⟨p, vcs, removed1, _, hrest, hrem⟩
    · exact ih fs fs2 removed hrest
    · obtain ⟨hd, hf, hdg, hfg⟩ := ih _ fs2 removed1 hrest
      subst hrem
      refine ⟨fun d h1 => removeAll_dirs_subset fs _ d (hd d h1),
        fun f h1 => removeAll_files_subset fs _ f (hf f h1), ?_, ?_⟩
      · intro d hdfs hn
        by_cases hmid : d ∈ (RemoveAll fs (Join [p, vcs.dir])).dirs
        · obtain ⟨q, hq, hu⟩ := hdg d hmid hn
          exact ⟨q, List.mem_cons_of_mem _ hq, hu⟩
        · exact ⟨_, List.mem_cons_self _ _, removeAll_dirs_gone fs _ d hdfs hmid⟩
      · intro f hffs hn
        by_cases hmid : f ∈ (RemoveAll fs (Join [p, vcs.dir])).files
        · obtain ⟨q, hq, hu⟩ := hfg f hmid hn
          exact ⟨q, List.mem_cons_of_mem _ hq, hu⟩
        · exact ⟨_, List.mem_cons_self _ _, removeAll_files_gone fs _ f hffs hmid⟩

/-- Every directory `sanitize` removes is a directory of the tree it starts from,
and is the metadata directory `getVCSRoot` resolves for one of the entries on the
tree as the earlier removals have left it. -/
theorem sanitize_removed (vendorSrc : String → String) (fuel : Nat) (vendor : String)
    (goms : List Gom) :
    ∀ (fs fs2 : FS) (removed : List String),
      sanitize vendorSrc fuel vendor goms fs = some (fs2, removed) →
      ∀ q ∈ removed, fs.isDir q = true ∧
        ∃ g ∈ goms, ∃ fsq : FS, (∀ d ∈ fsq.dirs, d ∈ fs.dirs) ∧
          ∃ p vcs, getVCSRoot fsq.isDir vendorSrc fuel vendor g.name = some (p, some vcs) ∧
            q = Join [p, vcs.dir] := by
  induction goms with
  | nil =>
    intro fs fs2 removed h q hq
    rw [sanitize_nil] at h
    simp only [Option.some.injEq, Prod.mk.injEq] at h
    rw [← h.2] at hq
    exact absurd hq (List.not_mem_nil _)
  | cons g rest ih =>
    intro fs fs2 removed h q hq
    rcases sanitize_cons vendorSrc fuel vendor g rest fs fs2 removed h with
      ⟨p, _, hrest⟩ | ⟨p, vcs, removed1, hroot, hrest, hrem⟩
    · obtain ⟨hdir, g1, hg1, fsq, hsub, hres⟩ := ih fs fs2 removed hrest q hq
      exact ⟨hdir, g1, List.mem_cons_of_mem _ hg1, fsq, hsub, hres⟩
    · subst hrem
      rcases List.mem_cons.mp hq with hq | hq
      · subst hq
        exact ⟨getVCSRoot_isDir fs.isDir vendorSrc fuel vendor g.name p vcs hroot,
          g, List.mem_cons_self _ _, fs, fun _ hd => hd, p, vcs, hroot, rfl⟩
      · obtain ⟨hdir, g1, hg1, fsq, hsub, hres⟩ := ih _ fs2 removed1 hrest q hq
        refine ⟨?_, g1, List.mem_cons_of_mem _ hg1, fsq,
          fun d hd => removeAll_dirs_subset fs _ d (hsub d hd), hres⟩
        rw [isDir_iff_mem] at hdir ⊢
        exact removeAll_dirs_subset fs _ q hdir

/-- After `sanitize`, the metadata directory that `getVCSRoot` resolved for an
entry on an earlier, larger tree is not there any more. -/
theorem sanitize_clears (vendorSrc : String → String) (fuel : Nat) (vendor : String)
    (goms : List Gom) :
    ∀ (fs fs2 : FS) (removed : List String),
      sanitize vendorSrc fuel vendor goms fs = some (fs2, removed) →
      ∀ g ∈ goms, ∀ isDir0 : String → Bool, (∀ d, fs.isDir d = true → isDir0 d = true) →
        ∀ p vcs, getVCSRoot isDir0 vendorSrc fuel vendor g.name = some (p, some vcs) →
          fs2.isDir (Join [p, vcs.dir]) = false := by
  induction goms with
  | nil => intro fs fs2 removed _ g hg; exact absurd hg (List.not_mem_nil _)
  | cons g0 rest ih =>
    intro fs fs2 removed h g hg isDir0 hle p vcs hroot
    have hfalse : ∀ (fsm : FS), (∀ d ∈ fs2.dirs, d ∈ fsm.dirs) →
        fsm.isDir (Join [p, vcs.dir]) = false → fs2.isDir (Join [p, vcs.dir]) = false := by
      intro fsm hsub hm
      cases h2 : fs2.isDir (Join [p, vcs.dir])
      · rfl
      · rw [isDir_iff_mem] at h2
        rw [(isDir_iff_mem fsm _).mpr (hsub _ h2)] at hm
        cases hm
    rcases sanitize_cons vendorSrc fuel vendor g0 rest fs fs2 removed h with
      ⟨p0, hroot0, hrest⟩ | ⟨p0, vcs0, removed1, hroot0, hrest, _⟩
    · rcases List.mem_cons.mp hg with hg | hg
      · subst hg
        apply hfalse fs (sanitize_frame vendorSrc fuel vendor rest fs fs2 removed hrest).1
        cases hcur : fs.isDir (Join [p, vcs.dir])
        · rfl
        · have := getVCSRoot_mono isDir0 fs.isDir vendorSrc hle fuel vendor g.name p vcs
            hroot hcur
          rw [hroot0] at this
          simp at this
      · exact ih fs fs2 removed hrest g hg isDir0 hle p vcs hroot
    · have hmid : ∀ d, (RemoveAll fs (Join [p0, vcs0.dir])).isDir d = true →
          fs.isDir d = true := by
        intro d hd
        rw [isDir_iff_mem] at hd ⊢
        exact removeAll_dirs_subset fs _ d hd
      rcases List.mem_cons.mp hg with hg | hg
      · subst hg
        apply hfalse (RemoveAll fs (Join [p0, vcs0.dir]))
          (sanitize_frame vendorSrc fuel vendor rest _ fs2 removed1 hrest).1
        cases hcur : fs.isDir (Join [p, vcs.dir])
        · cases h3 : (RemoveAll fs (Join [p0, vcs0.dir])).isDir (Join [p, vcs.dir])
          · rfl
          · rw [hmid _ h3] at hcur; cases hcur
        · have := getVCSRoot_mono isDir0 fs.isDir vendorSrc hle fuel vendor g.name p vcs
            hroot hcur
          rw [hroot0] at this
          simp only [Option.some.injEq, Prod.mk.injEq] at this
          obtain ⟨hp, hv⟩ := this
          subst hp; subst hv
          cases h3 : (RemoveAll fs (Join [p0, vcs0.dir])).isDir (Join [p0, vcs0.dir])
          · rfl
          · rw [isDir_iff_mem, mem_removeAll_dirs fs _ _
              (Join_nonempty p0 vcs0.dir (VcsCmd.dir_nonempty vcs0)), under_self] at h3
            simp at h3
      · exact ih _ fs2 removed1 hrest g hg isDir0 (fun d hd => hle d (hmid d hd)) p vcs hroot

theorem sanitize_cons_none (vendorSrc : String → String) (fuel : Nat) (vendor : String)
    (g : Gom) (rest : List Gom) (fs : FS) (p : String)
    (h : getVCSRoot fs.isDir vendorSrc fuel vendor g.name = some (p, none)) :
    sanitize vendorSrc fuel vendor (g :: rest) fs = sanitize vendorSrc fuel vendor rest fs := by
  conv_lhs => unfold sanitize
  rw [h]

theorem sanitize_cons_some (vendorSrc : String → String) (fuel : Nat) (vendor : String)
    (g : Gom) (rest : List Gom) (fs t : FS) (p : String) (vcs : VcsCmd) (rpre : List String)
    (h : getVCSRoot fs.isDir vendorSrc fuel vendor g.name = some (p, some vcs))
    (hrest : sanitize vendorSrc fuel vendor rest (RemoveAll fs (Join [p, vcs.dir]))
      = some (t, rpre)) :
    sanitize vendorSrc fuel vendor (g :: rest) fs = some (t, Join [p, vcs.dir] :: rpre) := by
  conv_lhs => unfold sanitize
  rw [h]
  dsimp only
  rw [hrest]

/-- `sanitize` reads only the names of the entries. -/
theorem sanitize_congr (vendorSrc : String → String) (fuel : Nat) (vendor : String)
    (l1 : List Gom) :
    ∀ (l2 : List Gom) (fs : FS), l1.map (fun g => g.name) = l2.map (fun g => g.name) →
      sanitize vendorSrc fuel vendor l1 fs = sanitize vendorSrc fuel vendor l2 fs := by
  induction l1 with
  | nil =>
    intro l2 fs h
    cases l2 with
    | nil => rfl
    | cons g2 r2 => simp at h
  | cons g1 r1 ih =>
    intro l2 fs h
    cases l2 with
    | nil => simp at h
    | cons g2 r2 =>
      simp only [List.map_cons, List.cons.injEq] at h
      obtain ⟨hn, hr⟩ := h
      conv_lhs => unfold sanitize
      conv_rhs => unfold sanitize
      rw [hn]
      rcases getVCSRoot fs.isDir vendorSrc fuel vendor g2.name with _ | ⟨p, _ | vcs⟩
      · rfl
      · exact ih r2 fs hr
      · dsimp only
        rw [ih r2 _ hr]

/-- The directories `sanitize` removes are exactly the metadata directories that
`getVCSRoot` resolves for an entry on the tree as `sanitize` has left it after the
entries before that one. -/
theorem sanitize_mem_iff (vendorSrc : String → String) (fuel : Nat) (vendor : String)
    (goms : List Gom) :
    ∀ (fs fs2 : FS) (removed : List String),
      sanitize vendorSrc fuel vendor goms fs = some (fs2, removed) →
      ∀ q, q ∈ removed ↔
        ∃ pre g post t rpre p vcs, goms = pre ++ g :: post ∧
          sanitize vendorSrc fuel vendor pre fs = some (t, rpre) ∧
          getVCSRoot t.isDir vendorSrc fuel vendor g.name = some (p, some vcs) ∧
          q = Join [p, vcs.dir] := by
  induction goms with
  | nil =>
    intro fs fs2 removed h q
    rw [sanitize_nil] at h
    simp only [Option.some.injEq, Prod.mk.injEq] at h
    rw [← h.2]
    constructor
    · intro hq; exact absurd hq (List.not_mem_nil _)
    · rintro ⟨pre, g, post, _, _, _, _, hsplit, _⟩
      exact absurd hsplit (by simp)
  | cons g0 rest ih =>
    intro fs fs2 removed h q
    rcases sanitize_cons vendorSrc fuel vendor g0 rest fs fs2 removed h with
      ⟨p0, hroot0, hrest⟩ | ⟨p0, vcs0, removed1, hroot0, hrest, hrem⟩
    · rw [ih fs fs2 removed hrest q]
      constructor
      · rintro ⟨pre, g, post, t, rpre, p, vcs, hsplit, hpre, hroot, hq⟩
        refine ⟨g0 :: pre, g, post, t, rpre, p, vcs, by rw [hsplit]; rfl, ?_, hroot, hq⟩
        rw [sanitize_cons_none vendorSrc fuel vendor g0 pre fs p0 hroot0]
        exact hpre
      · rintro ⟨pre, g, post, t, rpre, p, vcs, hsplit, hpre, hroot, hq⟩
        cases pre with
        | nil =>
          simp only [List.nil_append, List.cons.injEq] at hsplit
          obtain ⟨hg, _⟩ := hsplit
          subst hg
          rw [sanitize_nil] at hpre
          simp only [Option.some.injEq, Prod.mk.injEq] at hpre
          rw [← hpre.1, hroot0] at hroot
          simp at hroot
        | cons g1 pre1 =>
          simp only [List.cons_append, List.cons.injEq] at hsplit
          obtain ⟨hg, hrest2⟩ := hsplit
          subst hg
          rw [sanitize_cons_none vendorSrc fuel vendor g0 pre1 fs p0 hroot0] at hpre
          exact ⟨pre1, g, post, t, rpre, p, vcs, hrest2, hpre, hroot, hq⟩
    · subst hrem
      rw [List.mem_cons, ih _ fs2 removed1 hrest q]
      constructor
      · rintro (hq | ⟨pre, g, post, t, rpre, p, vcs, hsplit, hpre, hroot, hq⟩)
        · exact ⟨[], g0, rest, fs, [], p0, vcs0, rfl, sanitize_nil _ _ _ _, hroot0, hq⟩
        · refine ⟨g0 :: pre, g, post, t, Join [p0, vcs0.dir] :: rpre, p, vcs,
            by rw [hsplit]; rfl, ?_, hroot, hq⟩
          exact sanitize_cons_some vendorSrc fuel vendor g0 pre fs t p0 vcs0 rpre hroot0 hpre
      · rintro ⟨pre, g, post, t, rpre, p, vcs, hsplit, hpre, hroot, hq⟩
        cases pre with
        | nil =>
          simp only [List.nil_append, List.cons.injEq] at hsplit
          obtain ⟨hg, _⟩ := hsplit
          subst hg
          rw [sanitize_nil] at hpre
          simp only [Option.some.injEq, Prod.mk.injEq] at hpre
          rw [← hpre.1, hroot0] at hroot
          simp only [Option.some.injEq, Prod.mk.injEq] at hroot
          obtain ⟨hp, hv⟩ := hroot
          left
          rw [hq, ← hp, ← hv]
        | cons g1 pre1 =>
          simp only [List.cons_append, List.cons.injEq] at hsplit
          obtain ⟨hg, hrest2⟩ := hsplit
          subst hg
          right
          rcases hmid : sanitize vendorSrc fuel vendor pre1 (RemoveAll fs (Join [p0, vcs0.dir]))
            with _ | ⟨t1, rpre1⟩
          · exfalso
            have hun : sanitize vendorSrc fuel vendor (g0 :: pre1) fs = none := by
              conv_lhs => unfold sanitize
              rw [hroot0]
              dsimp only
              rw [hmid]
            rw [hun] at hpre
            cases hpre
          · have := sanitize_cons_some vendorSrc fuel vendor g0 pre1 fs t1 p0 vcs0 rpre1
              hroot0 hmid
            rw [this] at hpre
            simp only [Option.some.injEq, Prod.mk.injEq] at hpre
            obtain ⟨ht, _⟩ := hpre
            subst ht
            exact ⟨pre1, g, post, t1, rpre1, p, vcs, hrest2, hmid, hroot, hq⟩

/-- The `sanitize` call of a run of `genGomfileLock` that returns with a nil error:
it starts from the tree left by the write of the lock file and the removal of the
internal roots, goes through the filtered-in entries, and gives the tree and the
removals of the run. -/
theorem genGomfileLock_sanitize (env : LockEnv) (fuel : Nat) (fs : FS) (r : LockRun)
    (h : genGomfileLock env fuel fs = some r) (he : r.err = none) :
    ∃ allGoms vendor fs1, env.parsed = .ok allGoms ∧ env.absVendor = .ok vendor ∧
      osCreate fs "Gomfile.lock" = .ok fs1 ∧
      sanitize env.vendorSrc fuel vendor (allGoms.filter (passesFilter env.matchEnv env.matchOS))
        (RemoveAll (writeString fs1 "Gomfile.lock" r.written)
          (Join [env.vendorSrc vendor, env.internalRoots])) = some (r.fs, r.removed) := by
  obtain ⟨allGoms, vendor, pinned, fs1, text, fs4, removed, hp, hv, hpin, hc, _, hs, hreq⟩ :=
    genGomfileLock_ok env fuel fs r h he
  rw [filterGoms_nil] at hpin
  have hnames := pinGoms_names fs.isDir env.vendorSrc env.revision fuel vendor _ pinned hpin
  subst hreq
  refine ⟨allGoms, vendor, fs1, hp, hv, hc, ?_⟩
  rw [← sanitize_congr env.vendorSrc fuel vendor pinned _ _ hnames]
  exact hs

/-! ## The lock generator: what the cleanup removes -/

theorem osCreate_ok (fs fs1 : FS) (name : String) (h : osCreate fs name = .ok fs1) :
    fs1.dirs = fs.dirs ∧
    fs1.files = (name, "") :: fs.files.filter (fun f => f.1 != name) := by
  unfold osCreate at h
  split_ifs at h
  cases h
  exact ⟨rfl, rfl⟩

theorem mem_writeString_files (fs : FS) (name s : String) (f : String × String)
    (h : f ∈ (writeString fs name s).files) : f.1 = name ∨ f ∈ fs.files := by
  simp only [writeString, List.mem_map] at h
  obtain ⟨f0, hf0, heq⟩ := h
  by_cases hn : (f0.1 == name) = true
  · rw [if_pos hn] at heq
    left
    rw [← heq]
    simpa using hn
  · rw [if_neg hn] at heq
    right
    rw [← heq]; exact hf0

theorem writeString_keeps (fs : FS) (name s : String) (f : String × String)
    (hf : f ∈ fs.files) (hn : f.1 ≠ name) : f ∈ (writeString fs name s).files := by
  simp only [writeString, List.mem_map]
  refine ⟨f, hf, ?_⟩
  rw [if_neg (by simpa using hn)]

theorem exists_same_name (l1 l2 : List Gom)
    (h : l1.map (fun g => g.name) = l2.map (fun g => g.name)) (g : Gom) (hg : g ∈ l1) :
    ∃ g2 ∈ l2, g2.name = g.name := by
  have : g.name ∈ l2.map (fun g => g.name) := by
    rw [← h]; exact List.mem_map.mpr ⟨g, hg, rfl⟩
  obtain ⟨g2, hg2, hn⟩ := List.mem_map.mp this
  exact ⟨g2, hg2, hn⟩

/-- What the cleanup at the end of a run of `genGomfileLock` does to the tree. -/
theorem genGomfileLock_cleanup (env : LockEnv) (fuel : Nat) (fs : FS) (r : LockRun)
    (h : genGomfileLock env fuel fs = some r) (he : r.err = none) :
    ∃ allGoms vendor, env.parsed = .ok allGoms ∧ env.absVendor = .ok vendor ∧
      (∀ g ∈ allGoms.filter (passesFilter env.matchEnv env.matchOS), ∀ p vcs,
        getVCSRoot fs.isDir env.vendorSrc fuel vendor g.name = some (p, some vcs) →
        r.fs.isDir (Join [p, vcs.dir]) = false) ∧
      (∀ d ∈ r.fs.dirs, d ∈ fs.dirs) ∧
      (∀ f ∈ r.fs.files, f.1 = "Gomfile.lock" ∨ f ∈ fs.files) ∧
      (∀ d ∈ fs.dirs, d ∉ r.fs.dirs →
        under (Join [env.vendorSrc vendor, env.internalRoots]) d = true ∨
        ∃ q ∈ r.removed, under q d = true) ∧
      (∀ f ∈ fs.files, f.1 ≠ "Gomfile.lock" → f ∉ r.fs.files →
        under (Join [env.vendorSrc vendor, env.internalRoots]) f.1 = true ∨
        ∃ q ∈ r.removed, under q f.1 = true) ∧
      (∀ q ∈ r.removed, fs.isDir q = true ∧
        ∃ g ∈ allGoms.filter (passesFilter env.matchEnv env.matchOS), ∃ fsq : FS,
          (∀ d ∈ fsq.dirs, d ∈ fs.dirs) ∧
          ∃ p vcs, getVCSRoot fsq.isDir env.vendorSrc fuel vendor g.name = some (p, some vcs) ∧
            q = Join [p, vcs.dir]) := by
  obtain ⟨allGoms, vendor, pinned, fs1, text, fs4, removed, hp, hv, hpin, hc, _, hs, hreq⟩ :=
    genGomfileLock_ok env fuel fs r h he
  rw [filterGoms_nil] at hpin
  have hnames := pinGoms_names fs.isDir env.vendorSrc env.revision fuel vendor _ pinned hpin
  obtain ⟨hd1, hf1⟩ := osCreate_ok fs fs1 "Gomfile.lock" hc
  obtain ⟨hsd, hsf, hsdg, hsfg⟩ := sanitize_frame env.vendorSrc fuel vendor pinned _ fs4 removed hs
  have h3d : ∀ d ∈ (RemoveAll (writeString fs1 "Gomfile.lock" text)
      (Join [env.vendorSrc vendor, env.internalRoots])).dirs, d ∈ fs.dirs := by
    intro d hd
    have := removeAll_dirs_subset _ _ d hd
    rw [← hd1]; exact this
  have h3i : ∀ d, (RemoveAll (writeString fs1 "Gomfile.lock" text)
      (Join [env.vendorSrc vendor, env.internalRoots])).isDir d = true → fs.isDir d = true := by
    intro d hd
    rw [isDir_iff_mem] at hd ⊢
    exact h3d d hd
  subst hreq
  refine ⟨allGoms, vendor, hp, hv, ?_, ?_, ?_, ?_, ?_, ?_⟩
  · intro g hg p vcs hroot
    obtain ⟨g2, hg2, hn⟩ := exists_same_name _ pinned hnames.symm g hg
    have := sanitize_clears env.vendorSrc fuel vendor pinned _ fs4 removed hs g2 hg2
      fs.isDir h3i p vcs (by rw [hn]; exact hroot)
    exact this
  · intro d hd
    exact h3d d (hsd d hd)
  · intro f hf
    have h2 := removeAll_files_subset _ _ f (hsf f hf)
    rcases mem_writeString_files fs1 "Gomfile.lock" text f h2 with hl | hl
    · exact Or.inl hl
    · rw [hf1] at hl
      rcases List.mem_cons.mp hl with hl | hl
      · left; rw [hl]
      · exact Or.inr (List.mem_filter.mp hl).1
  · intro d hd hn
    by_cases hmid : d ∈ (RemoveAll (writeString fs1 "Gomfile.lock" text)
        (Join [env.vendorSrc vendor, env.internalRoots])).dirs
    · exact Or.inr (hsdg d hmid hn)
    · left
      exact removeAll_dirs_gone (writeString fs1 "Gomfile.lock" text) _ d
        (by show d ∈ fs1.dirs; rw [hd1]; exact hd) hmid
  · intro f hf hne hn
    have hf2 : f ∈ (writeString fs1 "Gomfile.lock" text).files := by
      apply writeString_keeps fs1 "Gomfile.lock" text f _ hne
      rw [hf1]
      exact List.mem_cons_of_mem _ (List.mem_filter.mpr ⟨hf, by simpa using hne⟩)
    by_cases hmid : f ∈ (RemoveAll (writeString fs1 "Gomfile.lock" text)
        (Join [env.vendorSrc vendor, env.internalRoots])).files
    · exact Or.inr (hsfg f hmid hn)
    · left
      exact removeAll_files_gone (writeString fs1 "Gomfile.lock" text) _ f hf2 hmid
  · intro q hq
    obtain ⟨hdir, g1, hg1, fsq, hsub, hres⟩ :=
      sanitize_removed env.vendorSrc fuel vendor pinned _ fs4 removed hs q hq
    obtain ⟨g, hg, hn⟩ := exists_same_name pinned _ hnames g1 hg1
    refine ⟨h3i q hdir, g, hg, fsq, fun d hd => h3d d (hsub d hd), ?_⟩
    rw [hn]; exact hres

/-- C16, as stated, fails: the entries "h.x/r/a" and "h.x/r/b" share the root
"h.x/r"; in the revision loop both resolve to ("/v/src/h.x/r", git), so the set of
the claim is {"/v/src/h.x/r/.git"}; `sanitize` removes that directory for the
first entry and, for the second, walks on to "h.x" and removes "/v/src/h.x/.hg". -/
theorem genGomfileLock_removes_ancestor :
    metaDirOf sharedRootFS.isDir vendorSrcDir 3 "/v" "h.x/r/a" = some "/v/src/h.x/r/.git" ∧
    metaDirOf sharedRootFS.isDir vendorSrcDir 3 "/v" "h.x/r/b" = some "/v/src/h.x/r/.git" ∧
    genGomfileLock (sampleEnv sharedRootGoms) 3 sharedRootFS = some sharedRootRun ∧
    sharedRootRun.removed = ["/v/src/h.x/r/.git", "/v/src/h.x/.hg"] := by
  decide

/-- C16, amended: in a run of `genGomfileLock` that returns with a nil error, the set
of directories removed by `sanitize` is exactly the set of root/metadataDir over
the (root, backend) pairs that `getVCSRoot` resolves for each filtered-in entry on
the vendor tree as it is when `sanitize` reaches that entry: the tree left by the
write of the lock file, the removal of the internal roots and the `sanitize` steps
for the entries before it.  For an entry whose step-3 metadata directory is still
in that tree this is its step-3 pair.  Every removed directory was a directory of
the tree at the start, and every metadata directory resolved in step 3 is dealt
with: it is a removed directory, or lies beneath one, or beneath the internal-roots
directory. -/
theorem genGomfileLock_removed (env : LockEnv) (fuel : Nat) (fs : FS) (r : LockRun)
    (h : genGomfileLock env fuel fs = some r) (he : r.err = none) :
    ∃ allGoms vendor fs1, env.parsed = .ok allGoms ∧ env.absVendor = .ok vendor ∧
      osCreate fs "Gomfile.lock" = .ok fs1 ∧
      (∀ q, q ∈ r.removed ↔
        ∃ pre g post t rpre p vcs,
          allGoms.filter (passesFilter env.matchEnv env.matchOS) = pre ++ g :: post ∧
          sanitize env.vendorSrc fuel vendor pre
            (RemoveAll (writeString fs1 "Gomfile.lock" r.written)
              (Join [env.vendorSrc vendor, env.internalRoots])) = some (t, rpre) ∧
          getVCSRoot t.isDir env.vendorSrc fuel vendor g.name = some (p, some vcs) ∧
          q = Join [p, vcs.dir]) ∧
      (∀ pre g post t rpre p vcs,
        allGoms.filter (passesFilter env.matchEnv env.matchOS) = pre ++ g :: post →
        sanitize env.vendorSrc fuel vendor pre
          (RemoveAll (writeString fs1 "Gomfile.lock" r.written)
            (Join [env.vendorSrc vendor, env.internalRoots])) = some (t, rpre) →
        getVCSRoot fs.isDir env.vendorSrc fuel vendor g.name = some (p, some vcs) →
        t.isDir (Join [p, vcs.dir]) = true →
        getVCSRoot t.isDir env.vendorSrc fuel vendor g.name = some (p, some vcs)) ∧
      (∀ q ∈ r.removed, fs.isDir q = true) ∧
      (∀ g ∈ allGoms.filter (passesFilter env.matchEnv env.matchOS), ∀ p vcs,
        getVCSRoot fs.isDir env.vendorSrc fuel vendor g.name = some (p, some vcs) →
        under (Join [env.vendorSrc vendor, env.internalRoots]) (Join [p, vcs.dir]) = true ∨
        ∃ q ∈ r.removed, under q (Join [p, vcs.dir]) = true) := by
  obtain ⟨allGoms, vendor, fs1, hp, hv, hc, hsan⟩ := genGomfileLock_sanitize env fuel fs r h he
  obtain ⟨allGoms2, vendor2, hp2, hv2, hclear, _, _, hgone, _, hrem⟩ :=
    genGomfileLock_cleanup env fuel fs r h he
  rw [hp] at hp2
  cases hp2
  rw [hv] at hv2
  cases hv2
  obtain ⟨hd1, _⟩ := osCreate_ok fs fs1 "Gomfile.lock" hc
  refine ⟨allGoms, vendor, fs1, hp, hv, hc, ?_, ?_, fun q hq => (hrem q hq).1, ?_⟩
  · exact sanitize_mem_iff env.vendorSrc fuel vendor _ _ r.fs r.removed hsan
  · intro pre g post t rpre p vcs _ hpre hroot hstill
    refine getVCSRoot_mono fs.isDir t.isDir env.vendorSrc ?_ fuel vendor g.name p vcs hroot hstill
    intro d hd
    rw [isDir_iff_mem] at hd ⊢
    have h1 := (sanitize_frame env.vendorSrc fuel vendor pre _ t rpre hpre).1 d hd
    have h2 := removeAll_dirs_subset _ _ d h1
    rw [← hd1]; exact h2
  · intro g hg p vcs hroot
    have hin : Join [p, vcs.dir] ∈ fs.dirs :=
      (isDir_iff_mem fs _).mp
        (getVCSRoot_isDir fs.isDir env.vendorSrc fuel vendor g.name p vcs hroot)
    have hout : Join [p, vcs.dir] ∉ r.fs.dirs := by
      intro hmem
      have := hclear g hg p vcs hroot
      rw [(isDir_iff_mem r.fs _).mpr hmem] at this
      cases this
    exact hgone _ hin hout

/-- C16, amended, at the shared root. -/
theorem genGomfileLock_removed_witness :
    ∃ allGoms vendor fs1, (sampleEnv sharedRootGoms).parsed = .ok allGoms ∧
      (sampleEnv sharedRootGoms).absVendor = .ok vendor ∧
      osCreate sharedRootFS "Gomfile.lock" = .ok fs1 ∧
      (∀ q, q ∈ sharedRootRun.removed ↔
        ∃ pre g post t rpre p vcs,
          allGoms.filter (passesFilter isTest isLinux) = pre ++ g :: post ∧
          sanitize vendorSrcDir 3 vendor pre
            (RemoveAll (writeString fs1 "Gomfile.lock" sharedRootRun.written)
              (Join [vendorSrcDir vendor, "_internal"])) = some (t, rpre) ∧
          getVCSRoot t.isDir vendorSrcDir 3 vendor g.name = some (p, some vcs) ∧
          q = Join [p, vcs.dir]) ∧
      (∀ pre g post t rpre p vcs,
        allGoms.filter (passesFilter isTest isLinux) = pre ++ g :: post →
        sanitize vendorSrcDir 3 vendor pre
          (RemoveAll (writeString fs1 "Gomfile.lock" sharedRootRun.written)
            (Join [vendorSrcDir vendor, "_internal"])) = some (t, rpre) →
        getVCSRoot sharedRootFS.isDir vendorSrcDir 3 vendor g.name = some (p, some vcs) →
        t.isDir (Join [p, vcs.dir]) = true →
        getVCSRoot t.isDir vendorSrcDir 3 vendor g.name = some (p, some vcs)) ∧
      (∀ q ∈ sharedRootRun.removed, sharedRootFS.isDir q = true) ∧
      (∀ g ∈ allGoms.filter (passesFilter isTest isLinux), ∀ p vcs,
        getVCSRoot sharedRootFS.isDir vendorSrcDir 3 vendor g.name = some (p, some vcs) →
        under (Join [vendorSrcDir vendor, "_internal"]) (Join [p, vcs.dir]) = true ∨
        ∃ q ∈ sharedRootRun.removed, under q (Join [p, vcs.dir]) = true) :=
  genGomfileLock_removed (sampleEnv sharedRootGoms) 3 sharedRootFS sharedRootRun
    (by decide) rfl

/-- C17, as stated, fails: "h.x/r" resolves to the root "/v/src/h.x/r" (git); the
repository "h.x/r/sub" inside it is a dependency of its own, and its metadata
directory "/v/src/h.x/r/sub/.git", which lies under the root "/v/src/h.x/r" and
outside "/v/src/h.x/r/.git", is removed together with the file in it. -/
theorem genGomfileLock_removes_inner_metadata :
    metaDirOf nestedFS.isDir vendorSrcDir 3 "/v" "h.x/r" = some "/v/src/h.x/r/.git" ∧
    genGomfileLock (sampleEnv nestedGoms) 3 nestedFS = some nestedRun ∧
    ("/v/src/h.x/r/sub/.git/HEAD", "ref") ∈ nestedFS.files ∧
    under "/v/src/h.x/r" "/v/src/h.x/r/sub/.git/HEAD" = true ∧
    under "/v/src/h.x/r/.git" "/v/src/h.x/r/sub/.git/HEAD" = false ∧
    ("/v/src/h.x/r/sub/.git/HEAD", "ref") ∉ nestedRun.fs.files ∧
    (nestedFS.files.filter (fun f => under "/v/src/h.x/r" f.1
      && !under "/v/src/h.x/r/.git" f.1)).length = 3 ∧
    (nestedRun.fs.files.filter (fun f => under "/v/src/h.x/r" f.1
      && !under "/v/src/h.x/r/.git" f.1)).length = 2 := by
  decide

/-- C17, amended: after a run of `genGomfileLock` that returns with a nil error,
for every filtered-in entry that resolved to a root in the revision loop, that
backend's metadata directory under the root no longer exists; no directory is
added and no file other than "Gomfile.lock" is added or changed; and every
directory or file that is gone lies in the internal-roots directory or at or
beneath one of the directories removed by `sanitize`.  Each of these was a
directory of the tree at the start and is the metadata directory (.git, .hg or
.bzr) of the root that `getVCSRoot` resolves for a filtered-in entry on the tree as
it is when `sanitize` reaches that entry. -/
theorem genGomfileLock_sanitized (env : LockEnv) (fuel : Nat) (fs : FS) (r : LockRun)
    (h : genGomfileLock env fuel fs = some r) (he : r.err = none) :
    ∃ allGoms vendor fs1, env.parsed = .ok allGoms ∧ env.absVendor = .ok vendor ∧
      osCreate fs "Gomfile.lock" = .ok fs1 ∧
      (∀ g ∈ allGoms.filter (passesFilter env.matchEnv env.matchOS), ∀ p vcs,
        getVCSRoot fs.isDir env.vendorSrc fuel vendor g.name = some (p, some vcs) →
        r.fs.isDir (Join [p, vcs.dir]) = false) ∧
      (∀ d ∈ r.fs.dirs, d ∈ fs.dirs) ∧
      (∀ f ∈ r.fs.files, f.1 = "Gomfile.lock" ∨ f ∈ fs.files) ∧
      (∀ d ∈ fs.dirs, d ∉ r.fs.dirs →
        under (Join [env.vendorSrc vendor, env.internalRoots]) d = true ∨
        ∃ q ∈ r.removed, under q d = true) ∧
      (∀ f ∈ fs.files, f.1 ≠ "Gomfile.lock" → f ∉ r.fs.files →
        under (Join [env.vendorSrc vendor, env.internalRoots]) f.1 = true ∨
        ∃ q ∈ r.removed, under q f.1 = true) ∧
      (∀ q ∈ r.removed, fs.isDir q = true ∧
        ∃ pre g post t rpre p vcs,
          allGoms.filter (passesFilter env.matchEnv env.matchOS) = pre ++ g :: post ∧
          sanitize env.vendorSrc fuel vendor pre
            (RemoveAll (writeString fs1 "Gomfile.lock" r.written)
              (Join [env.vendorSrc vendor, env.internalRoots])) = some (t, rpre) ∧
          getVCSRoot t.isDir env.vendorSrc fuel vendor g.name = some (p, some vcs) ∧
          q = Join [p, VcsCmd.dir vcs]) := by
  obtain ⟨allGoms, vendor, fs1, hp, hv, hc, hsan⟩ := genGomfileLock_sanitize env fuel fs r h he
  obtain ⟨allGoms2, vendor2, hp2, hv2, hclear, hdirs, hfiles, hgone, hfgone, hrem⟩ :=
    genGomfileLock_cleanup env fuel fs r h he
  rw [hp] at hp2
  cases hp2
  rw [hv] at hv2
  cases hv2
  refine ⟨allGoms, vendor, fs1, hp, hv, hc, hclear, hdirs, hfiles, hgone, hfgone, ?_⟩
  intro q hq
  exact ⟨(hrem q hq).1,
    (sanitize_mem_iff env.vendorSrc fuel vendor _ _ r.fs r.removed hsan q).mp hq⟩

/-- C17, amended, at the nested repositories. -/
theorem genGomfileLock_sanitized_witness :
    ∃ allGoms vendor fs1, (sampleEnv nestedGoms).parsed = .ok allGoms ∧
      (sampleEnv nestedGoms).absVendor = .ok vendor ∧
      osCreate nestedFS "Gomfile.lock" = .ok fs1 ∧
      (∀ g ∈ allGoms.filter (passesFilter isTest isLinux), ∀ p vcs,
        getVCSRoot nestedFS.isDir vendorSrcDir 3 vendor g.name = some (p, some vcs) →
        nestedRun.fs.isDir (Join [p, vcs.dir]) = false) ∧
      (∀ d ∈ nestedRun.fs.dirs, d ∈ nestedFS.dirs) ∧
      (∀ f ∈ nestedRun.fs.files, f.1 = "Gomfile.lock" ∨ f ∈ nestedFS.files) ∧
      (∀ d ∈ nestedFS.dirs, d ∉ nestedRun.fs.dirs →
        under (Join [vendorSrcDir vendor, "_internal"]) d = true ∨
        ∃ q ∈ nestedRun.removed, under q d = true) ∧
      (∀ f ∈ nestedFS.files, f.1 ≠ "Gomfile.lock" → f ∉ nestedRun.fs.files →
        under (Join [vendorSrcDir vendor, "_internal"]) f.1 = true ∨
        ∃ q ∈ nestedRun.removed, under q f.1 = true) ∧
      (∀ q ∈ nestedRun.removed, nestedFS.isDir q = true ∧
        ∃ pre g post t rpre p vcs,
          allGoms.filter (passesFilter isTest isLinux) = pre ++ g :: post ∧
          sanitize vendorSrcDir 3 vendor pre
            (RemoveAll (writeString fs1 "Gomfile.lock" nestedRun.written)
              (Join [vendorSrcDir vendor, "_internal"])) = some (t, rpre) ∧
          getVCSRoot t.isDir vendorSrcDir 3 vendor g.name = some (p, some vcs) ∧
          q = Join [p, VcsCmd.dir vcs]) :=
  genGomfileLock_sanitized (sampleEnv nestedGoms) 3 nestedFS nestedRun (by decide) rfl

/-! ## Test vectors of the embedded library functions and of the fixtures -/

theorem filepath_vectors :
    Clean "" = "." ∧ Clean "/" = "/" ∧ Clean "a//b/./c/.." = "a/b" ∧ Clean "/../a" = "/a" ∧
    Clean "../../a/.." = "../.." ∧ Clean "a/.." = "." ∧ Clean "/a/b/../.." = "/" ∧
    Dir "host/org/repo/subpkg" = "host/org/repo" ∧ Dir "host" = "." ∧ Dir "" = "." ∧
    Dir ".." = "." ∧ Dir "../a" = ".." ∧ Dir "/a" = "/" ∧ Dir "/" = "/" ∧
    Join ["/v", "src"] = "/v/src" ∧ Join ["", "a", "", "b"] = "a/b" ∧
    Join ["/v/src", "/a"] = "/v/src/a" ∧ Join ["", ""] = "" ∧ Join ["/v/src", "."] = "/v/src" := by
  decide

theorem import_kind_vectors :
    isStandardImport "fmt" = true ∧ isStandardImport "pkgs/alpha" = true ∧
    isStandardImport "github.com/x/y" = false ∧ isStandardImport "./sub" = false ∧
    IsLocalImport "./sub" = true ∧ IsLocalImport "../x" = true ∧ IsLocalImport "." = true ∧
    IsLocalImport ".hidden" = false ∧ IsLocalImport "a.b/sub" = false ∧
    appendPkgs ["a"] ["b", "a", "c"] = ["a", "b", "c"] := by
  decide

theorem getVCSRoot_vectors :
    getVCSRoot (dirsOf ["/v/src/host/org/repo/.git"]) vendorSrcDir 5 "/v"
      "host/org/repo/subpkg" = some ("/v/src/host/org/repo", some VcsCmd.git) ∧
    getVCSRoot (dirsOf []) vendorSrcDir 5 "/v" "host/org/repo/subpkg" = some ("", none) ∧
    getVCSRoot (dirsOf ["/v/src/.hg"]) vendorSrcDir 5 "/v" "" = some ("/v/src", some VcsCmd.hg) ∧
    getVCSRoot (dirsOf []) vendorSrcDir 5 "/v" "../x" = some ("", none) := by
  decide

theorem scanDirectory_vectors :
    scanDirectory (importerOf diamondTable) 3 "." "/w"
      = some (["h.x/a", "h.x/c", "h.x/b"], none) ∧
    scanDirectory (importerOf diamondTable) 2 "." "/w" = none ∧
    (scanDirectoryT (importerOf diamondTable) 3 "." "/w").1
      = [("h.x/a", "/w"), ("h.x/c", "/g/h.x/a"), ("h.x/b", "/w"), ("h.x/c", "/g/h.x/b")] := by
  decide

end GenGo
